import Mathlib

/-!
# The search core of the yaga MCSat solver (`src/Solver.cpp`)

A shallow embedding of `Solver::analyze_conflicts`, `Solver::learn`,
`Solver::is_semantic_split`, `Solver::backtrack_with`, `Solver::init`, `Solver::restart`
and `Solver::check`, and of the logging functions of `src/metrics/Metrics.cpp`, followed
by the theorems about them.

Conventions of the embedding:

* a C++ `int` is an `Int`; where the range of `int` matters it is stated explicitly
  (`INT_MAX`);
* a function that can throw (`std::optional::value()` on an empty optional), run into
  undefined behaviour (indexing an empty range, signed overflow) or fail an `assert`
  returns an `Option`; `none` stands for any of those three outcomes;
* the dispatcher is an event log: every notification is appended to `Solver.events`
  together with what the listener is shown (the trail, the learned partition);
* a clause reference is represented by the clause it refers to: clauses are immutable and
  are never moved inside the database;
* the theory, the variable order, the restart policy and the conflict analysis are
  parameters; the loop of `check` is run with fuel.
-/

namespace Yaga

/-! ## Data model -/

/-- Kind of a variable (`Variable::Type`). Only the distinction between `boolean` and the
other kinds is used by the solver core. -/
inductive VarType where
  | boolean
  | rational
  deriving DecidableEq

/-- Modelled from the spec: `Variable` (header not in `src/`): a kind and an ordinal
unique within the kind. -/
structure Variable where
  ord : Nat
  type : VarType
  deriving DecidableEq

/-- Modelled from the spec: `Literal` (header not in `src/`): a Boolean variable, given by
its ordinal, and a polarity bit. -/
structure Literal where
  ord : Nat
  is_negation : Bool
  deriving DecidableEq

/-- The Boolean variable of a literal: `Literal::var()`. -/
def Literal.var (l : Literal) : Variable := ⟨l.ord, VarType.boolean⟩

/-- Modelled from the spec: the order `operator<` of `Literal` (header not in `src/`).
The spec only says that clauses are compared by lexicographic content; the order on
literals used here compares the variable first and the polarity second. The theorems
below use only that it is a strict total order. -/
def Literal.key (l : Literal) : Nat := 2 * l.ord + (if l.is_negation then 1 else 0)

/-- Strict order on literals, `Literal::operator<`. -/
def Literal.lt (a b : Literal) : Bool := Nat.blt a.key b.key

/-- A clause is a sequence of literals (`std::vector<Literal>`). -/
abbrev Clause := List Literal

/-- Lexicographic comparison of two clauses: `std::vector::operator<`, that is
`std::lexicographical_compare` with `Literal::operator<`. -/
def Clause.lex_lt : Clause → Clause → Bool
  | [], [] => false
  | [], _ :: _ => true
  | _ :: _, [] => false
  | a :: as, b :: bs =>
    if Literal.lt a b then true
    else if Literal.lt b a then false
    else Clause.lex_lt as bs

/-- The comparator handed to `std::sort` in `Solver::learn` (lines 72-85). -/
def clause_less (lhs rhs : Clause) : Bool :=
  if lhs.length < rhs.length then true
  else if lhs.length > rhs.length then false
  else Clause.lex_lt lhs rhs

/-- Insertion of one clause into a list sorted by `clause_less`. -/
def sort_insert (c : Clause) : List Clause → List Clause
  | [] => [c]
  | d :: ds => if clause_less d c then d :: sort_insert c ds else c :: d :: ds

/-- The call `std::sort(clauses.begin(), clauses.end(), clause_less)`. `std::sort` does
not fix the algorithm; `sort_clauses_unique_result` below shows that every sorted
rearrangement of the input is this one, because `clause_less` is a strict total order. -/
def sort_clauses : List Clause → List Clause
  | [] => []
  | c :: cs => sort_insert c (sort_clauses cs)

/-- The call `clauses.erase(std::unique(...), clauses.end())`: of every run of adjacent
equal clauses one is kept (which one cannot be told: the clauses of a run are equal). -/
def unique : List Clause → List Clause
  | [] => []
  | [c] => [c]
  | c :: d :: cs => if c = d then unique (d :: cs) else c :: unique (d :: cs)

/-- The order "not greater": `a` may stand before `b` in a sorted list. -/
def clause_le (a b : Clause) : Prop := clause_less b a = false

/-- Lines 72-86 of `Solver::learn`: sort, then remove adjacent duplicates. -/
def sort_unique (clauses : List Clause) : List Clause := unique (sort_clauses clauses)

/-! ## Trail -/

/-- Modelled from the spec: the source of a trail entry (`Trail.h` is not in `src/`):
a decision, or a propagation with an optional reason clause. -/
inductive Source where
  | decision
  | propagation (reason : Option Clause)
  deriving DecidableEq

/-- Modelled from the spec: a trail entry, the triple (variable, source,
decision level). -/
structure Entry where
  var : Variable
  source : Source
  level : Int
  deriving DecidableEq

/-- Modelled from the spec: the Boolean model (`Model<bool>`, header not in `src/`), a
partial map from ordinals to values; an ordinal is defined when it has a binding. -/
abbrev Model := List (Nat × Bool)

/-- Value bound to an ordinal, if any. -/
def Model.value (m : Model) (ord : Nat) : Option Bool :=
  match m with
  | [] => none
  | (o, b) :: rest => if o = ord then some b else Model.value rest ord

/-- The query `Model::is_defined(ord)`. -/
def Model.is_defined (m : Model) (ord : Nat) : Bool := (Model.value m ord).isSome

/-- The update `Model::set_value(ord, value)`: binds the value and marks the ordinal
defined. -/
def Model.set_value (m : Model) (ord : Nat) (b : Bool) : Model :=
  (ord, b) :: m.filter (fun p => p.1 != ord)

/-- Modelled from the spec: the trail (`Trail.h` is not in `src/`). Entries are kept in
append order, each with its level; `level` is the current decision level. Only the
Boolean model is represented: the functions embedded here read and write no other
model. -/
structure Trail where
  entries : List Entry
  level : Int
  model : Model
  deriving DecidableEq

/-- The empty trail at decision level 0. -/
def Trail.empty : Trail := ⟨[], 0, []⟩

/-- Current decision level: `Trail::decision_level()`. -/
def Trail.decision_level (tr : Trail) : Int := tr.level

/-- The entry of a variable, if it is assigned. -/
def Trail.entry_of (tr : Trail) (v : Variable) : Option Entry :=
  tr.entries.find? (fun e => e.var = v)

/-- Decision level of a variable: `Trail::decision_level(var)`, an empty optional when the
variable is unassigned. -/
def Trail.decision_level_of (tr : Trail) (v : Variable) : Option Int :=
  (tr.entry_of v).map (fun e => e.level)

/-- Reason clause of a variable: `Trail::reason(var)`, `nullptr` (here `none`) for a
decision, a propagation without reason clause, or an unassigned variable. -/
def Trail.reason (tr : Trail) (v : Variable) : Option Clause :=
  match tr.entry_of v with
  | some ⟨_, Source.propagation r, _⟩ => r
  | _ => none

/-- Entries of one level in append order: `Trail::assigned(level)`. -/
def Trail.assigned (tr : Trail) (level : Int) : List Entry :=
  tr.entries.filter (fun e => e.level = level)

/-- Modelled from the spec: `backtrack(level)` removes all entries with entry-level >
level and clears the corresponding model defined-flags; the current decision level
becomes `level`. -/
def Trail.backtrack (tr : Trail) (level : Int) : Trail :=
  { entries := tr.entries.filter (fun e => e.level ≤ level)
    level := level
    model := tr.model.filter (fun p =>
      !(tr.entries.any (fun e => level < e.level && e.var = Variable.mk p.1 VarType.boolean))) }

/-- Modelled from the spec: `decide(var)` requires var undefined; appends a new entry at
level = current+1 (a new decision level is opened). A violated precondition is a fatal
assertion (`none`). -/
def Trail.decide (tr : Trail) (v : Variable) : Option Trail :=
  if (tr.entry_of v).isSome then none
  else some { tr with entries := tr.entries ++ [⟨v, Source.decision, tr.level + 1⟩]
                      level := tr.level + 1 }

/-- Modelled from the spec: `propagate(var, reason, level)` requires var undefined and
level ≤ current decision level; the caller sets the model value. A violated precondition
is a fatal assertion (`none`). -/
def Trail.propagate (tr : Trail) (v : Variable) (reason : Option Clause) (level : Int) :
    Option Trail :=
  if (tr.entry_of v).isSome then none
  else if level ≤ tr.level then
    some { tr with entries := tr.entries ++ [⟨v, Source.propagation reason, level⟩] }
  else none

/-- A literal is falsified on the trail when its variable is defined in the Boolean model
and the value makes the literal false. -/
def Trail.falsified (tr : Trail) (l : Literal) : Bool :=
  Model.value tr.model l.ord == some l.is_negation

/-! ## Solver state -/

/-- Largest value of a C++ `int`: `std::numeric_limits<int>::max()`. -/
def INT_MAX : Int := 2147483647

/-- A notification sent through the dispatcher, with the arguments the listeners receive:
the learned partition of the database and the trail as they are at that moment. -/
inductive Event where
  | on_variable_resize (type : VarType) (num_vars : Nat)
  | on_init (trail : Trail)
  | on_conflict_resolved (trail : Trail) (other_clause : Clause)
  | on_learned_clause (learned : List Clause) (trail : Trail) (learned_ref : Clause)
  | on_before_backtrack (trail : Trail) (level : Int)
  | on_restart (trail : Trail)
  deriving DecidableEq

/-- The state of `Solver` that the embedded member functions read or write: the trail, the
two partitions of the clause database, the log of dispatched events, and the counters.
The counters are declared in `Solver.h`, which is not in `src/`; they are natural numbers
here, without an upper bound. -/
structure Solver where
  trail : Trail
  input : List Clause
  learned : List Clause
  events : List Event
  total_conflicts : Nat
  total_conflict_clauses : Nat
  total_learned_clauses : Nat
  total_decisions : Nat
  total_backtracks : Nat
  total_restarts : Nat
  num_bool_vars : Nat
  deriving DecidableEq

/-- A solver with the given trail, an empty database, no event and all counters at 0. -/
def Solver.with_trail (tr : Trail) : Solver := ⟨tr, [], [], [], 0, 0, 0, 0, 0, 0, 0⟩

/-- Modelled from the spec: `Database::learn_clause` (header not in `src/`) takes
ownership of the clause, appends it to the learned partition and returns a stable
reference to it. -/
def Solver.learn_clause (s : Solver) (clause : Clause) : Solver × Clause :=
  ({ s with learned := s.learned ++ [clause] }, clause)

/-! ## `Solver::analyze_conflicts` -/

/-- What one call of `analysis.analyze` yields: the derived clause, its backtrack level,
the resolvents passed to the callback, and the new state of the collaborators. -/
structure Analyzed (σ : Type) where
  clause : Clause
  level : Int
  resolved : List Clause
  ext : σ

/-- The conflict analyzer and the minimizer (`Conflict_analysis`, `Subsumption`: not in
`src/`), taken as parameters. `σ` is whatever state they keep between calls. -/
structure Analysis (σ : Type) where
  analyze : σ → Trail → Clause → Analyzed σ
  minimize : σ → Trail → Clause → Clause × σ

/-- Lines 40-48: analyze one conflict, then minimize the derived clause unless it is
empty. -/
def derive_clause {σ : Type} (A : Analysis σ) (tr : Trail) (ext : σ) (conflict : Clause) :
    Analyzed σ :=
  let r := A.analyze ext tr conflict
  if r.clause.isEmpty then r
  else
    let m := A.minimize r.ext tr r.clause
    { r with clause := m.1, ext := m.2 }

/-- The local state of the loop of `analyze_conflicts`. -/
structure Analyze_state (σ : Type) where
  solver : Solver
  ext : σ
  learned : List Clause
  level : Int

/-- One iteration of the loop of `analyze_conflicts` (lines 35-61). -/
def analyze_step {σ : Type} (A : Analysis σ) (st : Analyze_state σ) (conflict : Clause) :
    Analyze_state σ :=
  let s1 := { st.solver with total_conflict_clauses := st.solver.total_conflict_clauses + 1 }
  let r := derive_clause A s1.trail st.ext conflict
  let s2 := { s1 with events := s1.events ++ r.resolved.map (Event.on_conflict_resolved s1.trail) }
  if r.level < st.level then
    { solver := s2, ext := r.ext, learned := [r.clause], level := r.level }
  else if r.level = st.level then
    { solver := s2, ext := r.ext, learned := st.learned ++ [r.clause], level := st.level }
  else
    { solver := s2, ext := r.ext, learned := st.learned, level := st.level }

/-- The function `Solver::analyze_conflicts` (lines 26-67). -/
def analyze_conflicts {σ : Type} (A : Analysis σ) (s : Solver) (ext : σ)
    (conflicts : List Clause) : (List Clause × Int) × Solver × σ :=
  let s0 := { s with total_conflicts := s.total_conflicts + 1 }
  let st := conflicts.foldl (analyze_step A) ⟨s0, ext, [], INT_MAX⟩
  ((st.learned, st.level), st.solver, st.ext)

/-- The clauses and levels that the loop of `analyze_conflicts` obtains from
`derive_clause`, in the order of the conflicts. -/
def derived {σ : Type} (A : Analysis σ) (tr : Trail) : σ → List Clause → List (Clause × Int)
  | _, [] => []
  | ext, c :: cs =>
    let r := derive_clause A tr ext c
    (r.clause, r.level) :: derived A tr r.ext cs

/-- The minimized derived clauses with their levels, read off the description of the
analysis and not off the code: for each conflict in order the analyzer gives a clause and
a level; an empty clause is kept as it is, a clause that is not empty is replaced by what
the minimizer makes of it; the level is the one of the analyzer. The collaborators are
called in that order, each on the state the previous call left. This is what
`analyze_conflicts` is compared with. -/
def minimized_derived {σ : Type} (A : Analysis σ) (tr : Trail) :
    σ → List Clause → List (Clause × Int)
  | _, [] => []
  | ext, conflict :: rest =>
    match (A.analyze ext tr conflict).clause with
    | [] => ([], (A.analyze ext tr conflict).level) ::
        minimized_derived A tr (A.analyze ext tr conflict).ext rest
    | l :: ls =>
      ((A.minimize (A.analyze ext tr conflict).ext tr (l :: ls)).1,
          (A.analyze ext tr conflict).level) ::
        minimized_derived A tr (A.minimize (A.analyze ext tr conflict).ext tr (l :: ls)).2 rest

/-- The state of the collaborators after the calls that `minimized_derived` describes: one
call of the analyzer per conflict, and one call of the minimizer per clause that is not
empty. -/
def minimized_state {σ : Type} (A : Analysis σ) (tr : Trail) : σ → List Clause → σ
  | ext, [] => ext
  | ext, conflict :: rest =>
    match (A.analyze ext tr conflict).clause with
    | [] => minimized_state A tr (A.analyze ext tr conflict).ext rest
    | l :: ls =>
      minimized_state A tr (A.minimize (A.analyze ext tr conflict).ext tr (l :: ls)).2 rest

/-! ## `Solver::is_semantic_split` and `Solver::learn` -/

/-- The function `Solver::is_semantic_split` (lines 116-120). `&&` does not evaluate its
right operand for a clause with fewer than 2 literals; `value()` throws when a variable
is unassigned (`none`). -/
def is_semantic_split (tr : Trail) (clause : Clause) : Option Bool :=
  match clause with
  | l0 :: l1 :: _ =>
    match tr.decision_level_of l0.var, tr.decision_level_of l1.var with
    | some a, some b => some (a == b)
    | _, _ => none
  | _ => some false

/-- Lines 89-91: `std::any_of` over `!is_semantic_split`, stopping at the first
clause that is not a semantic split. -/
def any_not_split (tr : Trail) : List Clause → Option Bool
  | [] => some false
  | c :: cs =>
    match is_semantic_split tr c with
    | none => none
    | some false => some true
    | some true => any_not_split tr cs

/-- Lines 93-95: `erase(remove_if(is_semantic_split))`; the predicate is evaluated on
every clause. -/
def remove_split (tr : Trail) : List Clause → Option (List Clause)
  | [] => some []
  | c :: cs =>
    match is_semantic_split tr c with
    | none => none
    | some b =>
      match remove_split tr cs with
      | none => none
      | some r => some (if b then r else c :: r)

/-- Lines 88-96: the preference of UIP clauses over semantic-split clauses. -/
def prefer_uip (tr : Trail) (clauses : List Clause) : Option (List Clause) :=
  match any_not_split tr clauses with
  | none => none
  | some true => remove_split tr clauses
  | some false => some clauses

/-- The loop of `learn` (lines 98-111): count, insert into the database, notify. -/
def learn_loop (s : Solver) : List Clause → Solver
  | [] => s
  | clause :: rest =>
    let s1 := { s with total_learned_clauses := s.total_learned_clauses + 1 }
    let (s2, learned_ref) := s1.learn_clause clause
    let s3 := { s2 with events :=
      s2.events ++ [Event.on_learned_clause s2.learned s2.trail learned_ref] }
    learn_loop s3 rest

/-- The function `Solver::learn` (lines 69-114). The returned range is given by its
content: the entries of `learned()` from position `size() - clauses.size()` on. -/
def learn (s : Solver) (clauses : List Clause) : Option (Solver × List Clause) :=
  match prefer_uip s.trail (sort_unique clauses) with
  | none => none
  | some kept =>
    let s1 := learn_loop s kept
    some (s1, s1.learned.drop (s1.learned.length - kept.length))

/-- The clauses that remain after deduplication and the preference of UIP clauses, read
off the description of `learn`: the sorted distinct clauses, without the semantic splits
when a UIP clause is among them. -/
def kept_clauses (tr : Trail) (clauses : List Clause) : List Clause :=
  if (sort_unique clauses).any (fun c => is_semantic_split tr c == some false) then
    (sort_unique clauses).filter (fun c => is_semantic_split tr c == some false)
  else sort_unique clauses

/-- The notifications `on_learned_clause` of one call of `learn`: one per inserted clause,
each showing the learned partition as it is right after the insertion of that clause. -/
def learned_events (learned : List Clause) (tr : Trail) : List Clause → List Event
  | [] => []
  | c :: cs =>
    Event.on_learned_clause (learned ++ [c]) tr c :: learned_events (learned ++ [c]) tr cs

/-! ## `Solver::backtrack_with` -/

/-- The loop of lines 139-149: scan the literals after the first one while they are at
`top_level`, keeping the one whose variable `is_before` ranks first. `none` when the
assertion of line 144 fails. -/
def select_top (tr : Trail) (is_before : Variable → Variable → Bool) (top_level : Int) :
    Literal → List Literal → Option Literal
  | top, [] => some top
  | top, l :: rest =>
    if tr.decision_level_of l.var = some top_level then
      if (tr.reason l.var).isSome then none
      else if is_before l.var top.var then select_top tr is_before top_level l rest
      else select_top tr is_before top_level top rest
    else some top

/-- The two assertions of lines 153-154. -/
def split_asserts (tr : Trail) (level : Int) : Bool :=
  if tr.decision_level ≥ level + 1 then
    match (tr.assigned (level + 1)).head? with
    | some e => e.var.type != VarType.boolean
    | none => false
  else false

/-- The loop of the UIP branch (lines 179-186). `none` when a clause is empty or an
assertion of `Trail::propagate` fails. -/
def uip_propagate (level : Int) : Trail → List Clause → Option Trail
  | tr, [] => some tr
  | _, [] :: _ => none
  | tr, (l :: ls) :: rest =>
    if Model.is_defined tr.model l.var.ord then uip_propagate level tr rest
    else
      match tr.propagate l.var (some (l :: ls)) level with
      | none => none
      | some tr1 =>
        uip_propagate level
          { tr1 with model := Model.set_value tr1.model l.var.ord (!l.is_negation) } rest

/-- The semantic-split branch (lines 134-164) for a first clause `l0 :: rest`. -/
def backtrack_split (is_before : Variable → Variable → Bool) (s : Solver)
    (clauses : List Clause) (l0 : Literal) (rest : List Literal) (level : Int) :
    Option Solver :=
  if clauses.all (fun c => is_semantic_split s.trail c == some true) then
    match s.trail.decision_level_of l0.var with
    | none => none
    | some top_level =>
      match select_top s.trail is_before top_level l0 rest with
      | none => none
      | some top =>
        if INT_MAX ≤ level then none
        else if split_asserts s.trail level then
          match (s.trail.backtrack level).decide top.var with
          | none => none
          | some tr =>
            some { s with trail :=
              { tr with model := Model.set_value tr.model top.var.ord (!top.is_negation) } }
        else none
  else none

/-- The UIP branch (lines 168-186). -/
def backtrack_uip (s : Solver) (clauses : List Clause) (level : Int) : Option Solver :=
  if clauses.all (fun c => is_semantic_split s.trail c == some false) then
    match uip_propagate level (s.trail.backtrack level) clauses with
    | none => none
    | some tr => some { s with trail := tr }
  else none

/-- The function `Solver::backtrack_with` (lines 122-188); `is_before` is
`variable_order->is_before`. `none` when `clauses` is empty, `is_semantic_split` throws,
`level + 1` overflows, or an assertion fails. -/
def backtrack_with (is_before : Variable → Variable → Bool) (s : Solver)
    (clauses : List Clause) (level : Int) : Option Solver :=
  let s1 := { s with events := s.events ++ [Event.on_before_backtrack s.trail level]
                     total_backtracks := s.total_backtracks + 1 }
  match clauses with
  | [] => none
  | c0 :: _ =>
    match is_semantic_split s1.trail c0, c0 with
    | none, _ => none
    | some true, l0 :: rest => backtrack_split is_before s1 clauses l0 rest level
    | some true, [] => none
    | some false, _ => backtrack_uip s1 clauses level

/-- The leading run of a clause at a level: its literals before the first literal whose
variable is not assigned at that level. These are the literals that the loop of lines
139-149 examines. -/
def leading_run (tr : Trail) (level : Int) (clause : Clause) : List Literal :=
  clause.takeWhile (fun l => tr.decision_level_of l.var == some level)

/-- The variable is assigned on the trail and none of its entries is above the level. -/
def Trail.level_at_most (tr : Trail) (v : Variable) (level : Int) : Prop :=
  (∃ e ∈ tr.entries, e.var = v) ∧ ∀ e ∈ tr.entries, e.var = v → e.level ≤ level

/-- The entries and the Boolean model that the UIP branch adds, read off its description:
for each clause in order whose first variable is undefined in the model at that moment, a
propagation of that variable with the clause as reason at the given level, and the value
that makes the first literal true. -/
def uip_effect (level : Int) : Model → List Clause → List Entry × Model
  | m, [] => ([], m)
  | m, [] :: rest => uip_effect level m rest
  | m, (l :: ls) :: rest =>
    if Model.is_defined m l.ord then uip_effect level m rest
    else
      let r := uip_effect level (Model.set_value m l.ord (!l.is_negation)) rest
      (⟨l.var, Source.propagation (some (l :: ls)), level⟩ :: r.1, r.2)

/-- The invariants of the trail that the spec lists and that the functions embedded here
rely on: a variable has at most one entry, and every assigned Boolean variable is
defined in the Boolean model. -/
def Trail.well_formed (tr : Trail) : Prop :=
  (tr.entries.map (fun e => e.var)).Nodup ∧
  ∀ e ∈ tr.entries, e.var.type = VarType.boolean → Model.is_defined tr.model e.var.ord = true

/-! ## `Solver::init`, `Solver::restart` and `Solver::check` -/

/-- The loop of `init` (lines 206-213) over `trail().models()`, given as the list of the
kinds with the number of variables of each: the number of Boolean variables is recorded,
and every kind is announced to the theories. -/
def init_resize (s : Solver) : List (VarType × Nat) → Solver
  | [] => s
  | (type, num_vars) :: rest =>
    let s1 := if type = VarType.boolean then { s with num_bool_vars := num_vars } else s
    init_resize { s1 with events := s1.events ++ [Event.on_variable_resize type num_vars] } rest

/-- The function `Solver::init` (lines 203-220); `models` stands for `trail().models()`. -/
def init (models : List (VarType × Nat)) (s : Solver) : Solver :=
  let s1 := init_resize s models
  let s2 := { s1 with total_conflicts := 0, total_decisions := 0, total_restarts := 0 }
  { s2 with events := s2.events ++ [Event.on_init s2.trail] }

/-- Modelled from the spec: `clear()` backtracks to level 0. -/
def Trail.clear (tr : Trail) : Trail := tr.backtrack 0

/-- The function `Solver::restart` (lines 222-233). -/
def restart (s : Solver) : Solver :=
  let s1 := { s with events := s.events ++ [Event.on_before_backtrack s.trail 0] }
  let s2 := { s1 with total_restarts := s1.total_restarts + 1 }
  let s3 := { s2 with trail := s2.trail.clear }
  { s3 with events := s3.events ++ [Event.on_restart s3.trail] }

/-- The collaborators of the search loop that are not in `src/`: the theory behind the
dispatcher, the variable order, the restart policy and the conflict analysis, with the
state `σ` they keep. Each of them is shown the solver state, which includes the log of
the notifications sent so far. `propagate` and `decide` may append to the trail and
return the new trail. -/
structure Collaborators (σ : Type) where
  analysis : Analysis σ
  propagate : σ → Solver → List Clause × Trail × σ
  pick : σ → Solver → Option Variable × σ
  decide : σ → Solver → Variable → Trail × σ
  should_restart : σ → Solver → Bool × σ
  is_before : σ → Variable → Variable → Bool

/-- The function `Solver::propagate` (lines 13-24). -/
def propagate {σ : Type} (C : Collaborators σ) (s : Solver) (ext : σ) :
    List Clause × Solver × σ :=
  let r := C.propagate ext s
  (r.1, { s with trail := r.2.1 }, r.2.2)

/-- The function `Solver::pick_variable` (line 190). -/
def pick_variable {σ : Type} (C : Collaborators σ) (s : Solver) (ext : σ) :
    Option Variable × σ :=
  C.pick ext s

/-- The function `Solver::decide` (lines 192-201). -/
def Solver.decide {σ : Type} (C : Collaborators σ) (s : Solver) (ext : σ) (var : Variable) :
    Solver × σ :=
  let s1 := { s with total_decisions := s.total_decisions + 1 }
  let r := C.decide ext s1 var
  ({ s1 with trail := r.1 }, r.2)

/-- The value of `Solver::Result`. -/
inductive Result where
  | sat
  | unsat
  deriving DecidableEq

/-- What one iteration of the loop of `check` leads to: `check` returns, or the loop goes
on with a new state. -/
inductive Outcome (σ : Type) where
  | returned (result : Result) (s : Solver) (ext : σ)
  | next (s : Solver) (ext : σ)

/-- One iteration of the loop of `check` (lines 241-310). `none` when `learn` or
`backtrack_with` does not return. The metrics calls, compiled in only with the logging
macros, are left out. -/
def check_iteration {σ : Type} (C : Collaborators σ) (s : Solver) (ext : σ) :
    Option (Outcome σ) :=
  let p := propagate C s ext
  if p.1 ≠ [] then
    if p.2.1.trail.decision_level = 0 then
      some (Outcome.returned Result.unsat p.2.1 p.2.2)
    else
      let a := analyze_conflicts C.analysis p.2.1 p.2.2 p.1
      if a.1.1.any (fun clause => clause.isEmpty) then
        some (Outcome.returned Result.unsat a.2.1 a.2.2)
      else
        match learn a.2.1 a.1.1 with
        | none => none
        | some (s3, clauses) =>
          let r := C.should_restart a.2.2 s3
          if r.1 then some (Outcome.next (restart s3) r.2)
          else
            match backtrack_with (C.is_before r.2) s3 clauses a.1.2 with
            | none => none
            | some s4 => some (Outcome.next s4 r.2)
  else
    let v := pick_variable C p.2.1 p.2.2
    match v.1 with
    | none => some (Outcome.returned Result.sat p.2.1 v.2)
    | some var =>
      let d := Solver.decide C p.2.1 v.2 var
      some (Outcome.next d.1 d.2)

/-- The loop `for (;;)` of `check`, run for at most `fuel` iterations; `Outcome.next`
when the loop is still running after them. -/
def check_loop {σ : Type} (C : Collaborators σ) : Nat → Solver → σ → Option (Outcome σ)
  | 0, s, ext => some (Outcome.next s ext)
  | fuel + 1, s, ext =>
    match check_iteration C s ext with
    | none => none
    | some (Outcome.returned result s1 e1) => some (Outcome.returned result s1 e1)
    | some (Outcome.next s1 e1) => check_loop C fuel s1 e1

/-- The function `Solver::check` (lines 235-312), run for at most `fuel` iterations of
its loop. -/
def check {σ : Type} (C : Collaborators σ) (models : List (VarType × Nat)) (fuel : Nat)
    (s : Solver) (ext : σ) : Option (Outcome σ) :=
  check_loop C fuel (init models s) ext

/-! ## `Metrics` (`src/metrics/Metrics.cpp`) -/

/-- The state of the `Metrics` singleton: whether `log_file` is open, and the text written
to it so far. An `int` or a size is written in decimal; a `Linear_constraint` is given
by the text that its `operator<<` (not in `src/`) writes. The mutex is left out: the
search core is single-threaded. -/
structure Metrics where
  is_open : Bool
  log_file : String
  deriving DecidableEq

/-- The function `Metrics::log_core_before_propagation` (lines 25-34). -/
def Metrics.log_core_before_propagation (m : Metrics)
    (decision_level trail_size total_decisions total_conflicts : Int) : Metrics :=
  if !m.is_open then m
  else { m with log_file := (m.log_file ++ "core,before_propagation," ++
    toString decision_level ++ "," ++ toString trail_size ++ "," ++
    toString total_decisions ++ "," ++ toString total_conflicts ++ "\n") }

/-- The function `Metrics::log_core_after_propagation` (lines 36-45). -/
def Metrics.log_core_after_propagation (m : Metrics) (decision_level trail_size : Int)
    (conflicts : List Clause) : Metrics :=
  if !m.is_open then m
  else { m with log_file := (m.log_file ++ "core,after_propagation," ++
    toString decision_level ++ "," ++ toString trail_size ++ "," ++
    toString conflicts.length ++ "\n") }

/-- The function `Metrics::log_core_decision` (lines 47-56). -/
def Metrics.log_core_decision (m : Metrics) (var : Variable)
    (decision_level trail_size total_decisions total_backtracks : Int) : Metrics :=
  if !m.is_open then m
  else { m with log_file := (m.log_file ++ "core,decision," ++ toString var.ord ++ "," ++
    toString decision_level ++ "," ++ toString trail_size ++ "," ++
    toString total_decisions ++ "," ++ toString total_backtracks ++ "\n") }

/-- The function `Metrics::log_core_learned_clause` (lines 58-68). -/
def Metrics.log_core_learned_clause (m : Metrics) (clause : Clause)
    (decision_level trail_size total_learned : Int) (is_semantic_split : Bool) : Metrics :=
  if !m.is_open then m
  else { m with log_file := (m.log_file ++ "core,learned_clause," ++
    toString clause.length ++ "," ++ toString decision_level ++ "," ++
    toString trail_size ++ "," ++ toString total_learned ++ "," ++
    (if is_semantic_split then "semantic" else "UIP") ++ "\n") }

/-- The function `Metrics::log_core_before_backtrack` (lines 70-78). -/
def Metrics.log_core_before_backtrack (m : Metrics)
    (decision_level trail_size total_decisions : Int) : Metrics :=
  if !m.is_open then m
  else { m with log_file := (m.log_file ++ "core,before_backtrack," ++
    toString decision_level ++ "," ++ toString trail_size ++ "," ++
    toString total_decisions ++ "\n") }

/-- The function `Metrics::log_core_after_backtrack` (lines 80-88). -/
def Metrics.log_core_after_backtrack (m : Metrics) (decision_level trail_size : Int)
    (is_semantic_split : Bool) : Metrics :=
  if !m.is_open then m
  else { m with log_file := (m.log_file ++ "core,after_backtrack," ++
    toString decision_level ++ "," ++ toString trail_size ++ "," ++
    (if is_semantic_split then "semantic" else "UIP") ++ "\n") }

/-- The function `Metrics::log_core_before_restart` (lines 90-99). -/
def Metrics.log_core_before_restart (m : Metrics)
    (restart_count decision_level trail_size total_conflicts : Int) : Metrics :=
  if !m.is_open then m
  else { m with log_file := (m.log_file ++ "core,before_restart," ++
    toString restart_count ++ "," ++ toString decision_level ++ "," ++
    toString trail_size ++ "," ++ toString total_conflicts ++ "\n") }

/-- The function `Metrics::log_core_conflict_analysis_start` (lines 101-110). -/
def Metrics.log_core_conflict_analysis_start (m : Metrics) (trail_size decision_level : Int)
    (conflict_clauses : List Clause) : Metrics :=
  if !m.is_open then m
  else { m with log_file := (m.log_file ++ "core,conflict_analysis_start," ++
    toString trail_size ++ "," ++ toString decision_level ++ "," ++
    toString conflict_clauses.length ++ "\n") }

/-- The function `Metrics::log_core_conflict_analysis_end` (lines 112-121). -/
def Metrics.log_core_conflict_analysis_end (m : Metrics)
    (learned_count backtrack_level decision_level : Int) : Metrics :=
  if !m.is_open then m
  else { m with log_file := (m.log_file ++ "core,conflict_analysis_end," ++
    toString learned_count ++ "," ++ toString backtrack_level ++ "," ++
    toString decision_level ++ "\n") }

/-- The function `Metrics::log_core_search_end` (lines 123-134). -/
def Metrics.log_core_search_end (m : Metrics)
    (decision_level trail_size total_conflicts total_conflict_clauses total_learned_clauses
      total_decisions total_backtracks : Int) : Metrics :=
  if !m.is_open then m
  else { m with log_file := (m.log_file ++ "core,search_end," ++
    toString decision_level ++ "," ++ toString trail_size ++ "," ++
    toString total_conflicts ++ "," ++ toString total_conflict_clauses ++ "," ++
    toString total_learned_clauses ++ "," ++ toString total_decisions ++ "," ++
    toString total_backtracks ++ "\n") }

/-- The function `Metrics::log_lra_replace_watch_success` (lines 354-363): the record,
and then the call `yaga::operator<<(log_file, cons)` of line 362. -/
def Metrics.log_lra_replace_watch_success (m : Metrics) (cons : String)
    (old_watch new_watch watch_index : Int) : Metrics :=
  if !m.is_open then m
  else
    let m1 := { m with log_file := (m.log_file ++ "lra,replace_watch_ok," ++ cons ++ "," ++
      toString old_watch ++ "," ++ toString new_watch ++ "," ++ toString watch_index ++ "\n") }
    { m1 with log_file := (m1.log_file ++ cons) }

/-- The function `Metrics::log_lra_replace_watch_fail` (lines 365-371). -/
def Metrics.log_lra_replace_watch_fail (m : Metrics) (cons : String) : Metrics :=
  if !m.is_open then m
  else { m with log_file := (m.log_file ++ "lra,replace_watch_fail," ++ cons ++ "\n") }

/-- One call `trail().propagate(var, reason, level)`, with the trail it is made on. -/
structure Propagate_call where
  trail : Trail
  var : Variable
  reason : Option Clause
  level : Int

/-- The entry that a successful call of `Trail::propagate` appends. -/
def Propagate_call.entry (c : Propagate_call) : Entry :=
  ⟨c.var, Source.propagation c.reason, c.level⟩

/-- The calls of `Trail::propagate` that the loop of the UIP branch (lines 179-186) makes,
in order: one for each clause whose first variable is undefined in the Boolean model when
its turn comes. The loop ends at an empty clause and at a call whose assertion fails. -/
def uip_calls (level : Int) : Trail → List Clause → List Propagate_call
  | _, [] => []
  | _, [] :: _ => []
  | tr, (l :: ls) :: rest =>
    if Model.is_defined tr.model l.var.ord then uip_calls level tr rest
    else
      ⟨tr, l.var, some (l :: ls), level⟩ ::
        match tr.propagate l.var (some (l :: ls)) level with
        | none => []
        | some tr1 =>
          uip_calls level
            { tr1 with model := Model.set_value tr1.model l.var.ord (!l.is_negation) } rest

/-! ## Concrete inputs -/

/-- A Boolean variable. -/
def bool_var (n : Nat) : Variable := ⟨n, VarType.boolean⟩

/-- A rational variable. -/
def rat_var (n : Nat) : Variable := ⟨n, VarType.rational⟩

/-- The positive literal of a Boolean variable. -/
def pos_lit (n : Nat) : Literal := ⟨n, false⟩

/-- The negative literal of a Boolean variable. -/
def neg_lit (n : Nat) : Literal := ⟨n, true⟩

/-- A variable order that ranks every variable by its ordinal. -/
def ord_before (a b : Variable) : Bool := Nat.blt a.ord b.ord

/-- A trail with one decision level: the rational variable 0 is decided at level 1, and
the Boolean variables 0 and 1 are propagated to false at level 1 by the theory, without
reason clause. -/
def split_trail : Trail :=
  { entries := [⟨rat_var 0, Source.decision, 1⟩,
                ⟨bool_var 0, Source.propagation none, 1⟩,
                ⟨bool_var 1, Source.propagation none, 1⟩]
    level := 1
    model := [(0, false), (1, false)] }

/-- Five clauses with repetitions that are not adjacent. On `split_trail` the binary
clause is a semantic split, the unit clauses are not. -/
def repeated_clauses : List Clause :=
  [[pos_lit 1, pos_lit 0], [pos_lit 0], [pos_lit 1, pos_lit 0], [neg_lit 0], [pos_lit 0]]

/-- An analyzer without state that returns the conflict itself, at a level equal to its
number of literals (at most 3), together with a minimizer that changes nothing. -/
def size_analysis : Analysis Unit :=
  { analyze := fun _ _ c => ⟨c, if c.length ≤ 3 then (c.length : Int) else 3, [c], ()⟩
    minimize := fun _ _ c => (c, ()) }

/-- An analyzer that returns the conflict itself, at level 1 when it has at most three
literals and at level 2 otherwise, with a minimizer that keeps the first two literals
of a clause and counts its calls in the state. -/
def trimming_analysis : Analysis Nat :=
  { analyze := fun n _ c => ⟨c, if c.length ≤ 3 then 1 else 2, [c], n⟩
    minimize := fun n _ c => (c.take 2, n + 1) }

/-- Four conflicts whose levels under `trimming_analysis` are 1, 2, 1 and 1; the first two
are longer than two literals, the last is empty. -/
def long_conflicts : List Clause :=
  [[pos_lit 0, pos_lit 1, pos_lit 2], [pos_lit 0, neg_lit 1, pos_lit 2, pos_lit 3],
   [neg_lit 2], []]

/-- Four conflicts whose levels under `size_analysis` are 2, 1, 1 and 3. -/
def four_conflicts : List Clause :=
  [[pos_lit 0, pos_lit 1], [neg_lit 2], [pos_lit 3], [pos_lit 0, neg_lit 1, pos_lit 2]]

/-- A trail with two decision levels. Level 1: the rational variable 0 is decided, the
Boolean variable 3 is propagated to false. Level 2: the rational variable 1 is decided,
the Boolean variables 1, 2 and 0 are propagated to false. No propagation has a reason
clause. -/
def two_level_trail : Trail :=
  { entries := [⟨rat_var 0, Source.decision, 1⟩,
                ⟨bool_var 3, Source.propagation none, 1⟩,
                ⟨rat_var 1, Source.decision, 2⟩,
                ⟨bool_var 1, Source.propagation none, 2⟩,
                ⟨bool_var 2, Source.propagation none, 2⟩,
                ⟨bool_var 0, Source.propagation none, 2⟩]
    level := 2
    model := [(3, false), (1, false), (2, false), (0, false)] }

/-- A clause falsified on `two_level_trail` whose literals are at levels 2, 2, 1 and 2:
the last literal is at the top level but stands behind a literal of level 1. -/
def interrupted_clause : Clause := [pos_lit 1, pos_lit 2, pos_lit 3, pos_lit 0]

/-- A solver state as an earlier run of `check` can leave it: two conflicts with three
conflict clauses were analyzed, two clauses were learned, and there were four decisions,
one backtrack and one restart. -/
def used_solver : Solver :=
  { Solver.with_trail Trail.empty with
    learned := [[neg_lit 0], [pos_lit 1, neg_lit 2]]
    total_conflicts := 2
    total_conflict_clauses := 3
    total_learned_clauses := 2
    total_decisions := 4
    total_backtracks := 1
    total_restarts := 1 }

/-- Collaborators that follow a script: propagation reports the given conflicts and leaves
the trail alone, the variable order offers the candidate as long as it is unassigned, the
theory decides a variable to true, and the restart policy always gives the same answer. -/
def scripted (conflicts : List Clause) (A : Analysis Unit) (restart_now : Bool)
    (candidate : Variable) : Collaborators Unit :=
  { analysis := A
    propagate := fun _ s => (conflicts, s.trail, ())
    pick := fun _ s => (if (s.trail.entry_of candidate).isSome then none else some candidate, ())
    decide := fun _ s v =>
      (match s.trail.decide v with
        | some tr => { tr with model := Model.set_value tr.model v.ord true }
        | none => s.trail, ())
    should_restart := fun _ _ => (restart_now, ())
    is_before := fun _ => ord_before }

/-- Collaborators for the input of two contradicting unit clauses: when the input holds
the unit clauses of both literals of the Boolean variable 0, propagation makes the
variable true because of the positive one and reports the negative one as conflict. -/
def unit_theory : Collaborators Unit :=
  { scripted [] size_analysis false (bool_var 0) with
    propagate := fun _ s =>
      if [pos_lit 0] ∈ s.input ∧ [neg_lit 0] ∈ s.input then
        ([[neg_lit 0]],
          { s.trail with
            entries := s.trail.entries ++
              [⟨bool_var 0, Source.propagation (some [pos_lit 0]), s.trail.level⟩]
            model := Model.set_value s.trail.model 0 true }, ())
      else ([], s.trail, ()) }

/-- A fresh solver whose input is the two unit clauses of the Boolean variable 0. -/
def unit_unsat_solver : Solver :=
  { Solver.with_trail Trail.empty with input := [[pos_lit 0], [neg_lit 0]] }

/-- An analyzer that derives the empty clause from every conflict. -/
def refuting_analysis : Analysis Unit :=
  { analyze := fun _ _ c => ⟨[], 0, [c], ()⟩
    minimize := fun _ _ c => (c, ()) }

/-- The clauses of `repeated_clauses` in another order. -/
def reordered_clauses : List Clause :=
  [[pos_lit 0], [neg_lit 0], [pos_lit 1, pos_lit 0], [pos_lit 0], [pos_lit 1, pos_lit 0]]

/-- An analyzer that returns every conflict itself at the level `INT_MAX`. -/
def max_level_analysis : Analysis Unit :=
  { analyze := fun _ _ c => ⟨c, INT_MAX, [], ()⟩
    minimize := fun _ _ c => (c, ()) }

/-! # Theorems -/

/-! ## The comparator of `learn` is a strict total order -/

theorem Literal.key_injective {a b : Literal} (h : a.key = b.key) : a = b := by
  cases a with
  | mk ao an =>
    cases b with
    | mk bo bn =>
      cases an <;> cases bn <;> simp [Literal.key] at h <;> first | omega | (simp; omega)

theorem Literal.lt_iff (a b : Literal) : Literal.lt a b = true ↔ a.key < b.key := by
  simp [Literal.lt, Nat.blt_eq]

theorem Literal.lt_false_iff (a b : Literal) : Literal.lt a b = false ↔ b.key ≤ a.key := by
  rw [← Bool.not_eq_true, Literal.lt_iff]; omega

theorem Clause.lex_lt_irrefl : ∀ a : Clause, Clause.lex_lt a a = false
  | [] => rfl
  | x :: xs => by
    have hx : Literal.lt x x = false := by rw [Literal.lt_false_iff]
    simp [Clause.lex_lt, hx, Clause.lex_lt_irrefl xs]

theorem Clause.lex_lt_trans : ∀ a b c : Clause,
    Clause.lex_lt a b = true → Clause.lex_lt b c = true → Clause.lex_lt a c = true
  | [], [], _, h, _ => by simp [Clause.lex_lt] at h
  | [], _ :: _, [], _, h => by simp [Clause.lex_lt] at h
  | [], _ :: _, _ :: _, _, _ => by simp [Clause.lex_lt]
  | _ :: _, [], _, h, _ => by simp [Clause.lex_lt] at h
  | _ :: _, _ :: _, [], _, h => by simp [Clause.lex_lt] at h
  | x :: xs, y :: ys, z :: zs, h1, h2 => by
    simp only [Clause.lex_lt] at h1 h2 ⊢
    by_cases hxy : Literal.lt x y = true
    · by_cases hyz : Literal.lt y z = true
      · have : Literal.lt x z = true := by
          rw [Literal.lt_iff] at *; omega
        simp [this]
      · have hyz2 : Literal.lt y z = false := by simpa using hyz
        rw [hyz2] at h2
        by_cases hzy : Literal.lt z y = true
        · simp [hzy] at h2
        · have hzy2 : Literal.lt z y = false := by simpa using hzy
          have : Literal.lt x z = true := by
            rw [Literal.lt_iff] at *; rw [Literal.lt_false_iff] at hyz2 hzy2; omega
          simp [this]
    · have hxy2 : Literal.lt x y = false := by simpa using hxy
      rw [hxy2] at h1
      by_cases hyx : Literal.lt y x = true
      · simp [hyx] at h1
      · have hyx2 : Literal.lt y x = false := by simpa using hyx
        simp only [hyx2, Bool.false_eq_true, if_false] at h1
        have hkey : x.key = y.key := by
          rw [Literal.lt_false_iff] at hxy2 hyx2; omega
        have hxe : x = y := Literal.key_injective hkey
        subst hxe
        by_cases hyz : Literal.lt x z = true
        · simp [hyz]
        · have hyz2 : Literal.lt x z = false := by simpa using hyz
          rw [hyz2] at h2 ⊢
          by_cases hzy : Literal.lt z x = true
          · simp [hzy] at h2
          · have hzy2 : Literal.lt z x = false := by simpa using hzy
            simp only [hzy2, Bool.false_eq_true, if_false] at h2 ⊢
            exact Clause.lex_lt_trans xs ys zs h1 h2

theorem Clause.lex_lt_total : ∀ a b : Clause,
    Clause.lex_lt a b = false → Clause.lex_lt b a = false → a = b
  | [], [], _, _ => rfl
  | [], _ :: _, h, _ => by simp [Clause.lex_lt] at h
  | _ :: _, [], _, h => by simp [Clause.lex_lt] at h
  | x :: xs, y :: ys, h1, h2 => by
    simp only [Clause.lex_lt] at h1 h2
    by_cases hxy : Literal.lt x y = true
    · simp [hxy] at h1
    · have hxy2 : Literal.lt x y = false := by simpa using hxy
      by_cases hyx : Literal.lt y x = true
      · simp [hyx] at h2
      · have hyx2 : Literal.lt y x = false := by simpa using hyx
        simp only [hxy2, hyx2, Bool.false_eq_true, if_false] at h1 h2
        have hkey : x.key = y.key := by
          rw [Literal.lt_false_iff] at hxy2 hyx2; omega
        rw [Literal.key_injective hkey, Clause.lex_lt_total xs ys h1 h2]

/-- The comparator in the words of the spec: smaller size first, then lexicographic
content. -/
theorem clause_less_iff (a b : Clause) :
    clause_less a b = true ↔
      a.length < b.length ∨ (a.length = b.length ∧ Clause.lex_lt a b = true) := by
  unfold clause_less
  by_cases h1 : a.length < b.length
  · simp [h1]
  · by_cases h2 : a.length > b.length
    · simp [h1, h2]; omega
    · simp [h1, h2]; omega

theorem clause_less_irrefl (a : Clause) : clause_less a a = false := by
  rw [← Bool.not_eq_true, clause_less_iff]
  simp [Clause.lex_lt_irrefl]

theorem clause_less_trans {a b c : Clause} (h1 : clause_less a b = true)
    (h2 : clause_less b c = true) : clause_less a c = true := by
  rw [clause_less_iff] at *
  rcases h1 with h1 | ⟨h1, h1'⟩ <;> rcases h2 with h2 | ⟨h2, h2'⟩
  · left; omega
  · left; omega
  · left; omega
  · right; exact ⟨by omega, Clause.lex_lt_trans a b c h1' h2'⟩

theorem clause_less_total {a b : Clause} (h1 : clause_less a b = false)
    (h2 : clause_less b a = false) : a = b := by
  rw [← Bool.not_eq_true, clause_less_iff] at h1 h2
  have hlen : a.length = b.length := by omega
  apply Clause.lex_lt_total
  · by_contra h; exact h1 (Or.inr ⟨hlen, by simpa using h⟩)
  · by_contra h; exact h2 (Or.inr ⟨hlen.symm, by simpa using h⟩)

theorem clause_less_asymm {a b : Clause} (h : clause_less a b = true) :
    clause_less b a = false := by
  by_contra h'
  have h2 : clause_less b a = true := by simpa using h'
  have := clause_less_trans h h2
  rw [clause_less_irrefl] at this
  exact Bool.false_ne_true this

theorem clause_le_trans {a b c : Clause} (h1 : clause_le a b) (h2 : clause_le b c) :
    clause_le a c := by
  unfold clause_le at *
  by_contra h
  have hca : clause_less c a = true := by simpa using h
  by_cases hab : clause_less a b = true
  · have := clause_less_trans hca hab
    rw [h2] at this; exact Bool.false_ne_true this
  · have hab2 : clause_less a b = false := by simpa using hab
    have := clause_less_total hab2 h1
    subst this
    rw [h2] at hca; exact Bool.false_ne_true hca

/-! ## Sorting and removal of duplicates -/

theorem mem_sort_insert {x c : Clause} : ∀ {l : List Clause},
    x ∈ sort_insert c l ↔ x = c ∨ x ∈ l
  | [] => by simp [sort_insert]
  | d :: ds => by
    unfold sort_insert
    split
    · simp only [List.mem_cons, mem_sort_insert (l := ds)]
      tauto
    · simp only [List.mem_cons]

theorem sort_insert_perm (c : Clause) : ∀ l : List Clause, List.Perm (sort_insert c l) (c :: l)
  | [] => by simp [sort_insert]
  | d :: ds => by
    unfold sort_insert
    split
    · exact ((sort_insert_perm c ds).cons d).trans (List.Perm.swap c d ds)
    · exact List.Perm.refl _

theorem sort_clauses_perm : ∀ l : List Clause, List.Perm (sort_clauses l) l
  | [] => List.Perm.refl _
  | c :: cs => (sort_insert_perm c (sort_clauses cs)).trans ((sort_clauses_perm cs).cons c)

theorem sort_insert_sorted (c : Clause) : ∀ l : List Clause,
    List.Pairwise clause_le l → List.Pairwise clause_le (sort_insert c l)
  | [], _ => by simp [sort_insert]
  | d :: ds, h => by
    rw [List.pairwise_cons] at h
    unfold sort_insert
    split
    · rename_i hdc
      rw [List.pairwise_cons]
      refine ⟨?_, sort_insert_sorted c ds h.2⟩
      intro x hx
      rcases mem_sort_insert.mp hx with rfl | hx
      · exact clause_less_asymm hdc
      · exact h.1 x hx
    · rename_i hdc
      have hcd : clause_le c d := by simpa [clause_le] using hdc
      rw [List.pairwise_cons]
      refine ⟨?_, List.pairwise_cons.mpr h⟩
      intro x hx
      rcases List.mem_cons.mp hx with rfl | hx
      · exact hcd
      · exact clause_le_trans hcd (h.1 x hx)

theorem sort_clauses_sorted : ∀ l : List Clause, List.Pairwise clause_le (sort_clauses l)
  | [] => List.Pairwise.nil
  | c :: cs => sort_insert_sorted c _ (sort_clauses_sorted cs)

/-- Every sorted rearrangement of a list of clauses is the one `sort_clauses` computes:
the result of `std::sort` with this comparator does not depend on the algorithm. -/
theorem sort_clauses_unique_result (cs l : List Clause) (hp : List.Perm l cs)
    (hs : List.Pairwise clause_le l) : l = sort_clauses cs := by
  haveI : IsAntisymm Clause clause_le := ⟨fun a b hab hba => clause_less_total hba hab⟩
  exact List.eq_of_perm_of_sorted (hp.trans (sort_clauses_perm cs).symm) hs
    (sort_clauses_sorted cs)

theorem unique_sublist : ∀ l : List Clause, List.Sublist (unique l) l
  | [] => List.Sublist.refl _
  | [_] => List.Sublist.refl _
  | c :: d :: cs => by
    unfold unique
    split
    · exact (unique_sublist (d :: cs)).cons c
    · exact (unique_sublist (d :: cs)).cons₂ c

theorem mem_unique {x : Clause} : ∀ {l : List Clause}, x ∈ unique l ↔ x ∈ l
  | [] => Iff.rfl
  | [_] => Iff.rfl
  | c :: d :: cs => by
    unfold unique
    split
    · rename_i hcd
      rw [mem_unique (l := d :: cs)]
      subst hcd
      simp
    · rw [List.mem_cons, mem_unique (l := d :: cs), List.mem_cons (a := x) (b := c)]

theorem unique_strict : ∀ l : List Clause, List.Pairwise clause_le l →
    List.Pairwise (fun a b => clause_less a b = true) (unique l)
  | [], _ => List.Pairwise.nil
  | [c], _ => by simp [unique]
  | c :: d :: cs, h => by
    have htail := (List.pairwise_cons.mp h).2
    have hhead := (List.pairwise_cons.mp h).1
    unfold unique
    split
    · exact unique_strict (d :: cs) htail
    · rename_i hcd
      rw [List.pairwise_cons]
      refine ⟨?_, unique_strict (d :: cs) htail⟩
      intro x hx
      have hx' : x ∈ d :: cs := mem_unique.mp hx
      have hcx : clause_le c x := hhead x hx'
      by_contra hlt
      have hlt2 : clause_less c x = false := by simpa using hlt
      have hxc : x = c := clause_less_total (a := x) (b := c) hcx hlt2
      subst hxc
      have hdx : clause_le d x := by
        rcases List.mem_cons.mp hx' with h1 | h1
        · exact absurd h1 hcd
        · exact (List.pairwise_cons.mp htail).1 x h1
      exact hcd (clause_less_total hdx (hhead d (List.mem_cons_self _ _)))

theorem mem_sort_unique {x : Clause} {cs : List Clause} : x ∈ sort_unique cs ↔ x ∈ cs := by
  unfold sort_unique
  rw [mem_unique, (sort_clauses_perm cs).mem_iff]

theorem sort_unique_strict (cs : List Clause) :
    List.Pairwise (fun a b => clause_less a b = true) (sort_unique cs) :=
  unique_strict _ (sort_clauses_sorted cs)

theorem sort_unique_nodup (cs : List Clause) : (sort_unique cs).Nodup := by
  refine (sort_unique_strict cs).imp ?_
  intro a b hab heq
  subst heq
  rw [clause_less_irrefl] at hab
  exact Bool.false_ne_true hab

theorem countP_eq_one_of_nodup (c : Clause) : ∀ l : List Clause, l.Nodup → c ∈ l →
    l.countP (fun d => d = c) = 1
  | [], _, h => by simp at h
  | a :: t, hn, h => by
    rw [List.nodup_cons] at hn
    rw [List.countP_cons]
    by_cases hac : a = c
    · subst hac
      have : t.countP (fun d => d = a) = 0 := by
        rw [List.countP_eq_zero]
        intro d hd
        simp only [decide_eq_true_eq]
        rintro rfl
        exact hn.1 hd
      simp [this]
    · have hc : c ∈ t := by
        rcases List.mem_cons.mp h with h1 | h1
        · exact absurd h1.symm hac
        · exact h1
      simp [hac, countP_eq_one_of_nodup c t hn.2 hc]

/-- C3: for every input list, the list left by the sort-and-unique step of `learn` is in
strictly ascending order of (size, then lexicographic content), holds no clause twice,
and holds every clause of the input exactly once and nothing else. -/
theorem sort_unique_sorted_nodup_complete (cs : List Clause) :
    List.Pairwise (fun a b : Clause =>
        a.length < b.length ∨ (a.length = b.length ∧ Clause.lex_lt a b = true))
      (sort_unique cs) ∧
    (sort_unique cs).Nodup ∧
    (∀ c, c ∈ cs → (sort_unique cs).countP (fun d => d = c) = 1) ∧
    (∀ c, c ∈ sort_unique cs → c ∈ cs) := by
  refine ⟨?_, sort_unique_nodup cs, ?_, fun c hc => mem_sort_unique.mp hc⟩
  · exact (sort_unique_strict cs).imp (fun {a b} h => (clause_less_iff a b).mp h)
  · intro c hc
    exact countP_eq_one_of_nodup c _ (sort_unique_nodup cs) (mem_sort_unique.mpr hc)

/-! ## `is_semantic_split` -/

/-- C5: `is_semantic_split` returns true exactly for a clause with at least 2 literals
whose first two variables are assigned at the same decision level, returns false exactly
for a clause with fewer than 2 literals or with the first two variables assigned at
different levels, and for a clause with fewer than 2 literals the answer is false on
every trail: no decision level is consulted. -/
theorem is_semantic_split_iff (tr : Trail) (C : Clause) :
    (is_semantic_split tr C = some true ↔
      2 ≤ C.length ∧ ∃ l0 l1 lev, C[0]? = some l0 ∧ C[1]? = some l1 ∧
        tr.decision_level_of l0.var = some lev ∧ tr.decision_level_of l1.var = some lev) ∧
    (is_semantic_split tr C = some false ↔
      C.length < 2 ∨ ∃ l0 l1 a b, C[0]? = some l0 ∧ C[1]? = some l1 ∧
        tr.decision_level_of l0.var = some a ∧ tr.decision_level_of l1.var = some b ∧
        a ≠ b) ∧
    (C.length < 2 → ∀ tr' : Trail, is_semantic_split tr' C = some false) := by
  match C with
  | [] => simp [is_semantic_split]
  | [_] => simp [is_semantic_split]
  | l0 :: l1 :: rest =>
    simp only [is_semantic_split, List.length_cons, List.getElem?_cons_zero,
      List.getElem?_cons_succ, Option.some.injEq]
    cases h0 : tr.decision_level_of l0.var <;> cases h1 : tr.decision_level_of l1.var <;>
      simp [h0, h1]

/-! ## `learn` -/

theorem any_not_split_eq (tr : Trail) : ∀ l : List Clause,
    (∀ c ∈ l, (is_semantic_split tr c).isSome = true) →
    any_not_split tr l = some (l.any (fun c => is_semantic_split tr c == some false))
  | [], _ => rfl
  | c :: cs, h => by
    have hc := h c (List.mem_cons_self _ _)
    have ih := any_not_split_eq tr cs (fun d hd => h d (List.mem_cons_of_mem _ hd))
    unfold any_not_split
    cases hs : is_semantic_split tr c with
    | none => simp [hs] at hc
    | some b => cases b <;> simp [ih, hs]

theorem remove_split_eq (tr : Trail) : ∀ l : List Clause,
    (∀ c ∈ l, (is_semantic_split tr c).isSome = true) →
    remove_split tr l = some (l.filter (fun c => is_semantic_split tr c == some false))
  | [], _ => rfl
  | c :: cs, h => by
    have hc := h c (List.mem_cons_self _ _)
    have ih := remove_split_eq tr cs (fun d hd => h d (List.mem_cons_of_mem _ hd))
    unfold remove_split
    cases hs : is_semantic_split tr c with
    | none => simp [hs] at hc
    | some b => cases b <;> simp [ih, List.filter_cons, hs]

theorem prefer_uip_eq (tr : Trail) (cs : List Clause)
    (h : ∀ c ∈ cs, (is_semantic_split tr c).isSome = true) :
    prefer_uip tr (sort_unique cs) = some (kept_clauses tr cs) := by
  have h' : ∀ c ∈ sort_unique cs, (is_semantic_split tr c).isSome = true :=
    fun c hc => h c (mem_sort_unique.mp hc)
  unfold prefer_uip kept_clauses
  rw [any_not_split_eq tr _ h']
  cases hany : (sort_unique cs).any (fun c => is_semantic_split tr c == some false)
  · simp
  · simp [remove_split_eq tr _ h']

theorem learn_loop_trail : ∀ (l : List Clause) (s : Solver), (learn_loop s l).trail = s.trail
  | [], _ => rfl
  | _ :: rest, s => by
    unfold learn_loop
    simp only [Solver.learn_clause]
    rw [learn_loop_trail rest]

theorem learn_loop_input : ∀ (l : List Clause) (s : Solver), (learn_loop s l).input = s.input
  | [], _ => rfl
  | _ :: rest, s => by
    unfold learn_loop
    simp only [Solver.learn_clause]
    rw [learn_loop_input rest]

theorem learn_loop_learned : ∀ (l : List Clause) (s : Solver),
    (learn_loop s l).learned = s.learned ++ l
  | [], s => by simp [learn_loop]
  | c :: rest, s => by
    unfold learn_loop
    simp only [Solver.learn_clause]
    rw [learn_loop_learned rest]
    simp

theorem learn_loop_events : ∀ (l : List Clause) (s : Solver),
    (learn_loop s l).events = s.events ++ learned_events s.learned s.trail l
  | [], s => by simp [learn_loop, learned_events]
  | c :: rest, s => by
    unfold learn_loop
    simp only [Solver.learn_clause]
    rw [learn_loop_events rest]
    simp [learned_events]

theorem learn_loop_total_learned : ∀ (l : List Clause) (s : Solver),
    (learn_loop s l).total_learned_clauses = s.total_learned_clauses + l.length
  | [], s => by simp [learn_loop]
  | c :: rest, s => by
    unfold learn_loop
    simp only [Solver.learn_clause]
    rw [learn_loop_total_learned rest]
    simp only [List.length_cons]
    omega

theorem learned_events_length (tr : Trail) : ∀ (l learned : List Clause),
    (learned_events learned tr l).length = l.length
  | [], _ => rfl
  | _ :: rest, learned => by simp [learned_events, learned_events_length tr rest]

theorem learned_events_get (tr : Trail) : ∀ (l learned : List Clause) (i : Nat)
    (h : i < l.length),
    (learned_events learned tr l)[i]? =
      some (Event.on_learned_clause (learned ++ l.take (i + 1)) tr l[i])
  | c :: rest, learned, 0, _ => by simp [learned_events]
  | c :: rest, learned, i + 1, h => by
    have h' : i < rest.length := by simpa using h
    simp only [learned_events, List.getElem?_cons_succ, List.getElem_cons_succ]
    rw [learned_events_get tr rest (learned ++ [c]) i h']
    simp

theorem learn_eq (s : Solver) (cs : List Clause)
    (h : ∀ c ∈ cs, (is_semantic_split s.trail c).isSome = true) :
    learn s cs = some (learn_loop s (kept_clauses s.trail cs), kept_clauses s.trail cs) := by
  unfold learn
  rw [prefer_uip_eq s.trail cs h]
  simp [learn_loop_learned]

theorem kept_clauses_nodup (tr : Trail) (cs : List Clause) : (kept_clauses tr cs).Nodup := by
  unfold kept_clauses
  split
  · exact (sort_unique_nodup cs).filter _
  · exact sort_unique_nodup cs

theorem mem_kept_clauses (tr : Trail) (cs : List Clause)
    (h : ∀ c ∈ cs, (is_semantic_split tr c).isSome = true) (c : Clause) :
    c ∈ kept_clauses tr cs ↔
      c ∈ cs ∧ (is_semantic_split tr c = some false ∨
        ∀ d ∈ cs, is_semantic_split tr d = some true) := by
  unfold kept_clauses
  split
  · rename_i hany
    rw [List.any_eq_true] at hany
    obtain ⟨u, hu, hu2⟩ := hany
    have hu3 : is_semantic_split tr u = some false := by simpa using hu2
    rw [List.mem_filter, mem_sort_unique]
    constructor
    · rintro ⟨hc, hc2⟩
      exact ⟨hc, Or.inl (by simpa using hc2)⟩
    · rintro ⟨hc, hc2 | hc2⟩
      · exact ⟨hc, by simpa using hc2⟩
      · have := hc2 u (mem_sort_unique.mp hu)
        rw [hu3] at this
        simp at this
  · rename_i hany
    rw [mem_sort_unique]
    constructor
    · intro hc
      refine ⟨hc, Or.inr ?_⟩
      intro d hd
      have hd2 := h d hd
      cases hs : is_semantic_split tr d with
      | none => simp [hs] at hd2
      | some b =>
        cases b
        · exfalso
          apply hany
          rw [List.any_eq_true]
          exact ⟨d, mem_sort_unique.mpr hd, by simp [hs]⟩
        · rfl
    · exact fun hc => hc.1

/-- C2: on a trail where `is_semantic_split` is defined for the given clauses, `learn`
returns; the learned partition grows by exactly the clauses `kept` that remain after
deduplication and the UIP preference, each once (`kept` has no repetition, and holds an
input clause iff it is a UIP clause or every input clause is a semantic split); the
returned range is `kept`, which is the last `kept.length` entries of `learned()`; and
the events fired are exactly one `on_learned_clause` per kept clause, in order, the
`i`-th of them fired when the partition already holds the first `i + 1` kept clauses. -/
theorem learn_inserts_notifies_returns (s : Solver) (cs : List Clause)
    (hdef : ∀ c ∈ cs, (is_semantic_split s.trail c).isSome = true) :
    ∃ (s' : Solver) (range kept : List Clause) (fired : List Event),
      learn s cs = some (s', range) ∧
      kept.Nodup ∧
      (∀ c, c ∈ kept ↔ c ∈ cs ∧ (is_semantic_split s.trail c = some false ∨
        ∀ d ∈ cs, is_semantic_split s.trail d = some true)) ∧
      s'.learned = s.learned ++ kept ∧ s'.input = s.input ∧
      range = kept ∧ range = s'.learned.drop (s'.learned.length - kept.length) ∧
      s'.events = s.events ++ fired ∧ fired.length = kept.length ∧
      ∀ (i : Nat) (h : i < kept.length), fired[i]? =
        some (Event.on_learned_clause (s.learned ++ kept.take (i + 1)) s.trail kept[i]) := by
  refine ⟨learn_loop s (kept_clauses s.trail cs), kept_clauses s.trail cs,
    kept_clauses s.trail cs, learned_events s.learned s.trail (kept_clauses s.trail cs),
    learn_eq s cs hdef, kept_clauses_nodup _ _, mem_kept_clauses _ _ hdef,
    learn_loop_learned _ _, learn_loop_input _ _, rfl, ?_, learn_loop_events _ _,
    learned_events_length _ _ _, learned_events_get _ _ _⟩
  simp [learn_loop_learned]

/-- Witness for C2: the five clauses of `repeated_clauses`, learned on `split_trail`,
leave exactly the two unit clauses in the database. -/
theorem learn_inserts_notifies_returns_witness :
    (∀ c ∈ repeated_clauses, (is_semantic_split split_trail c).isSome = true) ∧
    ∃ (s' : Solver) (range : List Clause),
      learn (Solver.with_trail split_trail) repeated_clauses = some (s', range) ∧
      s'.learned = range ∧ range.Nodup ∧ s'.events.length = range.length := by
  refine ⟨by decide, ?_⟩
  obtain ⟨s', range, kept, fired, h1, h2, _, h4, _, h6, _, h8, h9, _⟩ :=
    learn_inserts_notifies_returns (Solver.with_trail split_trail) repeated_clauses
      (by decide)
  refine ⟨s', range, h1, ?_, h6 ▸ h2, ?_⟩
  · rw [h4, h6]; rfl
  · rw [h8, h6, ← h9]; rfl

/-- C4: on a trail where `is_semantic_split` is defined for the given clauses, `learn`
returns, and if some deduplicated clause is a UIP clause then every clause inserted into
the database is a UIP clause and every deduplicated UIP clause is inserted; if every
deduplicated clause is a semantic split, the clauses inserted are all of them. -/
theorem learn_prefers_uip (s : Solver) (cs : List Clause)
    (hdef : ∀ c ∈ cs, (is_semantic_split s.trail c).isSome = true) :
    ∃ (s' : Solver) (range : List Clause), learn s cs = some (s', range) ∧
      ((∃ c ∈ sort_unique cs, is_semantic_split s.trail c = some false) →
        (∀ c ∈ s'.learned.drop s.learned.length, is_semantic_split s.trail c = some false) ∧
        (∀ c ∈ sort_unique cs, is_semantic_split s.trail c = some false →
          c ∈ s'.learned.drop s.learned.length)) ∧
      ((∀ c ∈ sort_unique cs, is_semantic_split s.trail c = some true) →
        s'.learned.drop s.learned.length = sort_unique cs) := by
  refine ⟨_, _, learn_eq s cs hdef, ?_, ?_⟩
  · rintro ⟨u, hu, hu2⟩
    have hany : (sort_unique cs).any (fun c => is_semantic_split s.trail c == some false)
        = true := by
      rw [List.any_eq_true]; exact ⟨u, hu, by simp [hu2]⟩
    simp only [learn_loop_learned, List.drop_left, kept_clauses, hany, if_true,
      List.mem_filter]
    constructor
    · rintro c ⟨_, hc⟩
      simpa using hc
    · intro c hc hc2
      exact ⟨hc, by simp [hc2]⟩
  · intro hall
    have hany : ¬ (sort_unique cs).any (fun c => is_semantic_split s.trail c == some false)
        = true := by
      rw [List.any_eq_true]
      rintro ⟨u, hu, hu2⟩
      rw [hall u hu] at hu2
      simp at hu2
    simp [learn_loop_learned, kept_clauses, hany]

/-- Witness for C4: among `repeated_clauses` on `split_trail` the two unit clauses are
UIP clauses, and they are what `learn` inserts. -/
theorem learn_prefers_uip_witness :
    (∀ c ∈ repeated_clauses, (is_semantic_split split_trail c).isSome = true) ∧
    ∃ (s' : Solver) (range : List Clause),
      learn (Solver.with_trail split_trail) repeated_clauses = some (s', range) ∧
      [pos_lit 0] ∈ s'.learned := by
  refine ⟨by decide, ?_⟩
  obtain ⟨s', range, h1, h2, _⟩ :=
    learn_prefers_uip (Solver.with_trail split_trail) repeated_clauses (by decide)
  refine ⟨s', range, h1, ?_⟩
  have h := (h2 ⟨[pos_lit 0], by decide, by decide⟩).2 [pos_lit 0] (by decide) (by decide)
  exact List.mem_of_mem_drop h

/-! ## `analyze_conflicts` -/

theorem derive_clause_level {σ : Type} (A : Analysis σ) (tr : Trail) (ext : σ) (c : Clause) :
    (derive_clause A tr ext c).level = (A.analyze ext tr c).level := by
  unfold derive_clause
  simp only
  split <;> rfl

theorem analyze_step_trail {σ : Type} (A : Analysis σ) (st : Analyze_state σ) (c : Clause) :
    (analyze_step A st c).solver.trail = st.solver.trail := by
  unfold analyze_step
  simp only
  split_ifs <;> rfl

theorem analyze_step_ext {σ : Type} (A : Analysis σ) (st : Analyze_state σ) (c : Clause) :
    (analyze_step A st c).ext = (derive_clause A st.solver.trail st.ext c).ext := by
  unfold analyze_step
  simp only
  split_ifs <;> rfl

theorem analyze_step_level {σ : Type} (A : Analysis σ) (st : Analyze_state σ) (c : Clause) :
    (analyze_step A st c).level =
      if (derive_clause A st.solver.trail st.ext c).level < st.level then
        (derive_clause A st.solver.trail st.ext c).level
      else st.level := by
  unfold analyze_step
  simp only
  split_ifs <;> rfl

theorem analyze_step_learned {σ : Type} (A : Analysis σ) (st : Analyze_state σ)
    (c : Clause) :
    (analyze_step A st c).learned =
      if (derive_clause A st.solver.trail st.ext c).level < st.level then
        [(derive_clause A st.solver.trail st.ext c).clause]
      else if (derive_clause A st.solver.trail st.ext c).level = st.level then
        st.learned ++ [(derive_clause A st.solver.trail st.ext c).clause]
      else st.learned := by
  unfold analyze_step
  simp only
  split_ifs <;> rfl

theorem select_combine (fl rl sl : Int) (fs ss : List Clause) (rc : Clause)
    (D : List (Clause × Int))
    (ih1 : fl ≤ if rl < sl then rl else sl)
    (ih4 : fs = (if fl = (if rl < sl then rl else sl) then
        (if rl < sl then [rc] else if rl = sl then ss ++ [rc] else ss) else []) ++
        (D.filter (fun d => d.2 = fl)).map Prod.fst) :
    fs = (if fl = sl then ss else []) ++
      (((rc, rl) :: D).filter (fun d => d.2 = fl)).map Prod.fst := by
  rw [ih4, List.filter_cons]
  by_cases h1 : rl < sl
  · have h2 : ¬ fl = sl := by
      rw [if_pos h1] at ih1; omega
    simp only [if_pos h1, if_neg h2, List.nil_append]
    by_cases h3 : fl = rl
    · simp [h3]
    · have h4 : ¬ rl = fl := fun h => h3 h.symm
      simp [h3, h4]
  · simp only [if_neg h1] at ih1 ⊢
    by_cases h2 : rl = sl
    · by_cases h3 : fl = sl
      · simp [h2, h3]
      · have h4 : ¬ sl = fl := fun h => h3 h.symm
        simp [h2, h3, h4]
    · have h3 : ¬ rl = fl := by omega
      simp [h2, h3]

theorem analyze_fold {σ : Type} (A : Analysis σ) : ∀ (conflicts : List Clause)
    (st : Analyze_state σ),
    (conflicts.foldl (analyze_step A) st).level ≤ st.level ∧
    (∀ d ∈ derived A st.solver.trail st.ext conflicts,
      (conflicts.foldl (analyze_step A) st).level ≤ d.2) ∧
    ((conflicts.foldl (analyze_step A) st).level = st.level ∨
      ∃ d ∈ derived A st.solver.trail st.ext conflicts,
        d.2 = (conflicts.foldl (analyze_step A) st).level) ∧
    (conflicts.foldl (analyze_step A) st).learned =
      (if (conflicts.foldl (analyze_step A) st).level = st.level then st.learned else []) ++
        ((derived A st.solver.trail st.ext conflicts).filter
          (fun d => d.2 = (conflicts.foldl (analyze_step A) st).level)).map Prod.fst
  | [], st => by simp [derived]
  | c :: cs, st => by
    obtain ⟨ih1, ih2, ih3, ih4⟩ := analyze_fold A cs (analyze_step A st c)
    rw [analyze_step_trail, analyze_step_ext] at ih2 ih3 ih4
    rw [analyze_step_level] at ih1 ih3 ih4
    rw [analyze_step_learned] at ih4
    simp only [List.foldl_cons, derived, List.mem_cons, forall_eq_or_imp, exists_eq_or_imp]
    refine ⟨?_, ⟨?_, ih2⟩, ?_, select_combine _ _ _ _ _ _ _ ih1 ih4⟩
    · split_ifs at ih1 <;> omega
    · split_ifs at ih1 <;> omega
    · split_ifs at ih3 with h
      · rcases ih3 with h3 | h3
        · right; left; exact h3.symm
        · right; right; exact h3
      · rcases ih3 with h3 | h3
        · left; exact h3
        · right; right; exact h3

theorem derived_length {σ : Type} (A : Analysis σ) (tr : Trail) : ∀ (cs : List Clause)
    (ext : σ), (derived A tr ext cs).length = cs.length
  | [], _ => rfl
  | _ :: cs, _ => by simp [derived, derived_length A tr cs]

theorem derived_level_le {σ : Type} (A : Analysis σ) (tr : Trail)
    (hint : ∀ (e : σ) (t : Trail) (c : Clause), (A.analyze e t c).level ≤ INT_MAX) :
    ∀ (cs : List Clause) (ext : σ), ∀ d ∈ derived A tr ext cs, d.2 ≤ INT_MAX
  | [], _, d, h => by simp [derived] at h
  | c :: cs, ext, d, h => by
    simp only [derived, List.mem_cons] at h
    rcases h with rfl | h
    · simp only [derive_clause_level]
      exact hint _ _ _
    · exact derived_level_le A tr hint cs _ d h

theorem derive_clause_cases {σ : Type} (A : Analysis σ) (tr : Trail) (ext : σ)
    (c : Clause) :
    ((A.analyze ext tr c).clause = [] ∧
      (derive_clause A tr ext c).clause = [] ∧
      (derive_clause A tr ext c).ext = (A.analyze ext tr c).ext) ∨
    ((A.analyze ext tr c).clause ≠ [] ∧
      (derive_clause A tr ext c).clause =
        (A.minimize (A.analyze ext tr c).ext tr (A.analyze ext tr c).clause).1 ∧
      (derive_clause A tr ext c).ext =
        (A.minimize (A.analyze ext tr c).ext tr (A.analyze ext tr c).clause).2) := by
  unfold derive_clause
  cases hc : (A.analyze ext tr c).clause with
  | nil =>
    left
    simp [hc]
  | cons l ls =>
    right
    simp [hc]

/-- The loop of `analyze_conflicts` derives what the description of the analysis says:
every clause that is not empty goes through the minimizer. -/
theorem derived_eq_minimized_derived {σ : Type} (A : Analysis σ) (tr : Trail) :
    ∀ (cs : List Clause) (ext : σ), derived A tr ext cs = minimized_derived A tr ext cs
  | [], _ => rfl
  | c :: cs, ext => by
    unfold derived minimized_derived
    simp only
    rcases derive_clause_cases A tr ext c with ⟨h1, h2, h3⟩ | ⟨h1, h2, h3⟩
    · rw [h2, h3, derive_clause_level, derived_eq_minimized_derived A tr cs]
      simp only [h1]
    · rw [h2, h3, derive_clause_level, derived_eq_minimized_derived A tr cs]
      cases hc : (A.analyze ext tr c).clause with
      | nil => exact absurd hc h1
      | cons l ls => rfl

theorem analyze_fold_ext {σ : Type} (A : Analysis σ) : ∀ (cs : List Clause)
    (st : Analyze_state σ),
    (cs.foldl (analyze_step A) st).ext = minimized_state A st.solver.trail st.ext cs
  | [], _ => rfl
  | c :: cs, st => by
    rw [List.foldl_cons, analyze_fold_ext A cs, analyze_step_trail, analyze_step_ext]
    rcases derive_clause_cases A st.solver.trail st.ext c with ⟨h1, _, h3⟩ | ⟨h1, _, h3⟩
    · rw [h3]
      simp only [minimized_state, h1]
    · rw [h3]
      cases hc : (A.analyze st.ext st.solver.trail c).clause with
      | nil => exact absurd hc h1
      | cons l ls => simp only [minimized_state, hc]

theorem minimized_derived_mem {σ : Type} (A : Analysis σ) (tr : Trail) :
    ∀ (cs : List Clause) (ext : σ), ∀ d ∈ minimized_derived A tr ext cs,
      ∃ (e : σ) (conflict : Clause), conflict ∈ cs ∧
        d.2 = (A.analyze e tr conflict).level ∧
        (((A.analyze e tr conflict).clause = [] ∧ d.1 = []) ∨
          ((A.analyze e tr conflict).clause ≠ [] ∧
            d.1 = (A.minimize (A.analyze e tr conflict).ext tr
              (A.analyze e tr conflict).clause).1))
  | [], _, d, h => by simp [minimized_derived] at h
  | c :: cs, ext, d, h => by
    unfold minimized_derived at h
    cases hc : (A.analyze ext tr c).clause with
    | nil =>
      simp only [hc, List.mem_cons] at h
      rcases h with h | h
      · exact ⟨ext, c, List.mem_cons_self _ _, by rw [h], Or.inl ⟨hc, by rw [h]⟩⟩
      · obtain ⟨e, conflict, h1, h2⟩ := minimized_derived_mem A tr cs _ d h
        exact ⟨e, conflict, List.mem_cons_of_mem _ h1, h2⟩
    | cons l ls =>
      simp only [hc, List.mem_cons] at h
      rcases h with h | h
      · refine ⟨ext, c, List.mem_cons_self _ _, by rw [h], Or.inr ⟨by simp [hc], ?_⟩⟩
        rw [h, hc]
      · obtain ⟨e, conflict, h1, h2⟩ := minimized_derived_mem A tr cs _ d h
        exact ⟨e, conflict, List.mem_cons_of_mem _ h1, h2⟩

/-- C1: for every list of conflicts, with an analyzer whose levels are values of `int`,
`analyze_conflicts` returns a level that is below or equal to the level of every derived
clause and, when there is a conflict at all, is the level of one of them (`INT_MAX` when
there is none); the clauses returned are exactly the minimized derived clauses of
`minimized_derived` whose level equals the returned level, in the order of their
conflicts, one derived clause per conflict being considered. Every clause returned is
thus the empty clause that the analyzer derived from one of the conflicts, or what the
minimizer made of the non-empty clause that the analyzer derived from one of them, at
the returned level; and the collaborators are left in the state that one analysis per
conflict and one minimization per non-empty clause lead to. -/
theorem analyze_conflicts_minimum {σ : Type} (A : Analysis σ) (s : Solver) (ext : σ)
    (conflicts : List Clause)
    (hint : ∀ (e : σ) (t : Trail) (c : Clause), (A.analyze e t c).level ≤ INT_MAX) :
    (∀ d ∈ minimized_derived A s.trail ext conflicts,
      (analyze_conflicts A s ext conflicts).1.2 ≤ d.2) ∧
    (conflicts ≠ [] → ∃ d ∈ minimized_derived A s.trail ext conflicts,
      d.2 = (analyze_conflicts A s ext conflicts).1.2) ∧
    (conflicts = [] → (analyze_conflicts A s ext conflicts).1.2 = INT_MAX) ∧
    (analyze_conflicts A s ext conflicts).1.1 =
      ((minimized_derived A s.trail ext conflicts).filter
        (fun d => d.2 = (analyze_conflicts A s ext conflicts).1.2)).map Prod.fst ∧
    (minimized_derived A s.trail ext conflicts).length = conflicts.length ∧
    (∀ c ∈ (analyze_conflicts A s ext conflicts).1.1,
      ∃ (e : σ) (conflict : Clause), conflict ∈ conflicts ∧
        (A.analyze e s.trail conflict).level = (analyze_conflicts A s ext conflicts).1.2 ∧
        (((A.analyze e s.trail conflict).clause = [] ∧ c = []) ∨
          ((A.analyze e s.trail conflict).clause ≠ [] ∧
            c = (A.minimize (A.analyze e s.trail conflict).ext s.trail
              (A.analyze e s.trail conflict).clause).1))) ∧
    (analyze_conflicts A s ext conflicts).2.2 = minimized_state A s.trail ext conflicts := by
  obtain ⟨h1, h2, h3, h4⟩ := analyze_fold A conflicts
    ⟨{ s with total_conflicts := s.total_conflicts + 1 }, ext, [], INT_MAX⟩
  have hext := analyze_fold_ext A conflicts
    ⟨{ s with total_conflicts := s.total_conflicts + 1 }, ext, [], INT_MAX⟩
  have hlen := derived_length A s.trail conflicts ext
  have hmax := derived_level_le A s.trail hint conflicts ext
  simp only [analyze_conflicts]
  simp only at h1 h2 h3 h4 hext
  rw [derived_eq_minimized_derived] at h2 h3 h4 hlen hmax
  have hlearned : (conflicts.foldl (analyze_step A)
      ⟨{ s with total_conflicts := s.total_conflicts + 1 }, ext, [], INT_MAX⟩).learned =
      ((minimized_derived A s.trail ext conflicts).filter
        (fun d => d.2 = (conflicts.foldl (analyze_step A)
          ⟨{ s with total_conflicts := s.total_conflicts + 1 }, ext, [], INT_MAX⟩).level)).map
        Prod.fst := by
    rw [h4]
    split_ifs <;> simp
  refine ⟨h2, ?_, ?_, hlearned, hlen, ?_, hext⟩
  · intro hne
    rcases h3 with h3 | h3
    · cases hmd : minimized_derived A s.trail ext conflicts with
      | nil =>
        rw [hmd] at hlen
        cases conflicts with
        | nil => exact absurd rfl hne
        | cons c cs => simp at hlen
      | cons d ds =>
        have hmem : d ∈ minimized_derived A s.trail ext conflicts := by
          rw [hmd]; exact List.mem_cons_self _ _
        refine ⟨d, List.mem_cons_self _ _, ?_⟩
        have hle := h2 d hmem
        have hm := hmax d hmem
        omega
    · exact h3
  · rintro rfl
    rfl
  · intro c hc
    rw [hlearned] at hc
    obtain ⟨d, hd, hdc⟩ := List.mem_map.mp hc
    obtain ⟨hd1, hd2⟩ := List.mem_filter.mp hd
    obtain ⟨e, conflict, hm1, hm2, hm3⟩ := minimized_derived_mem A s.trail conflicts ext d hd1
    have hd2' : d.2 = (conflicts.foldl (analyze_step A)
        ⟨{ s with total_conflicts := s.total_conflicts + 1 }, ext, [], INT_MAX⟩).level := by
      simpa using hd2
    refine ⟨e, conflict, hm1, by rw [← hm2, hd2'], ?_⟩
    rw [← hdc]
    exact hm3

/-- Witness for C1: with `trimming_analysis`, whose minimizer keeps two literals, the
conflicts of `long_conflicts` yield at level 1 the first conflict cut down to two
literals, the unit clause and the empty clause, which is not minimized; the clause of the
second conflict, at level 2, is left out, and the minimizer was called three times. -/
theorem analyze_conflicts_minimum_witness :
    (∀ (e : Nat) (t : Trail) (c : Clause),
      (trimming_analysis.analyze e t c).level ≤ INT_MAX) ∧
    (analyze_conflicts trimming_analysis (Solver.with_trail Trail.empty) 0
      long_conflicts).1 = ([[pos_lit 0, pos_lit 1], [neg_lit 2], []], 1) ∧
    (analyze_conflicts trimming_analysis (Solver.with_trail Trail.empty) 0
      long_conflicts).2.2 = 3 ∧
    (analyze_conflicts trimming_analysis (Solver.with_trail Trail.empty) 0
      long_conflicts).1.1 =
      ((minimized_derived trimming_analysis Trail.empty 0 long_conflicts).filter
        (fun d => d.2 = (analyze_conflicts trimming_analysis (Solver.with_trail Trail.empty) 0
          long_conflicts).1.2)).map Prod.fst ∧
    (analyze_conflicts trimming_analysis (Solver.with_trail Trail.empty) 0
      long_conflicts).2.2 = minimized_state trimming_analysis Trail.empty 0 long_conflicts := by
  have hint : ∀ (e : Nat) (t : Trail) (c : Clause),
      (trimming_analysis.analyze e t c).level ≤ INT_MAX := by
    intro e t c
    simp only [trimming_analysis, INT_MAX]
    split_ifs <;> omega
  have h := analyze_conflicts_minimum trimming_analysis (Solver.with_trail Trail.empty) 0
    long_conflicts hint
  exact ⟨hint, by decide, by decide, h.2.2.2.1, h.2.2.2.2.2.2⟩

/-! ## The Boolean model -/

theorem Model.value_filter (f : Nat → Bool) (ord : Nat) : ∀ m : Model,
    Model.value (m.filter (fun p => f p.1)) ord = if f ord then Model.value m ord else none
  | [] => by simp [Model.value]
  | (o, b) :: rest => by
    have ih := Model.value_filter f ord rest
    by_cases hf : f o = true
    · simp only [List.filter_cons, hf, if_true, Model.value]
      by_cases ho : o = ord
      · subst ho; simp [hf]
      · simp [ho, ih]
    · have hf' : f o = false := by simpa using hf
      simp only [List.filter_cons, hf', Bool.false_eq_true, if_false, Model.value, ih]
      by_cases ho : o = ord
      · subst ho; simp [hf']
      · simp [ho]

theorem Model.value_set_value (m : Model) (k o : Nat) (v : Bool) :
    Model.value (Model.set_value m k v) o = if k = o then some v else Model.value m o := by
  unfold Model.set_value
  simp only [Model.value]
  by_cases h : k = o
  · simp [h]
  · have := Model.value_filter (fun x => x != k) o m
    simp only [h, if_false]
    rw [this]
    have h' : (o != k) = true := by simpa using fun e => h e.symm
    simp [h']

theorem Trail.entry_of_isSome (tr : Trail) (v : Variable) :
    (tr.entry_of v).isSome = true ↔ ∃ e ∈ tr.entries, e.var = v := by
  unfold Trail.entry_of
  rw [List.find?_isSome]
  simp

/-! ## `backtrack_with`: the semantic-split branch -/

theorem backtrack_with_split_eq (is_before : Variable → Variable → Bool) (s s' : Solver)
    (l0 : Literal) (rest : List Literal) (others : List Clause) (L : Int)
    (hsplit : is_semantic_split s.trail (l0 :: rest) = some true)
    (h : backtrack_with is_before s ((l0 :: rest) :: others) L = some s') :
    ∃ (top : Literal) (top_level : Int) (tr2 : Trail),
      s.trail.decision_level_of l0.var = some top_level ∧
      select_top s.trail is_before top_level l0 rest = some top ∧
      L < INT_MAX ∧ split_asserts s.trail L = true ∧
      (s.trail.backtrack L).decide top.var = some tr2 ∧
      (∀ c ∈ (l0 :: rest) :: others, is_semantic_split s.trail c = some true) ∧
      s'.trail = { tr2 with model := Model.set_value tr2.model top.var.ord (!top.is_negation) } ∧
      s'.events = s.events ++ [Event.on_before_backtrack s.trail L] ∧
      s'.total_backtracks = s.total_backtracks + 1 ∧
      s'.learned = s.learned ∧ s'.input = s.input := by
  unfold backtrack_with at h
  simp only [hsplit] at h
  unfold backtrack_split at h
  simp only at h
  split at h
  · rename_i hall
    split at h
    · exact absurd h (by simp)
    · rename_i top_level htl
      split at h
      · exact absurd h (by simp)
      · rename_i top htop
        split at h
        · exact absurd h (by simp)
        · rename_i hmax
          split at h
          · rename_i hassert
            split at h
            · exact absurd h (by simp)
            · rename_i tr2 hdec
              simp only [Option.some.injEq] at h
              subst h
              refine ⟨top, top_level, tr2, htl, htop, by omega, hassert, hdec, ?_, rfl, rfl,
                rfl, rfl, rfl⟩
              intro c hc
              have := (List.all_eq_true.mp hall) c hc
              simpa using this
          · exact absurd h (by simp)
  · exact absurd h (by simp)

theorem select_top_mem (tr : Trail) (is_before : Variable → Variable → Bool) (lvl : Int) :
    ∀ (rest : List Literal) (top res : Literal),
      select_top tr is_before lvl top rest = some res → res = top ∨ res ∈ rest
  | [], top, res, h => by
    simp only [select_top, Option.some.injEq] at h
    exact Or.inl h.symm
  | l :: rest, top, res, h => by
    unfold select_top at h
    split_ifs at h
    · rcases select_top_mem tr is_before lvl rest l res h with h1 | h1
      · exact Or.inr (h1 ▸ List.mem_cons_self _ _)
      · exact Or.inr (List.mem_cons_of_mem _ h1)
    · rcases select_top_mem tr is_before lvl rest top res h with h1 | h1
      · exact Or.inl h1
      · exact Or.inr (List.mem_cons_of_mem _ h1)
    · simp only [Option.some.injEq] at h
      exact Or.inl h.symm

theorem select_top_best (tr : Trail) (is_before : Variable → Variable → Bool) (lvl : Int)
    (c : Clause)
    (hirr : ∀ a ∈ c, is_before a.var a.var = false)
    (htrans : ∀ a ∈ c, ∀ b ∈ c, ∀ d ∈ c, is_before a.var b.var = true →
      is_before b.var d.var = true → is_before a.var d.var = true) :
    ∀ (rest seen : List Literal) (top res : Literal),
      (∀ x ∈ seen, x ∈ c) → (∀ x ∈ rest, x ∈ c) → top ∈ seen →
      (∀ x ∈ seen, tr.decision_level_of x.var = some lvl) →
      (∀ x ∈ seen, is_before x.var top.var = false) →
      select_top tr is_before lvl top rest = some res →
      res ∈ seen ++ leading_run tr lvl rest ∧ tr.decision_level_of res.var = some lvl ∧
        ∀ x ∈ seen ++ leading_run tr lvl rest, is_before x.var res.var = false
  | [], seen, top, res, _, _, htop, hlvl, hbest, h => by
    simp only [select_top, Option.some.injEq] at h
    subst h
    simp only [leading_run, List.takeWhile_nil, List.append_nil]
    exact ⟨htop, hlvl _ htop, hbest⟩
  | l :: rest, seen, top, res, hseen, hrest, htop, hlvl, hbest, h => by
    unfold select_top at h
    have hlc : l ∈ c := hrest l (List.mem_cons_self _ _)
    have hrest' : ∀ x ∈ rest, x ∈ c := fun x hx => hrest x (List.mem_cons_of_mem _ hx)
    have hseen' : ∀ x ∈ seen ++ [l], x ∈ c := by
      intro x hx
      rcases List.mem_append.mp hx with hx | hx
      · exact hseen x hx
      · rw [List.mem_singleton.mp hx]; exact hlc
    by_cases hl : tr.decision_level_of l.var = some lvl
    · have hrun : leading_run tr lvl (l :: rest) = l :: leading_run tr lvl rest := by
        simp [leading_run, List.takeWhile_cons, hl]
      have hlvl' : ∀ x ∈ seen ++ [l], tr.decision_level_of x.var = some lvl := by
        intro x hx
        rcases List.mem_append.mp hx with hx | hx
        · exact hlvl x hx
        · rw [List.mem_singleton.mp hx]; exact hl
      rw [hrun]
      have hassoc : seen ++ l :: leading_run tr lvl rest
          = (seen ++ [l]) ++ leading_run tr lvl rest := by simp
      rw [hassoc]
      rw [if_pos hl] at h
      split_ifs at h with hr hb
      · -- `l` is ranked before the current best: it becomes the best
        refine select_top_best tr is_before lvl c hirr htrans rest (seen ++ [l]) l res
          hseen' hrest' (by simp) hlvl' ?_ h
        intro x hx
        rcases List.mem_append.mp hx with hx | hx
        · by_contra hxl
          have hxl' : is_before x.var l.var = true := by simpa using hxl
          have := htrans x (hseen x hx) l hlc top (hseen top htop) hxl' hb
          rw [hbest x hx] at this
          exact Bool.false_ne_true this
        · rw [List.mem_singleton.mp hx]; exact hirr l hlc
      · -- the current best stays
        refine select_top_best tr is_before lvl c hirr htrans rest (seen ++ [l]) top res
          hseen' hrest' (by simp [htop]) hlvl' ?_ h
        intro x hx
        rcases List.mem_append.mp hx with hx | hx
        · exact hbest x hx
        · rw [List.mem_singleton.mp hx]; simpa using hb
    · have hrun : leading_run tr lvl (l :: rest) = [] := by
        simp [leading_run, List.takeWhile_cons, hl]
      rw [if_neg hl] at h
      simp only [Option.some.injEq] at h
      subst h
      rw [hrun, List.append_nil]
      exact ⟨htop, hlvl _ htop, hbest⟩

theorem decide_entries (tr tr2 : Trail) (v : Variable) (h : tr.decide v = some tr2) :
    (∀ e ∈ tr.entries, e.var ≠ v) ∧
    tr2.entries = tr.entries ++ [⟨v, Source.decision, tr.level + 1⟩] ∧
    tr2.level = tr.level + 1 ∧ tr2.model = tr.model := by
  unfold Trail.decide at h
  split_ifs at h with hdef
  simp only [Option.some.injEq] at h
  subst h
  refine ⟨?_, rfl, rfl, rfl⟩
  intro e he hv
  exact hdef ((Trail.entry_of_isSome tr v).mpr ⟨e, he, hv⟩)

/-- C7 (amended): in the semantic-split branch the literal chosen for the new decision
belongs to the leading run of `refs[0]` at the decision level of `refs[0][0]`, its
variable is assigned at that level, it is the variable decided, and no literal of that
leading run has a variable that `is_before` ranks before the chosen one, provided
`is_before` is irreflexive and transitive on the variables of `refs[0]`. -/
theorem backtrack_with_split_choice (is_before : Variable → Variable → Bool)
    (s s' : Solver) (l0 : Literal) (rest : List Literal) (others : List Clause) (L : Int)
    (hsplit : is_semantic_split s.trail (l0 :: rest) = some true)
    (h : backtrack_with is_before s ((l0 :: rest) :: others) L = some s')
    (hirr : ∀ a ∈ l0 :: rest, is_before a.var a.var = false)
    (htrans : ∀ a ∈ l0 :: rest, ∀ b ∈ l0 :: rest, ∀ d ∈ l0 :: rest,
      is_before a.var b.var = true → is_before b.var d.var = true →
      is_before a.var d.var = true) :
    ∃ (top : Literal) (top_level : Int),
      s.trail.decision_level_of l0.var = some top_level ∧
      top ∈ leading_run s.trail top_level (l0 :: rest) ∧
      top ∈ l0 :: rest ∧
      s.trail.decision_level_of top.var = some top_level ∧
      s'.trail.entries.getLast? = some ⟨top.var, Source.decision, L + 1⟩ ∧
      ∀ l ∈ leading_run s.trail top_level (l0 :: rest), is_before l.var top.var = false := by
  obtain ⟨top, top_level, tr2, htl, htop, _, _, hdec, _, htrail, _⟩ :=
    backtrack_with_split_eq is_before s s' l0 rest others L hsplit h
  have hbest := select_top_best s.trail is_before top_level (l0 :: rest) hirr htrans rest
    [l0] l0 top (by simp) (fun x hx => List.mem_cons_of_mem _ hx) (by simp)
    (by simpa using htl) (by simpa using hirr l0 (List.mem_cons_self _ _)) htop
  have hrun : leading_run s.trail top_level (l0 :: rest)
      = [l0] ++ leading_run s.trail top_level rest := by
    simp [leading_run, List.takeWhile_cons, htl]
  obtain ⟨_, hd2, _, _⟩ := decide_entries _ _ _ hdec
  refine ⟨top, top_level, htl, hrun ▸ hbest.1, ?_, hbest.2.1, ?_, hrun ▸ hbest.2.2⟩
  · rcases select_top_mem _ _ _ _ _ _ htop with h1 | h1
    · exact h1 ▸ List.mem_cons_self _ _
    · exact List.mem_cons_of_mem _ h1
  · rw [htrail]
    simp [hd2, Trail.backtrack]

/-- Witness for C7 (amended): on `split_trail` the clause of the Boolean variables 0 and 1
is a semantic split, and the variable decided is the one of lower ordinal. -/
theorem backtrack_with_split_choice_witness :
    is_semantic_split split_trail [pos_lit 0, pos_lit 1] = some true ∧
    (backtrack_with ord_before (Solver.with_trail split_trail)
      [[pos_lit 0, pos_lit 1]] 0).isSome = true ∧
    ∃ (top : Literal) (top_level : Int),
      split_trail.decision_level_of (pos_lit 0).var = some top_level ∧
      top ∈ leading_run split_trail top_level [pos_lit 0, pos_lit 1] ∧
      top ∈ [pos_lit 0, pos_lit 1] ∧
      split_trail.decision_level_of top.var = some top_level ∧
      ((backtrack_with ord_before (Solver.with_trail split_trail)
        [[pos_lit 0, pos_lit 1]] 0).get (by decide)).trail.entries.getLast? =
          some ⟨top.var, Source.decision, 0 + 1⟩ ∧
      ∀ l ∈ leading_run split_trail top_level [pos_lit 0, pos_lit 1],
        ord_before l.var top.var = false :=
  ⟨by decide, by decide,
    backtrack_with_split_choice ord_before (Solver.with_trail split_trail) _ (pos_lit 0)
      [pos_lit 1] [] 0 (by decide) (Option.some_get _).symm (by decide) (by decide)⟩

/-- Counterexample to C7 as stated: on `two_level_trail` (current decision level 2), with
the variables ranked by ordinal, `backtrack_with` accepts `interrupted_clause` as a
semantic split and decides the Boolean variable 1, although the clause holds a literal of
the Boolean variable 0 at the current top level 2 and variable 0 is ranked before
variable 1. The ranking is irreflexive, transitive and total on the variables of the
clause. -/
theorem backtrack_with_split_choice_counterexample :
    is_semantic_split two_level_trail interrupted_clause = some true ∧
    (backtrack_with ord_before (Solver.with_trail two_level_trail) [interrupted_clause] 1).map
      (fun s' => s'.trail.entries.getLast?) =
        some (some ⟨bool_var 1, Source.decision, 2⟩) ∧
    pos_lit 0 ∈ interrupted_clause ∧
    two_level_trail.decision_level_of (pos_lit 0).var = some two_level_trail.decision_level ∧
    ord_before (pos_lit 0).var (bool_var 1) = true ∧
    (∀ a ∈ interrupted_clause, ord_before a.var a.var = false) ∧
    (∀ a ∈ interrupted_clause, ∀ b ∈ interrupted_clause, ∀ d ∈ interrupted_clause,
      ord_before a.var b.var = true → ord_before b.var d.var = true →
      ord_before a.var d.var = true) ∧
    (∀ a ∈ interrupted_clause, ∀ b ∈ interrupted_clause,
      a.var = b.var ∨ ord_before a.var b.var = true ∨ ord_before b.var a.var = true) := by
  decide

theorem split_asserts_iff (tr : Trail) (L : Int) :
    split_asserts tr L = true ↔
      tr.decision_level ≥ L + 1 ∧
      ∃ e, (tr.assigned (L + 1)).head? = some e ∧ e.var.type ≠ VarType.boolean := by
  unfold split_asserts
  by_cases hlev : tr.decision_level ≥ L + 1
  · simp only [hlev, if_true, true_and]
    cases hhead : (tr.assigned (L + 1)).head? with
    | none => simp
    | some e => simp
  · simp [hlev]

/-- C8: in the semantic-split branch, a call of `backtrack_with` that returns leaves the
entries of the backtracked trail (those of level at most `L`) followed by one new entry,
the decision of the chosen variable at level `L + 1`; the decision level is `L + 1`; the
Boolean value of the chosen variable is true iff its literal in `refs[0]` is positive;
the variable has that decision entry and no reason clause; every entry that was not on
the trail before is a decision, so nothing is propagated; and `on_before_backtrack` was
fired with the trail as it was before. -/
theorem backtrack_with_split_decides (is_before : Variable → Variable → Bool)
    (s s' : Solver) (l0 : Literal) (rest : List Literal) (others : List Clause) (L : Int)
    (hsplit : is_semantic_split s.trail (l0 :: rest) = some true)
    (h : backtrack_with is_before s ((l0 :: rest) :: others) L = some s') :
    ∃ (top : Literal) (top_level : Int),
      s.trail.decision_level_of l0.var = some top_level ∧
      select_top s.trail is_before top_level l0 rest = some top ∧
      top ∈ l0 :: rest ∧
      s'.trail.entries =
        s.trail.entries.filter (fun e => e.level ≤ L) ++ [⟨top.var, Source.decision, L + 1⟩] ∧
      s'.trail.decision_level = L + 1 ∧
      s'.trail.model = Model.set_value (s.trail.backtrack L).model top.ord (!top.is_negation) ∧
      Model.value s'.trail.model top.ord = some (!top.is_negation) ∧
      s'.trail.entry_of top.var = some ⟨top.var, Source.decision, L + 1⟩ ∧
      s'.trail.reason top.var = none ∧
      (∀ e ∈ s'.trail.entries, e ∈ s.trail.entries ∨ e.source = Source.decision) ∧
      s'.events = s.events ++ [Event.on_before_backtrack s.trail L] := by
  obtain ⟨top, top_level, tr2, htl, htop, _, _, hdec, _, htrail, hev, _⟩ :=
    backtrack_with_split_eq is_before s s' l0 rest others L hsplit h
  obtain ⟨hd1, hd2, hd3, hd4⟩ := decide_entries _ _ _ hdec
  have hmem : top ∈ l0 :: rest := by
    rcases select_top_mem _ _ _ _ _ _ htop with h1 | h1
    · exact h1 ▸ List.mem_cons_self _ _
    · exact List.mem_cons_of_mem _ h1
  have hentries : s'.trail.entries =
      s.trail.entries.filter (fun e => e.level ≤ L) ++ [⟨top.var, Source.decision, L + 1⟩] := by
    rw [htrail]
    simp only [hd2]
    rfl
  have hfind : s'.trail.entry_of top.var = some ⟨top.var, Source.decision, L + 1⟩ := by
    unfold Trail.entry_of
    rw [hentries, List.find?_append]
    have hnone : List.find? (fun e => decide (e.var = top.var))
        (s.trail.entries.filter (fun e => e.level ≤ L)) = none := by
      rw [List.find?_eq_none]
      intro e he
      simpa using hd1 e he
    rw [hnone]
    simp
  refine ⟨top, top_level, htl, htop, hmem, hentries, ?_, ?_, ?_, hfind, ?_, ?_, hev⟩
  · rw [htrail]
    simp only [Trail.decision_level, hd3]
    rfl
  · rw [htrail]
    simp only [hd4]
    rfl
  · rw [htrail]
    simp only [Model.value_set_value]
    simp [Literal.var]
  · unfold Trail.reason
    rw [hfind]
  · intro e he
    rw [hentries, List.mem_append] at he
    rcases he with he | he
    · exact Or.inl (List.mem_of_mem_filter he)
    · rw [List.mem_singleton.mp he]
      exact Or.inr rfl

/-- Witness for C8: on `two_level_trail` the clause of the Boolean variables 1 and 2 is a
semantic split; backtracking with it to level 1 returns and decides variable 1. -/
theorem backtrack_with_split_decides_witness :
    is_semantic_split two_level_trail [pos_lit 1, pos_lit 2] = some true ∧
    (backtrack_with ord_before (Solver.with_trail two_level_trail)
      [[pos_lit 1, pos_lit 2]] 1).isSome = true ∧
    ∃ (top : Literal) (top_level : Int),
      two_level_trail.decision_level_of (pos_lit 1).var = some top_level ∧
      select_top two_level_trail ord_before top_level (pos_lit 1) [pos_lit 2] = some top ∧
      top ∈ [pos_lit 1, pos_lit 2] ∧
      ((backtrack_with ord_before (Solver.with_trail two_level_trail)
        [[pos_lit 1, pos_lit 2]] 1).get (by decide)).trail.decision_level = 1 + 1 := by
  refine ⟨by decide, by decide, ?_⟩
  obtain ⟨top, top_level, h1, h2, h3, _, h5, _⟩ :=
    backtrack_with_split_decides ord_before (Solver.with_trail two_level_trail) _
      (pos_lit 1) [pos_lit 2] [] 1 (by decide) (Option.some_get _).symm
  exact ⟨top, top_level, h1, h2, h3, h5⟩

/-- C9 (amended): in the semantic-split case a call of `backtrack_with` that passes its
assertions was made on a trail whose decision level, before any truncation, is at least
`L + 1` (it may equal `L + 1`) and whose first entry at level `L + 1` is a variable of
non-Boolean kind; these two conditions are exactly what lines 153-154 assert. -/
theorem backtrack_with_split_requires (is_before : Variable → Variable → Bool)
    (s s' : Solver) (l0 : Literal) (rest : List Literal) (others : List Clause) (L : Int)
    (hsplit : is_semantic_split s.trail (l0 :: rest) = some true)
    (h : backtrack_with is_before s ((l0 :: rest) :: others) L = some s') :
    split_asserts s.trail L = true ∧
    s.trail.decision_level ≥ L + 1 ∧
    (∃ e, (s.trail.assigned (L + 1)).head? = some e ∧ e.var.type ≠ VarType.boolean) ∧
    (∀ (tr : Trail) (K : Int), split_asserts tr K = true ↔
      tr.decision_level ≥ K + 1 ∧
      ∃ e, (tr.assigned (K + 1)).head? = some e ∧ e.var.type ≠ VarType.boolean) := by
  obtain ⟨_, _, _, _, _, _, hassert, _⟩ :=
    backtrack_with_split_eq is_before s s' l0 rest others L hsplit h
  have := (split_asserts_iff s.trail L).mp hassert
  exact ⟨hassert, this.1, this.2, split_asserts_iff⟩

/-- Witness for C9 (amended): the call on `two_level_trail` with target level 0 passes
the assertions; the decision level 2 is above `0 + 1`. -/
theorem backtrack_with_split_requires_witness :
    is_semantic_split two_level_trail [pos_lit 1, pos_lit 2] = some true ∧
    (backtrack_with ord_before (Solver.with_trail two_level_trail)
      [[pos_lit 1, pos_lit 2]] 0).isSome = true ∧
    two_level_trail.decision_level ≥ 0 + 1 ∧
    ∃ e, (two_level_trail.assigned (0 + 1)).head? = some e ∧
      e.var.type ≠ VarType.boolean := by
  refine ⟨by decide, by decide, ?_⟩
  have h := backtrack_with_split_requires ord_before (Solver.with_trail two_level_trail) _
    (pos_lit 1) [pos_lit 2] [] 0 (by decide)
    (Option.some_get (by decide : (backtrack_with ord_before
      (Solver.with_trail two_level_trail) [[pos_lit 1, pos_lit 2]] 0).isSome = true)).symm
  exact ⟨h.2.1, h.2.2.1⟩

/-- Counterexample to C9 as stated: on `split_trail` the current decision level is 1,
which equals `L + 1` for `L = 0`; the clause is a semantic split, both assertions of
lines 153-154 hold, and the call of `backtrack_with` goes through. -/
theorem backtrack_with_split_requires_counterexample :
    split_trail.decision_level = 0 + 1 ∧
    is_semantic_split split_trail [pos_lit 0, pos_lit 1] = some true ∧
    split_asserts split_trail 0 = true ∧
    (backtrack_with ord_before (Solver.with_trail split_trail)
      [[pos_lit 0, pos_lit 1]] 0).isSome = true ∧
    ¬ (split_trail.decision_level > 0 + 1) := by
  decide

/-! ## `backtrack_with`: the UIP branch -/

theorem backtrack_with_uip_eq (is_before : Variable → Variable → Bool) (s s' : Solver)
    (c0 : Clause) (others : List Clause) (L : Int)
    (hsplit : is_semantic_split s.trail c0 = some false)
    (h : backtrack_with is_before s (c0 :: others) L = some s') :
    uip_propagate L (s.trail.backtrack L) (c0 :: others) = some s'.trail ∧
    (∀ c ∈ c0 :: others, is_semantic_split s.trail c = some false) ∧
    s'.events = s.events ++ [Event.on_before_backtrack s.trail L] ∧
    s'.total_backtracks = s.total_backtracks + 1 ∧
    s'.learned = s.learned ∧ s'.input = s.input := by
  unfold backtrack_with at h
  simp only [hsplit] at h
  unfold backtrack_uip at h
  simp only at h
  split at h
  · rename_i hall
    split at h
    · exact absurd h (by simp)
    · rename_i tr htr
      simp only [Option.some.injEq] at h
      subst h
      refine ⟨htr, ?_, rfl, rfl, rfl, rfl⟩
      intro c hc
      have := (List.all_eq_true.mp hall) c hc
      simpa using this
  · exact absurd h (by simp)

theorem propagate_entries (tr tr1 : Trail) (v : Variable) (r : Option Clause) (L : Int)
    (h : tr.propagate v r L = some tr1) :
    (∀ e ∈ tr.entries, e.var ≠ v) ∧ L ≤ tr.level ∧
    tr1.entries = tr.entries ++ [⟨v, Source.propagation r, L⟩] ∧
    tr1.level = tr.level ∧ tr1.model = tr.model := by
  unfold Trail.propagate at h
  split_ifs at h with hdef hle
  simp only [Option.some.injEq] at h
  subst h
  refine ⟨?_, hle, rfl, rfl, rfl⟩
  intro e he hv
  exact hdef ((Trail.entry_of_isSome tr v).mpr ⟨e, he, hv⟩)

theorem uip_propagate_effect (L : Int) : ∀ (cs : List Clause) (tr tr' : Trail),
    uip_propagate L tr cs = some tr' →
    tr'.entries = tr.entries ++ (uip_effect L tr.model cs).1 ∧
    tr'.model = (uip_effect L tr.model cs).2 ∧ tr'.level = tr.level
  | [], tr, tr', h => by
    simp only [uip_propagate, Option.some.injEq] at h
    subst h
    simp [uip_effect]
  | [] :: rest, tr, tr', h => by simp [uip_propagate] at h
  | (l :: ls) :: rest, tr, tr', h => by
    unfold uip_propagate at h
    unfold uip_effect
    by_cases hdef : Model.is_defined tr.model l.var.ord = true
    · have hdef' : Model.is_defined tr.model l.ord = true := hdef
      rw [if_pos hdef] at h
      rw [if_pos hdef']
      exact uip_propagate_effect L rest tr tr' h
    · have hdef' : ¬ Model.is_defined tr.model l.ord = true := hdef
      rw [if_neg hdef] at h
      rw [if_neg hdef']
      split at h
      · exact absurd h (by simp)
      · rename_i tr1 hprop
        obtain ⟨_, _, hp3, hp4, hp5⟩ := propagate_entries _ _ _ _ _ hprop
        obtain ⟨ih1, ih2, ih3⟩ := uip_propagate_effect L rest _ tr' h
        simp only at ih1 ih2 ih3
        rw [hp3] at ih1
        rw [hp5] at ih1 ih2
        refine ⟨?_, ?_, ih3.trans hp4⟩
        · rw [ih1]
          simp [Literal.var]
        · rw [ih2]
          rfl

theorem uip_effect_preserves (L : Int) (o : Nat) (b : Bool) : ∀ (cs : List Clause)
    (m : Model), Model.value m o = some b → Model.value (uip_effect L m cs).2 o = some b
  | [], m, h => by simpa [uip_effect] using h
  | [] :: rest, m, h => by
    unfold uip_effect
    exact uip_effect_preserves L o b rest m h
  | (l :: ls) :: rest, m, h => by
    unfold uip_effect
    split_ifs with hdef
    · exact uip_effect_preserves L o b rest m h
    · simp only
      apply uip_effect_preserves L o b rest
      rw [Model.value_set_value]
      have hne : ¬ l.ord = o := by
        intro heq
        apply hdef
        simp [Model.is_defined, heq, h]
      simp [hne, h]

theorem uip_effect_entries (L : Int) : ∀ (cs : List Clause) (m : Model),
    ∀ e ∈ (uip_effect L m cs).1, e.level = L ∧ ∃ l ls, (l :: ls) ∈ cs ∧ e.var = l.var ∧
      e.source = Source.propagation (some (l :: ls)) ∧ Model.value m l.ord = none ∧
      Model.value (uip_effect L m cs).2 l.ord = some (!l.is_negation)
  | [], m, e, h => by simp [uip_effect] at h
  | [] :: rest, m, e, h => by
    unfold uip_effect at h ⊢
    obtain ⟨h1, l, ls, h2, h3⟩ := uip_effect_entries L rest m e h
    exact ⟨h1, l, ls, List.mem_cons_of_mem _ h2, h3⟩
  | (l0 :: ls0) :: rest, m, e, h => by
    unfold uip_effect at h ⊢
    by_cases hdef : Model.is_defined m l0.ord = true
    · rw [if_pos hdef] at h ⊢
      obtain ⟨h1, l, ls, h2, h3⟩ := uip_effect_entries L rest m e h
      exact ⟨h1, l, ls, List.mem_cons_of_mem _ h2, h3⟩
    · rw [if_neg hdef] at h ⊢
      have hnone : Model.value m l0.ord = none := by
        simpa [Model.is_defined] using hdef
      simp only [List.mem_cons] at h
      rcases h with h | h
      · subst h
        refine ⟨rfl, l0, ls0, List.mem_cons_self _ _, rfl, rfl, hnone, ?_⟩
        apply uip_effect_preserves
        simp [Model.value_set_value]
      · obtain ⟨h1, l, ls, h2, h3, h4, h5, h6⟩ := uip_effect_entries L rest _ e h
        refine ⟨h1, l, ls, List.mem_cons_of_mem _ h2, h3, h4, ?_, h6⟩
        rw [Model.value_set_value] at h5
        split_ifs at h5
        exact h5

theorem uip_effect_defined (L : Int) : ∀ (cs : List Clause) (m : Model) (l : Literal)
    (ls : List Literal), (l :: ls) ∈ cs →
    Model.is_defined (uip_effect L m cs).2 l.ord = true
  | [], _, _, _, h => by simp at h
  | [] :: rest, m, l, ls, h => by
    unfold uip_effect
    apply uip_effect_defined L rest m l ls
    simpa using h
  | (l0 :: ls0) :: rest, m, l, ls, h => by
    unfold uip_effect
    rcases List.mem_cons.mp h with h | h
    · have hl : l = l0 := by injection h
      subst hl
      by_cases hdef : Model.is_defined m l.ord = true
      · rw [if_pos hdef]
        cases hv : Model.value m l.ord with
        | none => simp [Model.is_defined, hv] at hdef
        | some b => simp [Model.is_defined, uip_effect_preserves L l.ord b rest m hv]
      · rw [if_neg hdef]
        simp only [Model.is_defined]
        rw [uip_effect_preserves L l.ord (!l.is_negation) rest _
          (by simp [Model.value_set_value])]
        rfl
    · split_ifs
      · exact uip_effect_defined L rest m l ls h
      · exact uip_effect_defined L rest _ l ls h

/-- C6: when `refs[0]` is not a semantic split, a call of `backtrack_with` that returns
leaves the entries of the backtracked trail (those of level at most `L`) followed by the
propagations of `uip_effect`: one for each clause of `refs`, in order, whose first
variable is undefined in the Boolean model at that moment, with the clause as reason, at
level `L`, the value being true iff the first literal is positive. Every entry that was
not on the trail before is such a propagation, so no decision is made and the decision
level is exactly `L`; afterwards the first variable of every clause of `refs` is
defined. -/
theorem backtrack_with_uip_propagates (is_before : Variable → Variable → Bool)
    (s s' : Solver) (c0 : Clause) (others : List Clause) (L : Int)
    (hsplit : is_semantic_split s.trail c0 = some false)
    (h : backtrack_with is_before s (c0 :: others) L = some s') :
    s'.trail.entries = s.trail.entries.filter (fun e => e.level ≤ L) ++
      (uip_effect L (s.trail.backtrack L).model (c0 :: others)).1 ∧
    s'.trail.model = (uip_effect L (s.trail.backtrack L).model (c0 :: others)).2 ∧
    s'.trail.decision_level = L ∧
    (∀ e ∈ s'.trail.entries, e ∈ s.trail.entries ∨
      (e.level = L ∧ ∃ l ls, (l :: ls) ∈ c0 :: others ∧ e.var = l.var ∧
        e.source = Source.propagation (some (l :: ls)) ∧
        Model.value (s.trail.backtrack L).model l.ord = none ∧
        Model.value s'.trail.model l.ord = some (!l.is_negation))) ∧
    (∀ l ls, (l :: ls) ∈ c0 :: others → Model.is_defined s'.trail.model l.ord = true) ∧
    s'.events = s.events ++ [Event.on_before_backtrack s.trail L] := by
  obtain ⟨hprop, _, hev, _⟩ := backtrack_with_uip_eq is_before s s' c0 others L hsplit h
  obtain ⟨h1, h2, h3⟩ := uip_propagate_effect L _ _ _ hprop
  refine ⟨h1, h2, h3, ?_, ?_, hev⟩
  · intro e he
    rw [h1, List.mem_append] at he
    rcases he with he | he
    · exact Or.inl (List.mem_of_mem_filter he)
    · right
      rw [h2]
      exact uip_effect_entries L _ _ e he
  · intro l ls hl
    rw [h2]
    exact uip_effect_defined L _ _ l ls hl

/-- Witness for C6: on `two_level_trail`, backtracking to level 1 with the UIP clause of
the Boolean variables 1 and 3 and the unit clause of variable 2 returns at decision
level 1 with both first variables defined. -/
theorem backtrack_with_uip_propagates_witness :
    is_semantic_split two_level_trail [pos_lit 1, pos_lit 3] = some false ∧
    (backtrack_with ord_before (Solver.with_trail two_level_trail)
      [[pos_lit 1, pos_lit 3], [pos_lit 2]] 1).isSome = true ∧
    ((backtrack_with ord_before (Solver.with_trail two_level_trail)
      [[pos_lit 1, pos_lit 3], [pos_lit 2]] 1).get (by decide)).trail.decision_level = 1 ∧
    ((backtrack_with ord_before (Solver.with_trail two_level_trail)
      [[pos_lit 1, pos_lit 3], [pos_lit 2]] 1).get (by decide)).trail.entries =
      [⟨rat_var 0, Source.decision, 1⟩, ⟨bool_var 3, Source.propagation none, 1⟩,
       ⟨bool_var 1, Source.propagation (some [pos_lit 1, pos_lit 3]), 1⟩,
       ⟨bool_var 2, Source.propagation (some [pos_lit 2]), 1⟩] := by
  have h := backtrack_with_uip_propagates ord_before (Solver.with_trail two_level_trail) _
    [pos_lit 1, pos_lit 3] [[pos_lit 2]] 1 (by decide)
    (Option.some_get (by decide : (backtrack_with ord_before
      (Solver.with_trail two_level_trail) [[pos_lit 1, pos_lit 3], [pos_lit 2]] 1).isSome
        = true)).symm
  exact ⟨by decide, by decide, h.2.2.1, h.1.trans (by decide)⟩

/-! ## `backtrack_with`: what stays falsified -/

theorem Trail.falsified_iff (tr : Trail) (l : Literal) :
    tr.falsified l = true ↔ Model.value tr.model l.ord = some l.is_negation := by
  simp [Trail.falsified]

theorem backtrack_value (tr : Trail) (L : Int) (o : Nat)
    (h : ∀ e ∈ tr.entries, e.var = Variable.mk o VarType.boolean → e.level ≤ L) :
    Model.value (tr.backtrack L).model o = Model.value tr.model o := by
  have hf := Model.value_filter (fun k => !(tr.entries.any (fun e =>
    decide (L < e.level) && decide (e.var = Variable.mk k VarType.boolean)))) o tr.model
  simp only [Trail.backtrack]
  rw [hf]
  have hany : (tr.entries.any (fun e =>
      decide (L < e.level) && decide (e.var = Variable.mk o VarType.boolean))) = false := by
    rw [List.any_eq_false]
    intro e he
    simp only [Bool.and_eq_true, decide_eq_true_eq, not_and]
    intro hlt hv
    have := h e he hv
    omega
  simp [hany]

/-- C10 (amended): after a call of `backtrack_with` that passes its assertions, in either
branch, the decision level is at least `L`, and every literal of every clause of `refs`
that was falsified beforehand and whose variable is assigned at a level of at most `L`
is still falsified. -/
theorem backtrack_with_keeps_falsified (is_before : Variable → Variable → Bool)
    (s s' : Solver) (refs : List Clause) (L : Int)
    (h : backtrack_with is_before s refs L = some s') :
    s'.trail.decision_level ≥ L ∧
    ∀ c ∈ refs, ∀ l ∈ c, s.trail.falsified l = true → s.trail.level_at_most l.var L →
      s'.trail.falsified l = true := by
  cases refs with
  | nil => simp [backtrack_with] at h
  | cons c0 others =>
    cases hsplit : is_semantic_split s.trail c0 with
    | none => simp [backtrack_with, hsplit] at h
    | some b =>
      cases b with
      | false =>
        obtain ⟨hprop, _⟩ := backtrack_with_uip_eq is_before s s' c0 others L hsplit h
        obtain ⟨_, h2, h3⟩ := uip_propagate_effect L _ _ _ hprop
        refine ⟨?_, ?_⟩
        · simp only [Trail.decision_level, h3]
          exact le_refl L
        · intro c _ l _ hfal hlev
          rw [Trail.falsified_iff] at hfal ⊢
          rw [h2]
          apply uip_effect_preserves
          rw [backtrack_value s.trail L l.ord hlev.2]
          exact hfal
      | true =>
        cases c0 with
        | nil => simp [is_semantic_split] at hsplit
        | cons l0 rest =>
          obtain ⟨top, top_level, tr2, _, _, _, _, hdec, _, htrail, _⟩ :=
            backtrack_with_split_eq is_before s s' l0 rest others L hsplit h
          obtain ⟨hd1, _, hd3, hd4⟩ := decide_entries _ _ _ hdec
          refine ⟨?_, ?_⟩
          · rw [htrail]
            simp only [Trail.decision_level, hd3, Trail.backtrack]
            omega
          · intro c _ l _ hfal hlev
            rw [Trail.falsified_iff] at hfal ⊢
            rw [htrail]
            simp only [hd4, Model.value_set_value]
            obtain ⟨e, he, hev⟩ := hlev.1
            have hkeep : e ∈ (s.trail.backtrack L).entries := by
              simp only [Trail.backtrack, List.mem_filter, decide_eq_true_eq]
              exact ⟨he, hlev.2 e he hev⟩
            have hne : ¬ top.var.ord = l.ord := by
              intro heq
              apply hd1 e hkeep
              rw [hev]
              simp only [Literal.var, Variable.mk.injEq, and_true] at heq ⊢
              exact heq.symm
            rw [if_neg hne, backtrack_value s.trail L l.ord hlev.2]
            exact hfal

/-- Witness for C10 (amended): on `two_level_trail`, backtracking to level 1 with the
semantic split of the Boolean variables 1, 2 and 3 returns; the literal of variable 3,
assigned at level 1, is still falsified. -/
theorem backtrack_with_keeps_falsified_witness :
    (backtrack_with ord_before (Solver.with_trail two_level_trail)
      [[pos_lit 1, pos_lit 2, pos_lit 3]] 1).isSome = true ∧
    two_level_trail.falsified (pos_lit 3) = true ∧
    two_level_trail.level_at_most (pos_lit 3).var 1 ∧
    ((backtrack_with ord_before (Solver.with_trail two_level_trail)
      [[pos_lit 1, pos_lit 2, pos_lit 3]] 1).get (by decide)).trail.falsified (pos_lit 3)
        = true := by
  have hlev : two_level_trail.level_at_most (pos_lit 3).var 1 := by
    refine ⟨⟨⟨bool_var 3, Source.propagation none, 1⟩, by decide, by decide⟩, ?_⟩
    decide
  exact ⟨by decide, by decide, hlev,
    (backtrack_with_keeps_falsified ord_before (Solver.with_trail two_level_trail) _
      [[pos_lit 1, pos_lit 2, pos_lit 3]] 1 (Option.some_get (by decide)).symm).2
      [pos_lit 1, pos_lit 2, pos_lit 3] (by decide) (pos_lit 3) (by decide) (by decide) hlev⟩

/-- Counterexample to C10 as stated: on `two_level_trail` every literal of the clause of
the Boolean variables 1, 2 and 3 is falsified, the clause is a semantic split, and the
call of `backtrack_with` to level 1 passes its assertions; afterwards the literal at
position 1 (variable 2) is not falsified: its variable is undefined, and the literal at
position 0 is true. -/
theorem backtrack_with_keeps_falsified_counterexample :
    (∀ c ∈ [[pos_lit 1, pos_lit 2, pos_lit 3]], ∀ l ∈ c,
      two_level_trail.falsified l = true) ∧
    is_semantic_split two_level_trail [pos_lit 1, pos_lit 2, pos_lit 3] = some true ∧
    [pos_lit 1, pos_lit 2, pos_lit 3][1]? = some (pos_lit 2) ∧
    (backtrack_with ord_before (Solver.with_trail two_level_trail)
      [[pos_lit 1, pos_lit 2, pos_lit 3]] 1).map
      (fun s' => (s'.trail.falsified (pos_lit 2), Model.value s'.trail.model 2,
        Model.value s'.trail.model 1, s'.trail.decision_level)) =
      some (false, none, some true, 2) := by
  decide

/-! ## `backtrack_with` returns on a well-formed trail -/

theorem well_formed_unique_entry (tr : Trail) (hwf : tr.well_formed) (e1 e2 : Entry)
    (h1 : e1 ∈ tr.entries) (h2 : e2 ∈ tr.entries) (hv : e1.var = e2.var) : e1 = e2 :=
  List.inj_on_of_nodup_map hwf.1 h1 h2 hv

theorem uip_propagate_returns (L : Int) : ∀ (cs : List Clause) (tr : Trail),
    (∀ c ∈ cs, c ≠ []) → L ≤ tr.level →
    (∀ e ∈ tr.entries, e.var.type = VarType.boolean →
      Model.is_defined tr.model e.var.ord = true) →
    (uip_propagate L tr cs).isSome = true
  | [], _, _, _, _ => rfl
  | [] :: _, _, hne, _, _ => absurd rfl (hne [] (List.mem_cons_self _ _))
  | (l :: ls) :: rest, tr, hne, hle, hcons => by
    have hne' : ∀ c ∈ rest, c ≠ [] := fun c hc => hne c (List.mem_cons_of_mem _ hc)
    unfold uip_propagate
    by_cases hdef : Model.is_defined tr.model l.var.ord = true
    · rw [if_pos hdef]
      exact uip_propagate_returns L rest tr hne' hle hcons
    · rw [if_neg hdef]
      have hfree : ¬ (tr.entry_of l.var).isSome = true := by
        intro hsome
        obtain ⟨e, he, hev⟩ := (Trail.entry_of_isSome tr l.var).mp hsome
        apply hdef
        have := hcons e he (by rw [hev]; rfl)
        rw [hev] at this
        exact this
      simp only [Trail.propagate, hfree, hle, if_true, if_false, Bool.false_eq_true]
      refine uip_propagate_returns L rest ⟨_, _, _⟩ hne' hle ?_
      intro e he hb
      simp only [List.mem_append, List.mem_singleton] at he
      simp only [Model.is_defined, Model.value_set_value]
      split_ifs
      · rfl
      · rcases he with he | he
        · exact hcons e he hb
        · subst he
          rename_i hneq
          exact absurd rfl hneq

theorem backtrack_consistent (tr : Trail) (L : Int) (hwf : tr.well_formed) :
    ∀ e ∈ (tr.backtrack L).entries, e.var.type = VarType.boolean →
      Model.is_defined (tr.backtrack L).model e.var.ord = true := by
  intro e he hb
  have he' : e ∈ tr.entries ∧ e.level ≤ L := by
    simpa [Trail.backtrack] using he
  have hval := backtrack_value tr L e.var.ord (by
    intro e2 he2 hv
    have : e2 = e := well_formed_unique_entry tr hwf e2 e he2 he'.1 (by
      rw [hv]
      cases hvar : e.var with
      | mk o t =>
        rw [hvar] at hb
        simp only at hb ⊢
        rw [hb])
    rw [this]
    exact he'.2)
  simp only [Model.is_defined, hval]
  exact hwf.2 e he'.1 hb

/-- On a well-formed trail the UIP branch returns for every non-empty range of non-empty
clauses none of which is a semantic split: the assertions of `Trail::propagate` hold at
every call. -/
theorem backtrack_with_uip_returns (is_before : Variable → Variable → Bool) (s : Solver)
    (c0 : Clause) (others : List Clause) (L : Int) (hwf : s.trail.well_formed)
    (hall : ∀ c ∈ c0 :: others, is_semantic_split s.trail c = some false)
    (hne : ∀ c ∈ c0 :: others, c ≠ []) :
    (backtrack_with is_before s (c0 :: others) L).isSome = true := by
  have hall' : (c0 :: others).all (fun c => is_semantic_split s.trail c == some false)
      = true := by
    rw [List.all_eq_true]
    intro c hc
    simp [hall c hc]
  have hret := uip_propagate_returns L (c0 :: others) (s.trail.backtrack L) hne
    (le_refl L) (backtrack_consistent s.trail L hwf)
  obtain ⟨tr, htr⟩ := Option.isSome_iff_exists.mp hret
  simp only [backtrack_with, hall c0 (List.mem_cons_self _ _), backtrack_uip, hall', htr,
    if_true, Option.isSome_some]

theorem decision_level_of_some (tr : Trail) (v : Variable) (lv : Int)
    (h : tr.decision_level_of v = some lv) : ∃ e ∈ tr.entries, e.var = v ∧ e.level = lv := by
  unfold Trail.decision_level_of Trail.entry_of at h
  cases hf : tr.entries.find? (fun e => e.var = v) with
  | none => simp [hf] at h
  | some e =>
    rw [hf] at h
    simp only [Option.map_some', Option.some.injEq] at h
    have hp := List.find?_some hf
    exact ⟨e, List.mem_of_find?_eq_some hf, by simpa using hp, h⟩

theorem select_top_returns (tr : Trail) (is_before : Variable → Variable → Bool)
    (lvl : Int) : ∀ (rest : List Literal) (top : Literal),
    (∀ l ∈ rest, tr.decision_level_of l.var = some lvl → tr.reason l.var = none) →
    tr.decision_level_of top.var = some lvl →
    ∃ res, select_top tr is_before lvl top rest = some res ∧
      tr.decision_level_of res.var = some lvl
  | [], top, _, htop => ⟨top, rfl, htop⟩
  | l :: rest, top, hreason, htop => by
    have hreason' : ∀ x ∈ rest, tr.decision_level_of x.var = some lvl →
        tr.reason x.var = none := fun x hx => hreason x (List.mem_cons_of_mem _ hx)
    unfold select_top
    by_cases hl : tr.decision_level_of l.var = some lvl
    · have hr : ¬ (tr.reason l.var).isSome = true := by
        rw [hreason l (List.mem_cons_self _ _) hl]
        simp
      rw [if_pos hl, if_neg hr]
      split_ifs
      · exact select_top_returns tr is_before lvl rest l hreason' hl
      · exact select_top_returns tr is_before lvl rest top hreason' htop
    · rw [if_neg hl]
      exact ⟨top, rfl, htop⟩

/-- On a well-formed trail the semantic-split branch returns when every clause of the
range is a semantic split, the literals examined by the loop have no reason clause, the
two assertions of lines 153-154 hold, and the level of `refs[0][0]` is above `L`. -/
theorem backtrack_with_split_returns (is_before : Variable → Variable → Bool) (s : Solver)
    (l0 : Literal) (rest : List Literal) (others : List Clause) (L top_level : Int)
    (hwf : s.trail.well_formed)
    (hall : ∀ c ∈ (l0 :: rest) :: others, is_semantic_split s.trail c = some true)
    (htl : s.trail.decision_level_of l0.var = some top_level)
    (hreason : ∀ l ∈ rest, s.trail.decision_level_of l.var = some top_level →
      s.trail.reason l.var = none)
    (hmax : L < INT_MAX) (hasserts : split_asserts s.trail L = true)
    (hlow : L < top_level) :
    (backtrack_with is_before s ((l0 :: rest) :: others) L).isSome = true := by
  have hall' : ((l0 :: rest) :: others).all
      (fun c => is_semantic_split s.trail c == some true) = true := by
    rw [List.all_eq_true]
    intro c hc
    simp [hall c hc]
  obtain ⟨top, htop, htoplvl⟩ :=
    select_top_returns s.trail is_before top_level rest l0 hreason htl
  obtain ⟨e, he, hev, hel⟩ := decision_level_of_some _ _ _ htoplvl
  have hfree : ¬ ((s.trail.backtrack L).entry_of top.var).isSome = true := by
    intro hsome
    obtain ⟨e2, he2, hev2⟩ := (Trail.entry_of_isSome _ _).mp hsome
    have he2' : e2 ∈ s.trail.entries ∧ e2.level ≤ L := by
      simpa [Trail.backtrack] using he2
    have : e2 = e := well_formed_unique_entry s.trail hwf e2 e he2'.1 he (hev2.trans hev.symm)
    rw [this, hel] at he2'
    omega
  have hmax' : ¬ INT_MAX ≤ L := by omega
  simp only [backtrack_with, hall _ (List.mem_cons_self _ _), backtrack_split, hall', htl,
    htop, hmax', hasserts, Trail.decide, hfree, if_true, if_false, Bool.false_eq_true,
    Option.isSome_some]

/-! ## The sort-and-unique step is idempotent -/

theorem unique_of_strict : ∀ l : List Clause,
    List.Pairwise (fun a b => clause_less a b = true) l → unique l = l
  | [], _ => rfl
  | [_], _ => rfl
  | c :: d :: cs, h => by
    have hcd : clause_less c d = true :=
      (List.pairwise_cons.mp h).1 d (List.mem_cons_self _ _)
    have hne : ¬ c = d := by
      intro heq
      rw [heq, clause_less_irrefl] at hcd
      exact Bool.false_ne_true hcd
    unfold unique
    rw [if_neg hne, unique_of_strict (d :: cs) (List.pairwise_cons.mp h).2]

theorem sort_clauses_of_sorted (l : List Clause) (h : List.Pairwise clause_le l) :
    sort_clauses l = l :=
  (sort_clauses_unique_result l l (List.Perm.refl l) h).symm

/-- C17: the sort-then-deduplicate step of `learn` is idempotent: applied to its own
output it gives that output again, for every list of clauses. -/
theorem sort_unique_idempotent (cs : List Clause) :
    sort_unique (sort_unique cs) = sort_unique cs := by
  have hstrict := sort_unique_strict cs
  have hle : List.Pairwise clause_le (sort_unique cs) :=
    hstrict.imp (fun {a b} h => clause_less_asymm h)
  have h1 : sort_clauses (sort_unique cs) = sort_unique cs := sort_clauses_of_sorted _ hle
  have h2 : unique (sort_unique cs) = sort_unique cs := unique_of_strict _ hstrict
  calc sort_unique (sort_unique cs)
      = unique (sort_clauses (sort_unique cs)) := rfl
    _ = unique (sort_unique cs) := by rw [h1]
    _ = sort_unique cs := h2

/-! ## The result of `learn` is homogeneous -/

theorem kept_clauses_homogeneous (tr : Trail) (cs : List Clause)
    (h : ∀ c ∈ cs, (is_semantic_split tr c).isSome = true) :
    (∀ c ∈ kept_clauses tr cs, is_semantic_split tr c = some true) ∨
    (∀ c ∈ kept_clauses tr cs, is_semantic_split tr c = some false) := by
  unfold kept_clauses
  split
  · right
    intro c hc
    simpa using (List.mem_filter.mp hc).2
  · rename_i hany
    left
    intro c hc
    have hsome := h c (mem_sort_unique.mp hc)
    cases hs : is_semantic_split tr c with
    | none => simp [hs] at hsome
    | some b =>
      cases b
      · exfalso
        apply hany
        rw [List.any_eq_true]
        exact ⟨c, hc, by simp [hs]⟩
      · rfl

/-- C20: on a trail where `is_semantic_split` is defined for the given clauses, `learn`
returns without changing the trail, and the clauses it inserts and returns are
homogeneous on that trail: all of them are semantic splits or none is. Hence the
`all_of` assertion of the branch that `backtrack_with` takes, the one chosen by the
first clause of the range, holds for the whole range. -/
theorem learn_result_homogeneous (s : Solver) (cs : List Clause)
    (hdef : ∀ c ∈ cs, (is_semantic_split s.trail c).isSome = true) :
    ∃ (s' : Solver) (range : List Clause), learn s cs = some (s', range) ∧
      s'.trail = s.trail ∧
      s'.learned = s.learned ++ range ∧
      ((∀ c ∈ range, is_semantic_split s'.trail c = some true) ∨
        (∀ c ∈ range, is_semantic_split s'.trail c = some false)) ∧
      (∀ (c0 : Clause) (rest : List Clause), range = c0 :: rest →
        ∃ b, is_semantic_split s'.trail c0 = some b ∧
          range.all (fun c => is_semantic_split s'.trail c == some b) = true) := by
  have hhom := kept_clauses_homogeneous s.trail cs hdef
  refine ⟨_, _, learn_eq s cs hdef, learn_loop_trail _ _, learn_loop_learned _ _, ?_, ?_⟩
  · rw [learn_loop_trail]
    exact hhom
  · intro c0 rest hrange
    rw [learn_loop_trail]
    rcases hhom with hall | hall
    · refine ⟨true, hall c0 (by rw [hrange]; exact List.mem_cons_self _ _), ?_⟩
      rw [List.all_eq_true]
      intro c hc
      simp [hall c hc]
    · refine ⟨false, hall c0 (by rw [hrange]; exact List.mem_cons_self _ _), ?_⟩
      rw [List.all_eq_true]
      intro c hc
      simp [hall c hc]

/-- Witness for C20: the clauses of `repeated_clauses` learned on `split_trail`; the
range returned holds the two unit clauses, none of which is a semantic split. -/
theorem learn_result_homogeneous_witness :
    (∀ c ∈ repeated_clauses, (is_semantic_split split_trail c).isSome = true) ∧
    ∃ (s' : Solver) (range : List Clause),
      learn (Solver.with_trail split_trail) repeated_clauses = some (s', range) ∧
      s'.trail = split_trail ∧
      ((∀ c ∈ range, is_semantic_split s'.trail c = some true) ∨
        (∀ c ∈ range, is_semantic_split s'.trail c = some false)) := by
  refine ⟨by decide, ?_⟩
  obtain ⟨s', range, h1, h2, _, h4, _⟩ :=
    learn_result_homogeneous (Solver.with_trail split_trail) repeated_clauses (by decide)
  exact ⟨s', range, h1, h2, h4⟩

/-! ## `backtrack_with`: clauses of the UIP branch that share their first variable -/

theorem uip_propagate_skip (L : Int) (tr : Trail) (l : Literal) (ls : List Literal)
    (rest : List Clause) (hdef : Model.is_defined tr.model l.var.ord = true) :
    uip_propagate L tr ((l :: ls) :: rest) = uip_propagate L tr rest := by
  rw [uip_propagate, if_pos hdef]

theorem uip_propagate_undef (L : Int) (tr : Trail) (l : Literal) (ls : List Literal)
    (rest : List Clause) (hdef : ¬ Model.is_defined tr.model l.var.ord = true) :
    uip_propagate L tr ((l :: ls) :: rest) =
      (tr.propagate l.var (some (l :: ls)) L).bind (fun tr1 =>
        uip_propagate L
          { tr1 with model := Model.set_value tr1.model l.var.ord (!l.is_negation) } rest) := by
  rw [uip_propagate, if_neg hdef]
  cases tr.propagate l.var (some (l :: ls)) L <;> rfl

theorem uip_propagate_append (L : Int) : ∀ (xs ys : List Clause) (tr tr' : Trail),
    uip_propagate L tr (xs ++ ys) = some tr' →
    ∃ tm, uip_propagate L tr xs = some tm ∧ uip_propagate L tm ys = some tr'
  | [], ys, tr, tr', h => ⟨tr, rfl, h⟩
  | [] :: xs, ys, tr, tr', h => by simp [uip_propagate] at h
  | (l :: ls) :: xs, ys, tr, tr', h => by
    rw [List.cons_append] at h
    by_cases hdef : Model.is_defined tr.model l.var.ord = true
    · rw [uip_propagate_skip L tr l ls _ hdef] at h ⊢
      exact uip_propagate_append L xs ys tr tr' h
    · rw [uip_propagate_undef L tr l ls _ hdef] at h ⊢
      cases hprop : tr.propagate l.var (some (l :: ls)) L with
      | none => simp [hprop] at h
      | some tr1 =>
        rw [hprop] at h
        simp only [Option.some_bind] at h ⊢
        exact uip_propagate_append L xs ys _ tr' h

theorem uip_effect_untouched (L : Int) (o : Nat) : ∀ (cs : List Clause) (m : Model),
    (∀ c ∈ cs, ∀ l, c.head? = some l → l.ord ≠ o) →
    Model.value (uip_effect L m cs).2 o = Model.value m o
  | [], m, _ => by simp [uip_effect]
  | [] :: rest, m, h => by
    unfold uip_effect
    exact uip_effect_untouched L o rest m (fun c hc => h c (List.mem_cons_of_mem _ hc))
  | (l :: ls) :: rest, m, h => by
    have hrest : ∀ c ∈ rest, ∀ l, c.head? = some l → l.ord ≠ o :=
      fun c hc => h c (List.mem_cons_of_mem _ hc)
    have hl : l.ord ≠ o := h (l :: ls) (List.mem_cons_self _ _) l rfl
    unfold uip_effect
    split_ifs
    · exact uip_effect_untouched L o rest m hrest
    · simp only
      rw [uip_effect_untouched L o rest _ hrest, Model.value_set_value, if_neg hl]

theorem uip_effect_entries_fresh (L : Int) (o : Nat) (cs : List Clause) (m : Model)
    (hdef : Model.is_defined m o = true) :
    ∀ e ∈ (uip_effect L m cs).1, e.var ≠ Variable.mk o VarType.boolean := by
  intro e he hv
  obtain ⟨_, l, ls, _, h3, _, h5, _⟩ := uip_effect_entries L cs m e he
  rw [h3] at hv
  have hlo : l.ord = o := by
    simpa [Literal.var] using hv
  rw [hlo] at h5
  simp [Model.is_defined, h5] at hdef

theorem uip_propagate_first (L : Int) (tm tr' : Trail) (l : Literal) (ls : List Literal)
    (post : List Clause) (hund : Model.is_defined tm.model l.ord = false)
    (h : uip_propagate L tm ((l :: ls) :: post) = some tr') :
    tr'.entries.filter (fun e => e.var = l.var) =
      [⟨l.var, Source.propagation (some (l :: ls)), L⟩] ∧
    Model.value tr'.model l.ord = some (!l.is_negation) := by
  have hund' : ¬ Model.is_defined tm.model l.var.ord = true := by
    simpa [Literal.var] using hund
  rw [uip_propagate, if_neg hund'] at h
  split at h
  · exact absurd h (by simp)
  · rename_i tr1 hprop
    obtain ⟨hp1, _, hp3, _, hp5⟩ := propagate_entries _ _ _ _ _ hprop
    obtain ⟨he1, he2, _⟩ := uip_propagate_effect L post _ tr' h
    simp only at he1 he2
    have hval : Model.value (Model.set_value tr1.model l.var.ord (!l.is_negation)) l.ord
        = some (!l.is_negation) := by
      simp [Model.value_set_value, Literal.var]
    have hdefd : Model.is_defined (Model.set_value tr1.model l.var.ord (!l.is_negation)) l.ord
        = true := by
      simp [Model.is_defined, hval]
    constructor
    · rw [he1, hp3, List.filter_append, List.filter_append]
      have hpre : tm.entries.filter (fun e => decide (e.var = l.var)) = [] := by
        rw [List.filter_eq_nil_iff]
        intro e he
        simpa using hp1 e he
      have hpost : (uip_effect L (Model.set_value tr1.model l.var.ord (!l.is_negation))
          post).1.filter (fun e => decide (e.var = l.var)) = [] := by
        rw [List.filter_eq_nil_iff]
        intro e he
        simpa using uip_effect_entries_fresh L l.ord post _ hdefd e he
      rw [hpre, hpost]
      simp
    · rw [he2]
      exact uip_effect_preserves L l.ord _ post _ hval

/-- C19: in the UIP branch a clause whose first variable is defined when its turn comes
is skipped: the loop goes on with the same trail and model. For a call of
`backtrack_with` that returns, a clause whose first variable is defined after the
backtrack adds no entry for it and leaves its value alone; and when the first variable of
a clause is undefined after the backtrack and no earlier clause of `refs` starts with that
variable, the variable has exactly one entry afterwards, the propagation with that clause
as reason at level `L`, and its value is the one that makes the first literal of that
clause true, whatever clauses with the same first variable follow. -/
theorem backtrack_with_uip_first_clause_wins (is_before : Variable → Variable → Bool)
    (s s' : Solver) (c0 : Clause) (others : List Clause) (L : Int)
    (hsplit : is_semantic_split s.trail c0 = some false)
    (h : backtrack_with is_before s (c0 :: others) L = some s') :
    (∀ (tr : Trail) (l : Literal) (ls : List Literal) (rest : List Clause),
      Model.is_defined tr.model l.var.ord = true →
      uip_propagate L tr ((l :: ls) :: rest) = uip_propagate L tr rest) ∧
    (∀ (l : Literal) (ls : List Literal), (l :: ls) ∈ c0 :: others →
      Model.is_defined (s.trail.backtrack L).model l.ord = true →
      (∀ e ∈ s'.trail.entries, e.var = l.var → e ∈ s.trail.entries) ∧
      Model.value s'.trail.model l.ord = Model.value (s.trail.backtrack L).model l.ord) ∧
    (∀ (pre post : List Clause) (l : Literal) (ls : List Literal),
      c0 :: others = pre ++ (l :: ls) :: post →
      (∀ c ∈ pre, ∀ l2, c.head? = some l2 → l2.ord ≠ l.ord) →
      Model.is_defined (s.trail.backtrack L).model l.ord = false →
      s'.trail.entries.filter (fun e => e.var = l.var) =
        [⟨l.var, Source.propagation (some (l :: ls)), L⟩] ∧
      Model.value s'.trail.model l.ord = some (!l.is_negation)) := by
  obtain ⟨hprop, _⟩ := backtrack_with_uip_eq is_before s s' c0 others L hsplit h
  obtain ⟨h1, h2, _⟩ := uip_propagate_effect L _ _ _ hprop
  refine ⟨fun tr l ls rest hd => uip_propagate_skip L tr l ls rest hd, ?_, ?_⟩
  · intro l ls _ hdef
    constructor
    · intro e he hv
      rw [h1, List.mem_append] at he
      rcases he with he | he
      · exact List.mem_of_mem_filter he
      · exact absurd hv (uip_effect_entries_fresh L l.ord _ _ hdef e he)
    · cases hv : Model.value (s.trail.backtrack L).model l.ord with
      | none => simp [Model.is_defined, hv] at hdef
      | some b =>
        rw [h2]
        exact uip_effect_preserves L l.ord b _ _ hv
  · intro pre post l ls hrefs hpre hund
    rw [hrefs] at hprop
    obtain ⟨tm, hm1, hm2⟩ := uip_propagate_append L pre _ _ _ hprop
    obtain ⟨_, hm4, _⟩ := uip_propagate_effect L pre _ tm hm1
    have hund' : Model.is_defined tm.model l.ord = false := by
      simp only [Model.is_defined] at hund ⊢
      rw [hm4, uip_effect_untouched L l.ord pre _ hpre]
      exact hund
    exact uip_propagate_first L tm s'.trail l ls post hund' hm2

/-- Witness for C19: on `two_level_trail`, backtracking to level 1 with two UIP clauses
that both start with the Boolean variable 1, the first with the positive and the second
with the negative literal: variable 1 gets one entry, with the first clause as reason,
and the value true. -/
theorem backtrack_with_uip_first_clause_wins_witness :
    is_semantic_split two_level_trail [pos_lit 1, pos_lit 3] = some false ∧
    (backtrack_with ord_before (Solver.with_trail two_level_trail)
      [[pos_lit 1, pos_lit 3], [neg_lit 1]] 1).isSome = true ∧
    ((backtrack_with ord_before (Solver.with_trail two_level_trail)
      [[pos_lit 1, pos_lit 3], [neg_lit 1]] 1).get (by decide)).trail.entries.filter
        (fun e => e.var = (pos_lit 1).var) =
      [⟨(pos_lit 1).var, Source.propagation (some [pos_lit 1, pos_lit 3]), 1⟩] ∧
    Model.value ((backtrack_with ord_before (Solver.with_trail two_level_trail)
      [[pos_lit 1, pos_lit 3], [neg_lit 1]] 1).get (by decide)).trail.model 1 = some true :=
  ⟨by decide, by decide,
    (backtrack_with_uip_first_clause_wins ord_before (Solver.with_trail two_level_trail) _
      [pos_lit 1, pos_lit 3] [[neg_lit 1]] 1 (by decide) (Option.some_get _).symm).2.2
      [] [[neg_lit 1]] (pos_lit 1) [pos_lit 3] rfl (by simp) (by decide)⟩

/-! ## `restart` -/

/-- C11: `restart` sends exactly two notifications, `on_before_backtrack` with level 0
and then `on_restart`; the first is shown the trail as it was before the call, with
every entry still there, the second the trail after `clear()`; the trail afterwards is
the old one backtracked to level 0, so its decision level is 0; and `total_restarts` has
grown by exactly 1. -/
theorem restart_events_in_order (s : Solver) :
    (restart s).events =
      s.events ++ [Event.on_before_backtrack s.trail 0, Event.on_restart (restart s).trail] ∧
    (restart s).trail = s.trail.backtrack 0 ∧
    (restart s).trail.entries = s.trail.entries.filter (fun e => e.level ≤ 0) ∧
    (restart s).trail.decision_level = 0 ∧
    (restart s).total_restarts = s.total_restarts + 1 := by
  refine ⟨?_, rfl, rfl, rfl, rfl⟩
  simp [restart]

theorem restart_frame (s : Solver) :
    (restart s).learned = s.learned ∧ (restart s).input = s.input ∧
    (restart s).total_conflicts = s.total_conflicts ∧
    (restart s).total_conflict_clauses = s.total_conflict_clauses ∧
    (restart s).total_learned_clauses = s.total_learned_clauses ∧
    (restart s).total_decisions = s.total_decisions ∧
    (restart s).total_backtracks = s.total_backtracks :=
  ⟨rfl, rfl, rfl, rfl, rfl, rfl, rfl⟩

/-! ## `init` -/

theorem init_resize_frame : ∀ (models : List (VarType × Nat)) (s : Solver),
    (init_resize s models).trail = s.trail ∧
    (init_resize s models).input = s.input ∧
    (init_resize s models).learned = s.learned ∧
    (init_resize s models).total_conflict_clauses = s.total_conflict_clauses ∧
    (init_resize s models).total_learned_clauses = s.total_learned_clauses ∧
    (init_resize s models).total_backtracks = s.total_backtracks ∧
    (init_resize s models).events =
      s.events ++ models.map (fun m => Event.on_variable_resize m.1 m.2)
  | [], s => by simp [init_resize]
  | (type, n) :: rest, s => by
    unfold init_resize
    obtain ⟨h1, h2, h3, h4, h5, h6, h7⟩ := init_resize_frame rest
      { (if type = VarType.boolean then { s with num_bool_vars := n } else s) with
        events := (if type = VarType.boolean then { s with num_bool_vars := n } else s).events
          ++ [Event.on_variable_resize type n] }
    simp only at h1 h2 h3 h4 h5 h6 h7 ⊢
    rw [h1, h2, h3, h4, h5, h6, h7]
    split_ifs <;> simp

/-- C16, as the code has it: for every prior state `init` sets `total_conflicts`,
`total_decisions` and `total_restarts` to 0, announces every kind with its variable
count and then sends `on_init`; but it leaves `total_conflict_clauses`,
`total_learned_clauses` and `total_backtracks` as they were. On `used_solver` these
three are 3, 2 and 1 after `init`, not 0. -/
theorem init_leaves_three_counters (models : List (VarType × Nat)) (s : Solver) :
    (init models s).total_conflicts = 0 ∧
    (init models s).total_decisions = 0 ∧
    (init models s).total_restarts = 0 ∧
    (init models s).total_conflict_clauses = s.total_conflict_clauses ∧
    (init models s).total_learned_clauses = s.total_learned_clauses ∧
    (init models s).total_backtracks = s.total_backtracks ∧
    (init models s).events =
      s.events ++ models.map (fun m => Event.on_variable_resize m.1 m.2) ++
        [Event.on_init s.trail] ∧
    ((init [(VarType.boolean, 3), (VarType.rational, 1)] used_solver).total_conflict_clauses,
     (init [(VarType.boolean, 3), (VarType.rational, 1)] used_solver).total_learned_clauses,
     (init [(VarType.boolean, 3), (VarType.rational, 1)] used_solver).total_backtracks)
      = (3, 2, 1) := by
  obtain ⟨h1, _, _, h4, h5, h6, h7⟩ := init_resize_frame models s
  refine ⟨rfl, rfl, rfl, h4, h5, h6, ?_, by decide⟩
  simp only [init, h7, h1]

/-! ## What `analyze_conflicts` and `learn` leave alone -/

theorem analyze_step_solver {σ : Type} (A : Analysis σ) (st : Analyze_state σ) (c : Clause) :
    (analyze_step A st c).solver =
      { st.solver with
        total_conflict_clauses := st.solver.total_conflict_clauses + 1
        events := st.solver.events ++
          (derive_clause A st.solver.trail st.ext c).resolved.map
            (Event.on_conflict_resolved st.solver.trail) } := by
  unfold analyze_step
  simp only
  split_ifs <;> rfl

theorem analyze_fold_frame {σ : Type} (A : Analysis σ) : ∀ (cs : List Clause)
    (st : Analyze_state σ),
    (cs.foldl (analyze_step A) st).solver.trail = st.solver.trail ∧
    (cs.foldl (analyze_step A) st).solver.input = st.solver.input ∧
    (cs.foldl (analyze_step A) st).solver.learned = st.solver.learned ∧
    (cs.foldl (analyze_step A) st).solver.total_conflicts = st.solver.total_conflicts ∧
    (cs.foldl (analyze_step A) st).solver.total_learned_clauses =
      st.solver.total_learned_clauses ∧
    (cs.foldl (analyze_step A) st).solver.total_decisions = st.solver.total_decisions ∧
    (cs.foldl (analyze_step A) st).solver.total_backtracks = st.solver.total_backtracks ∧
    (cs.foldl (analyze_step A) st).solver.total_restarts = st.solver.total_restarts ∧
    (cs.foldl (analyze_step A) st).solver.total_conflict_clauses =
      st.solver.total_conflict_clauses + cs.length ∧
    ∃ evs, (cs.foldl (analyze_step A) st).solver.events = st.solver.events ++ evs ∧
      ∀ e ∈ evs, ∃ c, e = Event.on_conflict_resolved st.solver.trail c
  | [], st => by
    refine ⟨rfl, rfl, rfl, rfl, rfl, rfl, rfl, rfl, rfl, [], ?_, ?_⟩ <;> simp
  | c :: cs, st => by
    obtain ⟨h1, h2, h3, h4, h5, h6, h7, h8, h9, evs, h10, h11⟩ :=
      analyze_fold_frame A cs (analyze_step A st c)
    rw [analyze_step_solver] at h1 h2 h3 h4 h5 h6 h7 h8 h9 h10 h11
    simp only at h1 h2 h3 h4 h5 h6 h7 h8 h9 h10 h11
    simp only [List.foldl_cons, List.length_cons]
    refine ⟨h1, h2, h3, h4, h5, h6, h7, h8, by omega,
      (derive_clause A st.solver.trail st.ext c).resolved.map
        (Event.on_conflict_resolved st.solver.trail) ++ evs, ?_, ?_⟩
    · rw [h10, List.append_assoc]
    · intro e he
      rcases List.mem_append.mp he with he | he
      · obtain ⟨r, _, hr⟩ := List.mem_map.mp he
        exact ⟨r, hr.symm⟩
      · exact h11 e he

theorem analyze_conflicts_frame {σ : Type} (A : Analysis σ) (s : Solver) (ext : σ)
    (cs : List Clause) :
    (analyze_conflicts A s ext cs).2.1.trail = s.trail ∧
    (analyze_conflicts A s ext cs).2.1.input = s.input ∧
    (analyze_conflicts A s ext cs).2.1.learned = s.learned ∧
    (analyze_conflicts A s ext cs).2.1.total_conflicts = s.total_conflicts + 1 ∧
    (analyze_conflicts A s ext cs).2.1.total_learned_clauses = s.total_learned_clauses ∧
    (analyze_conflicts A s ext cs).2.1.total_decisions = s.total_decisions ∧
    (analyze_conflicts A s ext cs).2.1.total_backtracks = s.total_backtracks ∧
    (analyze_conflicts A s ext cs).2.1.total_restarts = s.total_restarts ∧
    (analyze_conflicts A s ext cs).2.1.total_conflict_clauses =
      s.total_conflict_clauses + cs.length ∧
    ∃ evs, (analyze_conflicts A s ext cs).2.1.events = s.events ++ evs ∧
      ∀ e ∈ evs, ∃ c, e = Event.on_conflict_resolved s.trail c :=
  analyze_fold_frame A cs ⟨{ s with total_conflicts := s.total_conflicts + 1 }, ext, [], INT_MAX⟩

theorem learn_some (s s' : Solver) (cs range : List Clause)
    (h : learn s cs = some (s', range)) :
    s' = learn_loop s range ∧ s'.learned = s.learned ++ range ∧ s'.input = s.input ∧
    s'.trail = s.trail := by
  unfold learn at h
  split at h
  · exact absurd h (by simp)
  · rename_i kept _
    simp only [Option.some.injEq, Prod.mk.injEq] at h
    obtain ⟨h1, h2⟩ := h
    have hr : range = kept := by
      rw [← h2, learn_loop_learned]
      simp
    subst hr
    subst h1
    exact ⟨rfl, learn_loop_learned _ _, learn_loop_input _ _, learn_loop_trail _ _⟩

/-! ## `check` -/

theorem propagate_frame {σ : Type} (C : Collaborators σ) (s : Solver) (ext : σ) :
    (propagate C s ext).2.1.learned = s.learned ∧
    (propagate C s ext).2.1.input = s.input ∧
    (propagate C s ext).2.1.events = s.events ∧
    (propagate C s ext).2.1.total_conflicts = s.total_conflicts ∧
    (propagate C s ext).2.1.total_conflict_clauses = s.total_conflict_clauses ∧
    (propagate C s ext).2.1.total_learned_clauses = s.total_learned_clauses ∧
    (propagate C s ext).2.1.total_decisions = s.total_decisions ∧
    (propagate C s ext).2.1.total_backtracks = s.total_backtracks ∧
    (propagate C s ext).2.1.total_restarts = s.total_restarts :=
  ⟨rfl, rfl, rfl, rfl, rfl, rfl, rfl, rfl, rfl⟩

/-- C13: an iteration of `check` in which propagation reports a conflict while the
decision level of the trail is 0 returns UNSAT with the state that propagation left:
the database, the event log and all counters are as before the iteration, so nothing was
analyzed, learned, backtracked or decided. When this is the first iteration, `check`
returns UNSAT with `total_decisions` at 0. -/
theorem check_unsat_at_level_zero {σ : Type} (C : Collaborators σ) (s s1 : Solver)
    (ext e1 : σ) (conflicts : List Clause)
    (hp : propagate C s ext = (conflicts, s1, e1)) (hconf : conflicts ≠ [])
    (hlevel : s1.trail.decision_level = 0) :
    check_iteration C s ext = some (Outcome.returned Result.unsat s1 e1) ∧
    (∀ n, check_loop C (n + 1) s ext = some (Outcome.returned Result.unsat s1 e1)) ∧
    s1.learned = s.learned ∧ s1.input = s.input ∧ s1.events = s.events ∧
    s1.total_conflicts = s.total_conflicts ∧
    s1.total_conflict_clauses = s.total_conflict_clauses ∧
    s1.total_learned_clauses = s.total_learned_clauses ∧
    s1.total_decisions = s.total_decisions ∧
    s1.total_backtracks = s.total_backtracks ∧
    s1.total_restarts = s.total_restarts ∧
    (∀ (models : List (VarType × Nat)) (s0 : Solver), s = init models s0 →
      ∀ n, check C models (n + 1) s0 ext = some (Outcome.returned Result.unsat s1 e1) ∧
        s1.total_decisions = 0) := by
  have hiter : check_iteration C s ext = some (Outcome.returned Result.unsat s1 e1) := by
    simp only [check_iteration, hp, hconf, hlevel, ne_eq, not_false_eq_true, if_true]
  have hloop : ∀ n, check_loop C (n + 1) s ext
      = some (Outcome.returned Result.unsat s1 e1) := by
    intro n
    simp only [check_loop, hiter]
  obtain ⟨f1, f2, f3, f4, f5, f6, f7, f8, f9⟩ := propagate_frame C s ext
  rw [hp] at f1 f2 f3 f4 f5 f6 f7 f8 f9
  refine ⟨hiter, hloop, f1, f2, f3, f4, f5, f6, f7, f8, f9, ?_⟩
  intro models s0 hs n
  refine ⟨?_, ?_⟩
  · simp only [check, ← hs, hloop n]
  · rw [show s1.total_decisions = s.total_decisions from f7, hs]
    rfl

/-- Witness for C13: the input of the two unit clauses of one variable; the first
propagation of `unit_theory` conflicts at level 0 and `check` returns UNSAT without a
decision. -/
theorem check_unsat_at_level_zero_witness :
    (propagate unit_theory (init [(VarType.boolean, 1)] unit_unsat_solver) ()).1 ≠ [] ∧
    (propagate unit_theory (init [(VarType.boolean, 1)] unit_unsat_solver)
      ()).2.1.trail.decision_level = 0 ∧
    ∀ n, check unit_theory [(VarType.boolean, 1)] (n + 1) unit_unsat_solver () =
        some (Outcome.returned Result.unsat
          (propagate unit_theory (init [(VarType.boolean, 1)] unit_unsat_solver) ()).2.1 ()) ∧
      (propagate unit_theory (init [(VarType.boolean, 1)] unit_unsat_solver)
        ()).2.1.total_decisions = 0 :=
  ⟨by decide, by decide,
    (check_unsat_at_level_zero unit_theory (init [(VarType.boolean, 1)] unit_unsat_solver) _
      () () _ rfl (by decide) (by decide)).2.2.2.2.2.2.2.2.2.2.2
      [(VarType.boolean, 1)] unit_unsat_solver rfl⟩

/-- C14: an iteration of `check` in which propagation reports a conflict at a decision
level other than 0 and the analysis yields a learned list with an empty clause returns
UNSAT right after the analysis: the database and `total_learned_clauses` are as before,
so no learned clause was inserted; `total_backtracks` and `total_restarts` are as
before and the trail is the one propagation left, so there was no backtrack and no
restart; and the only notifications sent are `on_conflict_resolved`. -/
theorem check_unsat_on_empty_learned {σ : Type} (C : Collaborators σ) (s s1 s2 : Solver)
    (ext e1 e2 : σ) (conflicts learned : List Clause) (level : Int)
    (hp : propagate C s ext = (conflicts, s1, e1)) (hconf : conflicts ≠ [])
    (hlevel : s1.trail.decision_level ≠ 0)
    (ha : analyze_conflicts C.analysis s1 e1 conflicts = ((learned, level), s2, e2))
    (hempty : [] ∈ learned) :
    check_iteration C s ext = some (Outcome.returned Result.unsat s2 e2) ∧
    (∀ n, check_loop C (n + 1) s ext = some (Outcome.returned Result.unsat s2 e2)) ∧
    s2.learned = s.learned ∧ s2.input = s.input ∧
    s2.total_learned_clauses = s.total_learned_clauses ∧
    s2.total_backtracks = s.total_backtracks ∧
    s2.total_restarts = s.total_restarts ∧
    s2.total_decisions = s.total_decisions ∧
    s2.trail = s1.trail ∧
    ∃ evs, s2.events = s.events ++ evs ∧
      ∀ e ∈ evs, ∃ c, e = Event.on_conflict_resolved s1.trail c := by
  have hany : learned.any (fun clause => clause.isEmpty) = true := by
    rw [List.any_eq_true]
    exact ⟨[], hempty, rfl⟩
  have hiter : check_iteration C s ext = some (Outcome.returned Result.unsat s2 e2) := by
    simp only [check_iteration, hp, hconf, hlevel, ha, hany, ne_eq, not_false_eq_true,
      if_true, if_false]
  obtain ⟨f1, f2, f3, _, _, f6, f7, f8, f9⟩ := propagate_frame C s ext
  rw [hp] at f1 f2 f3 f6 f7 f8 f9
  obtain ⟨a1, a2, a3, _, a5, a6, a7, a8, _, evs, a10, a11⟩ :=
    analyze_conflicts_frame C.analysis s1 e1 conflicts
  rw [ha] at a1 a2 a3 a5 a6 a7 a8 a10
  simp only at a1 a2 a3 a5 a6 a7 a8 a10 f1 f2 f3 f6 f7 f8 f9
  refine ⟨hiter, ?_, a3.trans f1, a2.trans f2, a5.trans f6, a7.trans f8, a8.trans f9,
    a6.trans f7, a1, evs, ?_, a11⟩
  · intro n
    simp only [check_loop, hiter]
  · rw [a10, f3]

/-- Witness for C14: on `split_trail` (decision level 1) a conflict is reported and the
analysis derives the empty clause; the iteration returns UNSAT and the database stays
empty. -/
theorem check_unsat_on_empty_learned_witness :
    split_trail.decision_level ≠ 0 ∧
    [] ∈ (analyze_conflicts refuting_analysis (Solver.with_trail split_trail) ()
      [[pos_lit 0, pos_lit 1]]).1.1 ∧
    ∃ s2 : Solver,
      check_iteration (scripted [[pos_lit 0, pos_lit 1]] refuting_analysis false (bool_var 5))
        (Solver.with_trail split_trail) () = some (Outcome.returned Result.unsat s2 ()) ∧
      s2.learned = [] ∧ s2.total_backtracks = 0 ∧ s2.trail = split_trail := by
  obtain ⟨h1, _, h3, _, _, h6, _, _, h9, _⟩ :=
    check_unsat_on_empty_learned (scripted [[pos_lit 0, pos_lit 1]] refuting_analysis false
      (bool_var 5)) (Solver.with_trail split_trail) (Solver.with_trail split_trail)
      (analyze_conflicts refuting_analysis (Solver.with_trail split_trail) ()
        [[pos_lit 0, pos_lit 1]]).2.1
      () () () [[pos_lit 0, pos_lit 1]] [[]] 0 rfl (by decide) (by decide) rfl (by decide)
  exact ⟨by decide, by decide, _, h1, h3, h6, h9⟩

theorem check_iteration_conflict_not_sat {σ : Type} (C : Collaborators σ) (s : Solver)
    (ext : σ) (hconf : (propagate C s ext).1 ≠ []) (s' : Solver) (e' : σ) :
    check_iteration C s ext ≠ some (Outcome.returned Result.sat s' e') := by
  intro h
  simp only [check_iteration, hconf, ne_eq, not_false_eq_true, if_true] at h
  split_ifs at h
  · simp at h
  · simp at h
  · split at h
    · simp at h
    · split_ifs at h
      · simp at h
      · split at h <;> simp at h

/-- C15: an iteration of `check` returns SAT exactly when propagation reported no conflict
and the variable order picked no variable. When there is no conflict and a variable is
picked, the iteration does not return: `total_decisions` grows by exactly 1, the trail
is the one the theory leaves after deciding that variable, and the loop goes on with
that state, which starts with the next propagation. -/
theorem check_sat_iff_nothing_to_pick {σ : Type} (C : Collaborators σ) (s s1 : Solver)
    (ext e1 e2 : σ) (conflicts : List Clause) (v : Option Variable)
    (hp : propagate C s ext = (conflicts, s1, e1))
    (hv : pick_variable C s1 e1 = (v, e2)) :
    ((∃ s' e', check_iteration C s ext = some (Outcome.returned Result.sat s' e')) ↔
      conflicts = [] ∧ v = none) ∧
    (conflicts = [] → v = none →
      check_iteration C s ext = some (Outcome.returned Result.sat s1 e2)) ∧
    (∀ var, conflicts = [] → v = some var →
      check_iteration C s ext =
        some (Outcome.next (Solver.decide C s1 e2 var).1 (Solver.decide C s1 e2 var).2) ∧
      (Solver.decide C s1 e2 var).1.total_decisions = s.total_decisions + 1 ∧
      (Solver.decide C s1 e2 var).1.trail =
        (C.decide e2 { s1 with total_decisions := s1.total_decisions + 1 } var).1 ∧
      (Solver.decide C s1 e2 var).1.learned = s.learned ∧
      ∀ n, check_loop C (n + 1) s ext =
        check_loop C n (Solver.decide C s1 e2 var).1 (Solver.decide C s1 e2 var).2) := by
  have hsat : conflicts = [] → v = none →
      check_iteration C s ext = some (Outcome.returned Result.sat s1 e2) := by
    intro hc hn
    simp only [check_iteration, hp, hv, hc, hn, ne_eq, not_true_eq_false, if_false]
  have hdec : ∀ var, conflicts = [] → v = some var →
      check_iteration C s ext =
        some (Outcome.next (Solver.decide C s1 e2 var).1 (Solver.decide C s1 e2 var).2) := by
    intro var hc hs
    simp only [check_iteration, hp, hv, hc, hs, ne_eq, not_true_eq_false, if_false]
  have hdecs : s1.total_decisions = s.total_decisions := by
    have := (propagate_frame C s ext).2.2.2.2.2.2.1
    rw [hp] at this
    exact this
  have hlearned : s1.learned = s.learned := by
    have := (propagate_frame C s ext).1
    rw [hp] at this
    exact this
  refine ⟨⟨?_, fun h => ⟨s1, e2, hsat h.1 h.2⟩⟩, hsat, ?_⟩
  · rintro ⟨s', e', h⟩
    by_cases hc : conflicts = []
    · refine ⟨hc, ?_⟩
      cases hvar : v with
      | none => rfl
      | some var =>
        rw [hdec var hc hvar] at h
        simp at h
    · exfalso
      exact check_iteration_conflict_not_sat C s ext (by rw [hp]; exact hc) s' e' h
  · intro var hc hs
    refine ⟨hdec var hc hs, ?_, rfl, hlearned, ?_⟩
    · simp only [Solver.decide, hdecs]
    · intro n
      simp only [check_loop, hdec var hc hs]

/-- Witness for C15: on an empty trail without conflict the variable order offers the
Boolean variable 5; the iteration decides it, `total_decisions` becomes 1, and the next
iteration, where nothing is left to pick, returns SAT. -/
theorem check_sat_iff_nothing_to_pick_witness :
    (propagate (scripted [] size_analysis false (bool_var 5))
      (Solver.with_trail Trail.empty) ()).1 = [] ∧
    (pick_variable (scripted [] size_analysis false (bool_var 5))
      (Solver.with_trail Trail.empty) ()).1 = some (bool_var 5) ∧
    (Solver.decide (scripted [] size_analysis false (bool_var 5))
      (Solver.with_trail Trail.empty) () (bool_var 5)).1.total_decisions = 0 + 1 ∧
    (∃ s' : Solver, check_loop (scripted [] size_analysis false (bool_var 5)) 2
      (Solver.with_trail Trail.empty) () = some (Outcome.returned Result.sat s' ()) ∧
      s'.total_decisions = 1) := by
  have h := (check_sat_iff_nothing_to_pick (scripted [] size_analysis false (bool_var 5))
    (Solver.with_trail Trail.empty) (Solver.with_trail Trail.empty) () () () []
    (some (bool_var 5)) rfl rfl).2.2 (bool_var 5) rfl rfl
  refine ⟨rfl, rfl, h.2.1, (Solver.decide (scripted [] size_analysis false (bool_var 5))
    (Solver.with_trail Trail.empty) () (bool_var 5)).1, ?_, rfl⟩
  rw [h.2.2.2.2 1]
  rfl

/-! ## `restart` and the database -/

/-- C12: `restart` leaves both partitions of the clause database as they are, entry by
entry. In an iteration of `check` that learns clauses and then restarts, the learned
partition afterwards is the one before the iteration followed by the clauses that `learn`
returned: the clauses learned just before the restart are still there. -/
theorem restart_keeps_database {σ : Type} (C : Collaborators σ) (s s1 s2 s3 : Solver)
    (ext e1 e2 e3 : σ) (conflicts learned clauses : List Clause) (level : Int)
    (hp : propagate C s ext = (conflicts, s1, e1)) (hconf : conflicts ≠ [])
    (hlevel : s1.trail.decision_level ≠ 0)
    (ha : analyze_conflicts C.analysis s1 e1 conflicts = ((learned, level), s2, e2))
    (hempty : [] ∉ learned)
    (hl : learn s2 learned = some (s3, clauses))
    (hr : C.should_restart e2 s3 = (true, e3)) :
    (∀ t : Solver, (restart t).learned = t.learned ∧ (restart t).input = t.input) ∧
    check_iteration C s ext = some (Outcome.next (restart s3) e3) ∧
    (restart s3).learned = s.learned ++ clauses ∧
    (restart s3).input = s.input ∧
    (∀ c ∈ clauses, c ∈ (restart s3).learned) ∧
    (restart s3).trail.decision_level = 0 := by
  have hany : learned.any (fun clause => clause.isEmpty) = false := by
    rw [List.any_eq_false]
    intro c hc hce
    apply hempty
    have : c = [] := by simpa using hce
    rw [← this]
    exact hc
  have hiter : check_iteration C s ext = some (Outcome.next (restart s3) e3) := by
    simp only [check_iteration, hp, hconf, hlevel, ha, hany, hl, hr, ne_eq,
      not_false_eq_true, if_true, if_false, Bool.false_eq_true]
  obtain ⟨f1, f2, _⟩ := propagate_frame C s ext
  rw [hp] at f1 f2
  obtain ⟨_, a2, a3, _⟩ := analyze_conflicts_frame C.analysis s1 e1 conflicts
  rw [ha] at a2 a3
  simp only at a2 a3 f1 f2
  obtain ⟨_, l2, l3, _⟩ := learn_some s2 s3 learned clauses hl
  have hlearned : (restart s3).learned = s.learned ++ clauses := by
    rw [(restart_frame s3).1, l2, a3, f1]
  refine ⟨fun t => ⟨rfl, rfl⟩, hiter, hlearned, ?_, ?_, rfl⟩
  · rw [(restart_frame s3).2.1, l3, a2, f2]
  · intro c hc
    rw [hlearned]
    exact List.mem_append_right _ hc

/-- Witness for C12: on `split_trail` a unit conflict is analyzed and learned, the policy
asks for a restart, and the learned clause is in the database after the restart. -/
theorem restart_keeps_database_witness :
    split_trail.decision_level ≠ 0 ∧
    (learn (analyze_conflicts size_analysis (Solver.with_trail split_trail) ()
      [[pos_lit 0]]).2.1 [[pos_lit 0]]).isSome = true ∧
    ∃ s' : Solver,
      check_iteration (scripted [[pos_lit 0]] size_analysis true (bool_var 5))
        (Solver.with_trail split_trail) () = some (Outcome.next s' ()) ∧
      s'.learned = [[pos_lit 0]] ∧ s'.trail.decision_level = 0 := by
  obtain ⟨_, h2, h3, _, _, h6⟩ :=
    restart_keeps_database (scripted [[pos_lit 0]] size_analysis true (bool_var 5))
      (Solver.with_trail split_trail) (Solver.with_trail split_trail)
      (analyze_conflicts size_analysis (Solver.with_trail split_trail) () [[pos_lit 0]]).2.1
      ((learn (analyze_conflicts size_analysis (Solver.with_trail split_trail) ()
        [[pos_lit 0]]).2.1 [[pos_lit 0]]).get (by decide)).1
      () () () () [[pos_lit 0]] [[pos_lit 0]] [[pos_lit 0]] 1 rfl (by decide) (by decide)
      rfl (by decide) (by decide) rfl
  exact ⟨by decide, by decide, _, h2, h3, h6⟩

/-! ## `Metrics` -/

/-- C18, as the code has it: with the log file open, `log_lra_replace_watch_success`
writes its record and then the constraint once more, after the newline that ends the
record. For a constraint printed as `x0 <= 1` and the watches 1, 2, 0 the text written is
the line `lra,replace_watch_ok,x0 <= 1,1,2,0` followed by `x0 <= 1` without a newline.
The neighbouring `log_lra_replace_watch_fail` and `log_core_before_propagation` write
one line and nothing more. -/
theorem log_lra_replace_watch_success_writes_after_newline :
    (Metrics.log_lra_replace_watch_success ⟨true, ""⟩ "x0 <= 1" 1 2 0).log_file =
      "lra,replace_watch_ok,x0 <= 1,1,2,0\nx0 <= 1" ∧
    (∀ (log cons : String) (old_watch new_watch watch_index : Int),
      (Metrics.log_lra_replace_watch_success ⟨true, log⟩ cons old_watch new_watch
        watch_index).log_file =
        log ++ "lra,replace_watch_ok," ++ cons ++ "," ++ toString old_watch ++ "," ++
          toString new_watch ++ "," ++ toString watch_index ++ "\n" ++ cons) ∧
    (Metrics.log_lra_replace_watch_fail ⟨true, ""⟩ "x0 <= 1").log_file =
      "lra,replace_watch_fail,x0 <= 1\n" ∧
    (Metrics.log_core_before_propagation ⟨true, ""⟩ 3 17 5 2).log_file =
      "core,before_propagation,3,17,5,2\n" := by
  refine ⟨by decide, ?_, by decide, by decide⟩
  intro log cons a b c
  rfl

/-! ## `learn` does not depend on the order of its input -/

theorem sort_clauses_perm_eq (p cs : List Clause) (h : List.Perm p cs) :
    sort_clauses p = sort_clauses cs :=
  sort_clauses_unique_result cs (sort_clauses p) ((sort_clauses_perm p).trans h)
    (sort_clauses_sorted p)

/-- C23: on a fixed solver state, `learn` gives the same result for a list of clauses and
for every permutation of it: the same clauses are inserted into the database in the same
order, the same range is returned, and the same events are sent; and `learn` throws for
one exactly when it throws for the other. -/
theorem learn_perm_invariant (s : Solver) (p cs : List Clause) (h : List.Perm p cs) :
    learn s p = learn s cs ∧ sort_unique p = sort_unique cs ∧
    kept_clauses s.trail p = kept_clauses s.trail cs := by
  have hsort : sort_unique p = sort_unique cs := by
    unfold sort_unique
    rw [sort_clauses_perm_eq p cs h]
  refine ⟨?_, hsort, ?_⟩
  · unfold learn
    rw [hsort]
  · unfold kept_clauses
    rw [hsort]

/-- Witness for C23: `reordered_clauses` is a permutation of `repeated_clauses`; learned
on `split_trail` both insert the two unit clauses, the positive one first. -/
theorem learn_perm_invariant_witness :
    List.Perm reordered_clauses repeated_clauses ∧
    learn (Solver.with_trail split_trail) reordered_clauses =
      learn (Solver.with_trail split_trail) repeated_clauses ∧
    (learn (Solver.with_trail split_trail) reordered_clauses).map (fun r => r.1.learned) =
      some [[pos_lit 0], [neg_lit 0]] := by
  have hperm : List.Perm reordered_clauses repeated_clauses := by decide
  exact ⟨hperm,
    (learn_perm_invariant (Solver.with_trail split_trail) _ _ hperm).1, by decide⟩

/-! ## The calls of `Trail::propagate` in the UIP branch -/

theorem uip_calls_entries (L : Int) : ∀ (cs : List Clause) (tr tr' : Trail),
    uip_propagate L tr cs = some tr' →
    tr'.entries = tr.entries ++ (uip_calls L tr cs).map Propagate_call.entry
  | [], tr, tr', h => by
    simp only [uip_propagate, Option.some.injEq] at h
    subst h
    simp [uip_calls]
  | [] :: _, tr, tr', h => by simp [uip_propagate] at h
  | (l :: ls) :: rest, tr, tr', h => by
    by_cases hdef : Model.is_defined tr.model l.var.ord = true
    · rw [uip_propagate_skip L tr l ls rest hdef] at h
      rw [uip_calls, if_pos hdef]
      exact uip_calls_entries L rest tr tr' h
    · rw [uip_propagate_undef L tr l ls rest hdef] at h
      rw [uip_calls, if_neg hdef]
      cases hprop : tr.propagate l.var (some (l :: ls)) L with
      | none => simp [hprop] at h
      | some tr1 =>
        rw [hprop] at h
        simp only [Option.some_bind] at h
        obtain ⟨_, _, hp3, _, _⟩ := propagate_entries _ _ _ _ _ hprop
        have ih := uip_calls_entries L rest _ tr' h
        simp only at ih
        rw [ih]
        simp only [hp3, List.map_cons, Propagate_call.entry, List.append_assoc,
          List.singleton_append]

theorem uip_calls_preconditions (L : Int) : ∀ (cs : List Clause) (tr : Trail),
    tr.level = L →
    (∀ e ∈ tr.entries, e.var.type = VarType.boolean →
      Model.is_defined tr.model e.var.ord = true) →
    ∀ call ∈ uip_calls L tr cs,
      Model.is_defined call.trail.model call.var.ord = false ∧
      (call.trail.entry_of call.var).isSome = false ∧
      call.level = L ∧ call.trail.decision_level = L ∧
      (call.trail.propagate call.var call.reason call.level).isSome = true
  | [], _, _, _, call, hc => by simp [uip_calls] at hc
  | [] :: _, _, _, _, call, hc => by simp [uip_calls] at hc
  | (l :: ls) :: rest, tr, hlev, hcons, call, hc => by
    by_cases hdef : Model.is_defined tr.model l.var.ord = true
    · rw [uip_calls, if_pos hdef] at hc
      exact uip_calls_preconditions L rest tr hlev hcons call hc
    · rw [uip_calls, if_neg hdef] at hc
      have hfree : ¬ (tr.entry_of l.var).isSome = true := by
        intro hsome
        obtain ⟨e, he, hev⟩ := (Trail.entry_of_isSome tr l.var).mp hsome
        apply hdef
        have := hcons e he (by rw [hev]; rfl)
        rw [hev] at this
        exact this
      have hle : L ≤ tr.level := by omega
      have hprop : tr.propagate l.var (some (l :: ls)) L =
          some { tr with entries := tr.entries ++
            [⟨l.var, Source.propagation (some (l :: ls)), L⟩] } := by
        simp only [Trail.propagate, hfree, hle, if_true, if_false, Bool.false_eq_true]
      rw [hprop] at hc
      simp only at hc
      rcases List.mem_cons.mp hc with hc | hc
      · subst hc
        refine ⟨by simpa using hdef, by simpa using hfree, rfl, hlev, ?_⟩
        simp only [hprop, Option.isSome_some]
      · refine uip_calls_preconditions L rest
          { entries := tr.entries ++ [⟨l.var, Source.propagation (some (l :: ls)), L⟩]
            level := tr.level
            model := Model.set_value tr.model l.var.ord (!l.is_negation) } hlev ?_ call hc
        intro e he hb
        simp only [List.mem_append, List.mem_singleton] at he
        simp only [Model.is_defined, Model.value_set_value]
        split_ifs
        · rfl
        · rcases he with he | he
          · exact hcons e he hb
          · subst he
            rename_i hneq
            exact absurd rfl hneq

theorem uip_calls_undefined (L : Int) : ∀ (cs : List Clause) (tr : Trail),
    tr.level = L →
    ∀ call ∈ uip_calls L tr cs,
      Model.is_defined call.trail.model call.var.ord = false ∧
      call.level = L ∧ call.trail.decision_level = L
  | [], _, _, call, hc => by simp [uip_calls] at hc
  | [] :: _, _, _, call, hc => by simp [uip_calls] at hc
  | (l :: ls) :: rest, tr, hlev, call, hc => by
    by_cases hdef : Model.is_defined tr.model l.var.ord = true
    · rw [uip_calls, if_pos hdef] at hc
      exact uip_calls_undefined L rest tr hlev call hc
    · rw [uip_calls, if_neg hdef] at hc
      rcases List.mem_cons.mp hc with hc | hc
      · subst hc
        exact ⟨by simpa using hdef, rfl, hlev⟩
      · cases hprop : tr.propagate l.var (some (l :: ls)) L with
        | none => simp [hprop] at hc
        | some tr1 =>
          rw [hprop] at hc
          simp only at hc
          obtain ⟨_, _, _, hp4, _⟩ := propagate_entries _ _ _ _ _ hprop
          exact uip_calls_undefined L rest
            { tr1 with model := Model.set_value tr1.model l.var.ord (!l.is_negation) }
            (hp4.trans hlev) call hc

/-- C22: every call of `Trail::propagate` that the UIP branch of `backtrack_with(refs, L)`
makes meets the preconditions of `propagate`. At the moment of the call the variable is
undefined in the Boolean model, also when an earlier clause of `refs` starts with the
same variable, and the level `L` of the propagation equals the decision level of the
trail, which the backtrack has set to `L`. On a well-formed trail the variable has no
entry on the trail either, so the call goes through. This holds for every `L`, in
particular for `0 ≤ L ≤` the decision level before the call of `backtrack_with`. When
the loop runs to its end the entries it leaves are those of the backtracked trail
followed by one entry per call; on a well-formed trail it does run to its end when no
clause is empty, and then `backtrack_with` returns for a range of clauses none of which is
a semantic split. -/
theorem backtrack_uip_propagate_preconditions (s : Solver) (refs : List Clause) (L : Int) :
    (∀ call ∈ uip_calls L (s.trail.backtrack L) refs,
      Model.is_defined call.trail.model call.var.ord = false ∧
      call.level = L ∧ call.trail.decision_level = L ∧
      call.level ≤ call.trail.decision_level) ∧
    (s.trail.well_formed → ∀ call ∈ uip_calls L (s.trail.backtrack L) refs,
      (call.trail.entry_of call.var).isSome = false ∧
      (call.trail.propagate call.var call.reason call.level).isSome = true) ∧
    (∀ tr', uip_propagate L (s.trail.backtrack L) refs = some tr' →
      tr'.entries = (s.trail.backtrack L).entries ++
        (uip_calls L (s.trail.backtrack L) refs).map Propagate_call.entry) ∧
    (s.trail.well_formed → (∀ c ∈ refs, c ≠ []) →
      (uip_propagate L (s.trail.backtrack L) refs).isSome = true) ∧
    (∀ (is_before : Variable → Variable → Bool) (c0 : Clause) (others : List Clause),
      s.trail.well_formed → refs = c0 :: others →
      (∀ c ∈ refs, is_semantic_split s.trail c = some false) →
      (∀ c ∈ refs, c ≠ []) → (backtrack_with is_before s refs L).isSome = true) := by
  refine ⟨?_, ?_, fun tr' h => uip_calls_entries L refs _ tr' h, ?_, ?_⟩
  · intro call hc
    obtain ⟨h1, h3, h4⟩ := uip_calls_undefined L refs (s.trail.backtrack L) rfl call hc
    exact ⟨h1, h3, h4, by rw [h3, h4]⟩
  · intro hwf call hc
    obtain ⟨_, h2, _, _, h5⟩ := uip_calls_preconditions L refs (s.trail.backtrack L) rfl
      (backtrack_consistent s.trail L hwf) call hc
    exact ⟨h2, h5⟩
  · intro hwf hne
    exact uip_propagate_returns L refs (s.trail.backtrack L) hne (le_refl L)
      (backtrack_consistent s.trail L hwf)
  · intro is_before c0 others hwf hrefs hall hne
    subst hrefs
    exact backtrack_with_uip_returns is_before s c0 others L hwf hall hne

/-- Witness for C22: `two_level_trail` is well formed; backtracking to level 1 with two
UIP clauses that start with the same variable makes one call of `propagate`, which meets
its preconditions. -/
theorem backtrack_uip_propagate_preconditions_witness :
    two_level_trail.well_formed ∧
    (uip_calls 1 (two_level_trail.backtrack 1) [[pos_lit 1, pos_lit 3], [neg_lit 1]]).length
      = 1 ∧
    (∀ call ∈ uip_calls 1 (two_level_trail.backtrack 1) [[pos_lit 1, pos_lit 3], [neg_lit 1]],
      Model.is_defined call.trail.model call.var.ord = false ∧
      call.level = 1 ∧ call.trail.decision_level = 1 ∧
      call.level ≤ call.trail.decision_level) ∧
    (∀ call ∈ uip_calls 1 (two_level_trail.backtrack 1) [[pos_lit 1, pos_lit 3], [neg_lit 1]],
      (call.trail.entry_of call.var).isSome = false ∧
      (call.trail.propagate call.var call.reason call.level).isSome = true) := by
  have hwf : two_level_trail.well_formed := by
    unfold Trail.well_formed
    exact ⟨by decide, by decide⟩
  have h := backtrack_uip_propagate_preconditions (Solver.with_trail two_level_trail)
    [[pos_lit 1, pos_lit 3], [neg_lit 1]] 1
  exact ⟨hwf, by decide, h.1, h.2.1 hwf⟩

/-! ## The range that `check` passes to `backtrack_with` -/

theorem analyze_conflicts_learned_ne_nil {σ : Type} (A : Analysis σ) (s : Solver) (ext : σ)
    (conflicts : List Clause)
    (hint : ∀ (e : σ) (t : Trail) (c : Clause), (A.analyze e t c).level ≤ INT_MAX)
    (hne : conflicts ≠ []) : (analyze_conflicts A s ext conflicts).1.1 ≠ [] := by
  obtain ⟨_, h2, h3, h4⟩ := analyze_fold A conflicts
    ⟨{ s with total_conflicts := s.total_conflicts + 1 }, ext, [], INT_MAX⟩
  simp only [analyze_conflicts]
  simp only at h2 h3 h4
  have hex : ∃ d ∈ derived A s.trail ext conflicts,
      d.2 = (conflicts.foldl (analyze_step A)
        ⟨{ s with total_conflicts := s.total_conflicts + 1 }, ext, [], INT_MAX⟩).level := by
    rcases h3 with h3 | h3
    · cases conflicts with
      | nil => exact absurd rfl hne
      | cons c cs =>
        have hmem : ((derive_clause A s.trail ext c).clause,
            (derive_clause A s.trail ext c).level) ∈ derived A s.trail ext (c :: cs) := by
          simp [derived]
        refine ⟨_, hmem, ?_⟩
        have hle := h2 _ hmem
        have hmax := derived_level_le A s.trail hint (c :: cs) ext _ hmem
        simp only at hle hmax ⊢
        omega
    · exact h3
  obtain ⟨d, hd, hdl⟩ := hex
  rw [h4]
  have hmem : d.1 ∈ ((derived A s.trail ext conflicts).filter (fun d => d.2 =
      (conflicts.foldl (analyze_step A)
        ⟨{ s with total_conflicts := s.total_conflicts + 1 }, ext, [], INT_MAX⟩).level)).map
      Prod.fst :=
    List.mem_map.mpr ⟨d, List.mem_filter.mpr ⟨hd, by simpa using hdl⟩, rfl⟩
  intro hnil
  split_ifs at hnil <;> simp only [List.nil_append] at hnil <;> rw [hnil] at hmem <;>
    exact absurd hmem (List.not_mem_nil _)

theorem any_not_split_defined (tr : Trail) : ∀ (l : List Clause),
    any_not_split tr l = some false → ∀ c ∈ l, is_semantic_split tr c = some true
  | [], _, c, hc => by simp at hc
  | d :: ds, h, c, hc => by
    unfold any_not_split at h
    cases hs : is_semantic_split tr d with
    | none => simp [hs] at h
    | some b =>
      cases b with
      | false => simp [hs] at h
      | true =>
        simp only [hs] at h
        rcases List.mem_cons.mp hc with hc | hc
        · rw [hc]; exact hs
        · exact any_not_split_defined tr ds h c hc

theorem remove_split_defined (tr : Trail) : ∀ (l r : List Clause),
    remove_split tr l = some r → ∀ c ∈ l, (is_semantic_split tr c).isSome = true
  | [], _, _, c, hc => by simp at hc
  | d :: ds, r, h, c, hc => by
    unfold remove_split at h
    cases hs : is_semantic_split tr d with
    | none => simp [hs] at h
    | some b =>
      simp only [hs] at h
      cases hr : remove_split tr ds with
      | none => simp [hr] at h
      | some r2 =>
        rcases List.mem_cons.mp hc with hc | hc
        · rw [hc, hs]; rfl
        · exact remove_split_defined tr ds r2 hr c hc

theorem learn_defined (s s' : Solver) (cs range : List Clause)
    (h : learn s cs = some (s', range)) :
    ∀ c ∈ cs, (is_semantic_split s.trail c).isSome = true := by
  intro c hc
  have hc' : c ∈ sort_unique cs := mem_sort_unique.mpr hc
  unfold learn prefer_uip at h
  cases hany : any_not_split s.trail (sort_unique cs) with
  | none => simp [hany] at h
  | some b =>
    cases b with
    | false =>
      rw [any_not_split_defined s.trail _ hany c hc']
      rfl
    | true =>
      simp only [hany] at h
      cases hrem : remove_split s.trail (sort_unique cs) with
      | none => simp [hrem] at h
      | some r => exact remove_split_defined s.trail _ r hrem c hc'

theorem learn_range_ne_nil (s s' : Solver) (cs range : List Clause)
    (h : learn s cs = some (s', range)) :
    (∀ c ∈ range, c ∈ cs) ∧ (cs ≠ [] → range ≠ []) := by
  have hdef := learn_defined s s' cs range h
  have heq := learn_eq s cs hdef
  rw [h] at heq
  simp only [Option.some.injEq, Prod.mk.injEq] at heq
  have hr : range = kept_clauses s.trail cs := heq.2
  have hmem := mem_kept_clauses s.trail cs hdef
  refine ⟨fun c hc => ((hmem c).mp (hr ▸ hc)).1, ?_⟩
  intro hne hnil
  cases cs with
  | nil => exact hne rfl
  | cons c0 rest =>
    have hin : ∃ c, c ∈ kept_clauses s.trail (c0 :: rest) := by
      by_cases hu : ∃ c ∈ c0 :: rest, is_semantic_split s.trail c = some false
      · obtain ⟨c, hc, hcu⟩ := hu
        exact ⟨c, (hmem c).mpr ⟨hc, Or.inl hcu⟩⟩
      · refine ⟨c0, (hmem c0).mpr ⟨List.mem_cons_self _ _, Or.inr ?_⟩⟩
        intro d hd
        have hsome := hdef d hd
        cases hs : is_semantic_split s.trail d with
        | none => simp [hs] at hsome
        | some b =>
          cases b with
          | false => exact absurd ⟨d, hd, hs⟩ hu
          | true => rfl
    obtain ⟨c, hc⟩ := hin
    rw [← hr, hnil] at hc
    exact absurd hc (List.not_mem_nil _)

theorem check_iteration_reaches_backtrack {σ : Type} (C : Collaborators σ)
    (s s1 s2 s3 : Solver) (ext e1 e2 e3 : σ) (conflicts learned clauses : List Clause)
    (level : Int)
    (hp : propagate C s ext = (conflicts, s1, e1)) (hconf : conflicts ≠ [])
    (hlevel : s1.trail.decision_level ≠ 0)
    (ha : analyze_conflicts C.analysis s1 e1 conflicts = ((learned, level), s2, e2))
    (hempty : [] ∉ learned)
    (hl : learn s2 learned = some (s3, clauses))
    (hr : C.should_restart e2 s3 = (false, e3)) :
    check_iteration C s ext =
      (backtrack_with (C.is_before e3) s3 clauses level).map
        (fun s4 => Outcome.next s4 e3) := by
  have hany : learned.any (fun clause => clause.isEmpty) = false := by
    rw [List.any_eq_false]
    intro c hc hce
    apply hempty
    have : c = [] := by simpa using hce
    rw [← this]
    exact hc
  simp only [check_iteration, hp, hconf, hlevel, ha, hany, hl, hr, ne_eq,
    not_false_eq_true, if_true, if_false, Bool.false_eq_true]
  cases backtrack_with (C.is_before e3) s3 clauses level <;> rfl

theorem check_iteration_empty_learned {σ : Type} (C : Collaborators σ)
    (s s1 s2 : Solver) (ext e1 e2 : σ) (conflicts learned : List Clause) (level : Int)
    (hp : propagate C s ext = (conflicts, s1, e1)) (hconf : conflicts ≠ [])
    (hlevel : s1.trail.decision_level ≠ 0)
    (ha : analyze_conflicts C.analysis s1 e1 conflicts = ((learned, level), s2, e2))
    (hempty : [] ∈ learned) :
    check_iteration C s ext = some (Outcome.returned Result.unsat s2 e2) := by
  have hany : learned.any (fun clause => clause.isEmpty) = true := by
    rw [List.any_eq_true]
    exact ⟨[], hempty, rfl⟩
  simp only [check_iteration, hp, hconf, hlevel, ha, hany, ne_eq, not_false_eq_true,
    if_true, if_false]

/-- C21: in an iteration of `check` with a conflict at a decision level other than 0, with
an analyzer whose levels are values of `int`: the learned list that `analyze_conflicts`
returns is not empty; if it holds an empty clause, `check` returns UNSAT before `learn`;
otherwise, when `learn` returns and the policy does not restart, the iteration is the
call of `backtrack_with` on the range of `learn`, and that range is not empty and holds
only non-empty clauses, so that `clauses[0]` and `clause[0]` exist. This rests on two
facts proved for all inputs: `analyze_conflicts` returns a non-empty list for a non-empty
list of conflicts, and the range of `learn` holds only clauses of its input and is not
empty when the input is not. -/
theorem check_backtrack_range_in_bounds {σ : Type} (C : Collaborators σ)
    (s s1 s2 : Solver) (ext e1 e2 : σ) (conflicts learned : List Clause) (level : Int)
    (hint : ∀ (e : σ) (t : Trail) (c : Clause), (C.analysis.analyze e t c).level ≤ INT_MAX)
    (hp : propagate C s ext = (conflicts, s1, e1)) (hconf : conflicts ≠ [])
    (hlevel : s1.trail.decision_level ≠ 0)
    (ha : analyze_conflicts C.analysis s1 e1 conflicts = ((learned, level), s2, e2)) :
    learned ≠ [] ∧
    ([] ∈ learned → check_iteration C s ext = some (Outcome.returned Result.unsat s2 e2)) ∧
    (∀ (s3 : Solver) (clauses : List Clause) (e3 : σ), [] ∉ learned →
      learn s2 learned = some (s3, clauses) → C.should_restart e2 s3 = (false, e3) →
      check_iteration C s ext =
        (backtrack_with (C.is_before e3) s3 clauses level).map
          (fun s4 => Outcome.next s4 e3) ∧
      (∃ c0 rest, clauses = c0 :: rest) ∧
      (∀ c ∈ clauses, ∃ l ls, c = l :: ls)) ∧
    (∀ (t : Solver) (x : σ) (cs : List Clause), cs ≠ [] →
      (analyze_conflicts C.analysis t x cs).1.1 ≠ []) ∧
    (∀ (t t2 : Solver) (cs range : List Clause), learn t cs = some (t2, range) →
      (∀ c ∈ range, c ∈ cs) ∧ (cs ≠ [] → range ≠ [])) := by
  have hlearned : learned ≠ [] := by
    have := analyze_conflicts_learned_ne_nil C.analysis s1 e1 conflicts hint hconf
    rw [ha] at this
    exact this
  refine ⟨hlearned,
    fun hempty => check_iteration_empty_learned C s s1 s2 ext e1 e2 conflicts learned level
      hp hconf hlevel ha hempty,
    ?_,
    fun t x cs hne => analyze_conflicts_learned_ne_nil C.analysis t x cs hint hne,
    fun t t2 cs range h => learn_range_ne_nil t t2 cs range h⟩
  intro s3 clauses e3 hempty hl hr
  obtain ⟨hsub, hne⟩ := learn_range_ne_nil s2 s3 learned clauses hl
  refine ⟨check_iteration_reaches_backtrack C s s1 s2 s3 ext e1 e2 e3 conflicts learned
    clauses level hp hconf hlevel ha hempty hl hr, ?_, ?_⟩
  · cases hcl : clauses with
    | nil => exact absurd hcl (hne hlearned)
    | cons c0 rest => exact ⟨c0, rest, rfl⟩
  · intro c hc
    cases hcc : c with
    | nil =>
      exfalso
      apply hempty
      rw [← hcc]
      exact hsub c hc
    | cons l ls => exact ⟨l, ls, rfl⟩

/-- Witness for C21: on `split_trail` (decision level 1) a unit conflict is analyzed by
`size_analysis` and learned, and the policy does not restart: the learned list and the
range are not empty, and the iteration goes through `backtrack_with`. -/
theorem check_backtrack_range_in_bounds_witness :
    (∀ (e : Unit) (t : Trail) (c : Clause), (size_analysis.analyze e t c).level ≤ INT_MAX) ∧
    split_trail.decision_level ≠ 0 ∧
    (analyze_conflicts size_analysis (Solver.with_trail split_trail) () [[pos_lit 0]]).1.1
      ≠ [] ∧
    (∃ c0 rest, ((learn (analyze_conflicts size_analysis (Solver.with_trail split_trail) ()
      [[pos_lit 0]]).2.1 [[pos_lit 0]]).get (by decide)).2 = c0 :: rest) ∧
    (check_iteration (scripted [[pos_lit 0]] size_analysis false (bool_var 5))
      (Solver.with_trail split_trail) ()).isSome = true := by
  have hint : ∀ (e : Unit) (t : Trail) (c : Clause),
      (size_analysis.analyze e t c).level ≤ INT_MAX := by
    intro e t c
    simp only [size_analysis, INT_MAX]
    split_ifs <;> omega
  have h := check_backtrack_range_in_bounds
    (scripted [[pos_lit 0]] size_analysis false (bool_var 5))
    (Solver.with_trail split_trail) (Solver.with_trail split_trail)
    (analyze_conflicts size_analysis (Solver.with_trail split_trail) () [[pos_lit 0]]).2.1
    () () () [[pos_lit 0]] [[pos_lit 0]] 1 hint rfl (by decide) (by decide) rfl
  have h3 := h.2.2.1
    ((learn (analyze_conflicts size_analysis (Solver.with_trail split_trail) ()
      [[pos_lit 0]]).2.1 [[pos_lit 0]]).get (by decide)).1
    ((learn (analyze_conflicts size_analysis (Solver.with_trail split_trail) ()
      [[pos_lit 0]]).2.1 [[pos_lit 0]]).get (by decide)).2
    () (by decide)
    (Option.some_get (by decide : (learn (analyze_conflicts size_analysis
      (Solver.with_trail split_trail) () [[pos_lit 0]]).2.1 [[pos_lit 0]]).isSome
        = true)).symm rfl
  refine ⟨hint, by decide, h.1, h3.2.1, ?_⟩
  rw [h3.1, Option.isSome_map']
  decide

/-- When every level that the analyzer returns is `INT_MAX`, all derived clauses are
returned: the two conflicts analyzed by `max_level_analysis` give both clauses at level
`INT_MAX`. -/
theorem analyze_conflicts_at_int_max :
    (analyze_conflicts max_level_analysis (Solver.with_trail split_trail) ()
      [[pos_lit 0], [pos_lit 1]]).1 = ([[pos_lit 0], [pos_lit 1]], INT_MAX) := by
  decide

end Yaga
